import Mathlib

/-!
# CacheSim: inclusive three-level cache hierarchy with a CEASER-style LLC

Shallow embedding of `CacheSim/cache.hpp` and `CacheSim/controller.hpp`.

* `std::vector` storage is embedded as total maps from indices to values; every index the
  program uses is bounded by a mask or a loop bound.
* `uint16_t last_access` counters wrap modulo `2 ^ 16`; `uint16_t set_index` is truncated to
  16 bits. The `uint16_t` loop counters run up to `1 << bit_ways` (resp. `1 << bit_sets` in the
  constructor), so the embedding covers `bit_sets, bit_ways ≤ 15`.
* Addresses are 64-bit values; line addresses and tags are derived from them by right
  shifts, so `(tag << bit_sets) | set_index` never exceeds 64 bits and these values are natural
  numbers without truncation.
* `assert` failures are `none`.
* The shuffled `s_box` / `p_box` tables produced by `std::shuffle` are parameters of the
  constructor; the inverse tables are built by the constructor's own loops.
-/

namespace CacheSim

/-! ## Constants -/

/-- Macro `LINE_SIZE`: log2 of the number of words in a line. -/
def LINE_SIZE : Nat := 6

/-- Macro `LINE_MASK`: in `address & LINE_MASK` the expansion `(1<<LINE_SIZE) - 1` is the
right operand of `&`, since `-` binds tighter than `&`. -/
def LINE_MASK : Nat := (1 <<< LINE_SIZE) - 1

/-- Macro `FIESTEL_DEPTH`: number of rounds. -/
def FIESTEL_DEPTH : Nat := 4

/-- Macro `KEY_MASK`: the 20 low bits. -/
def KEY_MASK : Nat := 0x000FFFFF

/-! ## Storage helpers -/

/-- Write `a[s][i] = v` on a two-dimensional array. -/
def set2 {α : Type} (a : Nat → Nat → α) (s i : Nat) (v : α) : Nat → Nat → α :=
  Function.update a s (Function.update (a s) i v)

/-! ## Generic cache level (`class Cache`) -/

/-- Data members of `class Cache` (the `next_level` / `prev_level` links are fixed by the
functions of `Controller`). -/
structure Cache where
  bit_sets : Nat
  bit_ways : Nat
  cache_tag : Nat → Nat → Nat
  cache_valid : Nat → Nat → Bool
  last_access : Nat → Nat → Nat

namespace Cache

/-- Constructor `Cache(bit_sets, bit_ways, name)`: resized vectors are value-initialised. -/
def new (bit_sets bit_ways : Nat) : Cache :=
  { bit_sets := bit_sets, bit_ways := bit_ways,
    cache_tag := fun _ _ => 0, cache_valid := fun _ _ => false, last_access := fun _ _ => 0 }

/-- Loop bound `(1<<bit_ways)`. -/
def ways (c : Cache) : Nat := 1 <<< c.bit_ways

/-- The expression `uint16_t set_index = line_address & ((1<<bit_sets)-1)`. -/
def set_index (c : Cache) (line_address : Nat) : Nat :=
  (line_address &&& ((1 <<< c.bit_sets) - 1)) % 2 ^ 16

/-- The expression `uint64_t tag = line_address >> bit_sets`. -/
def tag (c : Cache) (line_address : Nat) : Nat := line_address >>> c.bit_sets

/-- Search loop of `access_helper` and `evict`: the first way `i` with
`cache_valid[set_index][i] && cache_tag[set_index][i] == tag`. -/
def find_tag (c : Cache) (set_index tag : Nat) : Option Nat :=
  (List.range c.ways).find? (fun i => c.cache_valid set_index i && c.cache_tag set_index i == tag)

/-- The "update all" loop: `for j: if (cache_valid[set_index][j]) last_access[set_index][j]++`,
on 16-bit counters. -/
def age_all (c : Cache) (set_index : Nat) : Cache :=
  { c with last_access := ((List.range c.ways).foldl
      (fun la j => if c.cache_valid set_index j
                   then set2 la set_index j ((la set_index j + 1) % 2 ^ 16) else la)
      c.last_access) }

/-- Hit branch of `access_helper` for a way that is not MRU:
`last_access[set_index][i] = 0`, then "update all". -/
def promote (c : Cache) (set_index i : Nat) : Cache :=
  age_all { c with last_access := set2 c.last_access set_index i 0 } set_index

/-- Method `Cache::access_helper`: returns the hit flag and the updated level. -/
def access_helper (c : Cache) (address : Nat) : Bool × Cache :=
  let line_address := address >>> LINE_SIZE
  let set_index := c.set_index line_address
  let tag := c.tag line_address
  match c.find_tag set_index tag with
  | some i =>
    if c.last_access set_index i ≠ 1 then
      (true, c.promote set_index i)
    else (true, c)
  | none => (false, c)

/-- Body of `evict` for the matching way `i`: clear the valid bit, then decrement every valid
age greater than the age of way `i`. -/
def invalidate (c : Cache) (set_index i : Nat) : Cache :=
  let valid := set2 c.cache_valid set_index i false
  { c with
    cache_valid := valid,
    last_access := ((List.range c.ways).foldl
      (fun la j => if valid set_index j && decide (la set_index j > la set_index i)
                   then set2 la set_index j (la set_index j - 1) else la)
      c.last_access) }

/-- Method `Cache::evict` on a level whose `prev_level` is empty. -/
def evict (c : Cache) (line_address : Nat) : Cache :=
  let set_index := c.set_index line_address
  let tag := c.tag line_address
  match c.find_tag set_index tag with
  | some i => c.invalidate set_index i
  | none => c

/-- Loop of `evict_LRU`: the first way of maximal age; `none` when the `assert` fails. -/
def lru_way (c : Cache) (set_index : Nat) : Option Nat :=
  (List.range c.ways).foldl
    (fun acc i => acc.bind fun lru =>
      if c.cache_valid set_index i then
        (if c.last_access set_index i > c.last_access set_index lru then some i else some lru)
      else none)
    (some 0)

/-- Argument of the `evict` call in `evict_LRU`: `(cache_tag[set_index][lru] << bit_sets) | set_index`.
Tags are stored from `line_address >> bit_sets`, so the value fits 64 bits. -/
def victim (c : Cache) (set_index lru : Nat) : Nat :=
  (c.cache_tag set_index lru <<< c.bit_sets) ||| set_index

/-- First loop of `insert`: the first way with `!cache_valid[set_index][i]`. -/
def find_invalid (c : Cache) (set_index : Nat) : Option Nat :=
  (List.range c.ways).find? (fun i => !c.cache_valid set_index i)

/-- Tail of `insert`: write the slot `pos`, then "update all". -/
def fill (c : Cache) (set_index pos tag : Nat) : Cache :=
  age_all { c with
    cache_valid := set2 c.cache_valid set_index pos true,
    cache_tag := set2 c.cache_tag set_index pos tag,
    last_access := set2 c.last_access set_index pos 0 } set_index

/-- Method `Cache::evict_LRU` on a level whose `prev_level` is empty. -/
def evict_LRU (c : Cache) (set_index : Nat) : Option (Nat × Cache) :=
  (c.lru_way set_index).map fun lru => (lru, c.evict (c.victim set_index lru))

/-- Method `Cache::insert` on a level whose `prev_level` is empty. -/
def insert (c : Cache) (line_address : Nat) : Option Cache :=
  let set_index := c.set_index line_address
  let tag := c.tag line_address
  match c.find_invalid set_index with
  | some pos => some (c.fill set_index pos tag)
  | none => (c.evict_LRU set_index).map fun r => r.2.fill set_index r.1 tag

/-- Method `Cache::access` on a stand-alone level (`next_level == nullptr`, no `prev_level`). -/
def access (c : Cache) (address : Nat) : Option (Nat × Cache) :=
  match c.access_helper address with
  | (true, c1) => some (0, c1)
  | (false, c1) => (c1.insert (address >>> LINE_SIZE)).map fun c2 => (1, c2)

/-- A sequence of `access` calls on a stand-alone level, in program order. -/
def run (c : Cache) : List Nat → Option Cache
  | [] => some c
  | address :: rest => (c.access address).bind fun r => run r.2 rest

/-- A line is valid at this level: some way of its set is valid and carries its tag. -/
def valid_line (c : Cache) (line_address : Nat) : Prop :=
  ∃ i, i < 2 ^ c.bit_ways ∧ c.cache_valid (line_address % 2 ^ c.bit_sets) i = true ∧
    c.cache_tag (line_address % 2 ^ c.bit_sets) i = line_address / 2 ^ c.bit_sets

instance (c : Cache) (l : Nat) : Decidable (c.valid_line l) := by
  unfold valid_line; infer_instance

end Cache

/-! ## Randomized-index LLC (`class CeaserCache`) -/

/-- Constructor loop `for k: inv[box[k]] = k` over a zero-initialised vector of size `n`. -/
def build_inv (n : Nat) (box : Nat → Nat) : Nat → Nat :=
  (List.range n).foldl (fun inv k => Function.update inv (box k) k) (fun _ => 0)

/-- Substitution loop of a round: `output |= box[j][(input >> (8*j)) & 0xFF] << (8*j)`, `j < 5`. -/
def s_layer (box : Nat → Nat → Nat) (input : Nat) : Nat :=
  (List.range 5).foldl
    (fun output j => output ||| (box j ((input >>> (8 * j)) &&& 0xFF) <<< (8 * j))) 0

/-- Permutation loop of a round: `output |= ((input >> j) & 1) << box[j]`, `j < 40`. -/
def p_layer (box : Nat → Nat) (input : Nat) : Nat :=
  (List.range 40).foldl
    (fun output j => output ||| (((input >>> j) &&& 1) <<< box j)) 0

/-- Data members of `class CeaserCache`. -/
structure CeaserCache extends Cache where
  keys : List Nat
  s_box : Nat → Nat → Nat → Nat
  inv_s_box : Nat → Nat → Nat → Nat
  p_box : Nat → Nat → Nat
  inv_p_box : Nat → Nat → Nat

namespace CeaserCache

/-- Constructor `CeaserCache(seed, key)`; `s_box` and `p_box` are the tables left by the
`std::shuffle` calls, the inverse tables are filled by the constructor loops. -/
def new (key : List Nat) (s_box : Nat → Nat → Nat → Nat) (p_box : Nat → Nat → Nat) :
    Option CeaserCache :=
  if key.length = FIESTEL_DEPTH then
    some { toCache := Cache.new 11 5,
           keys := key.map (fun k => KEY_MASK &&& k),
           s_box := s_box,
           inv_s_box := fun i j => build_inv (1 <<< 8) (s_box i j),
           p_box := p_box,
           inv_p_box := fun i => build_inv 40 (p_box i) }
  else none

/-- Method `CeaserCache::encrypt`. -/
def encrypt (l : CeaserCache) (line_address : Nat) : Nat :=
  (List.range FIESTEL_DEPTH).foldl
    (fun input i => p_layer (l.p_box i) (s_layer (l.s_box i) input)) line_address

/-- Method `CeaserCache::decrypt`. -/
def decrypt (l : CeaserCache) (cipher_address : Nat) : Nat :=
  (List.range FIESTEL_DEPTH).reverse.foldl
    (fun input i => s_layer (l.inv_s_box i) (p_layer (l.inv_p_box i) input)) cipher_address

end CeaserCache

/-! ## Hierarchy controller (`class Controller`) -/

/-- Data members of `class Controller`; the links are L1D → L2D → LLC. -/
structure Controller where
  L1D : Cache
  L2D : Cache
  LLC : CeaserCache

namespace Controller

/-- Constructor `Controller()`. -/
def new (s_box : Nat → Nat → Nat → Nat) (p_box : Nat → Nat → Nat) : Option Controller :=
  (CeaserCache.new [100, 200, 300, 400] s_box p_box).map fun llc =>
    { L1D := Cache.new 8 3, L2D := Cache.new 10 4, LLC := llc }

/-- Store a new value of the member `L1D`. -/
def setL1D (st : Controller) (c : Cache) : Controller := { st with L1D := c }

/-- Store a new value of the member `L2D`. -/
def setL2D (st : Controller) (c : Cache) : Controller := { st with L2D := c }

/-- Store new arrays in the member `LLC`; keys and tables are kept. -/
def setLLC (st : Controller) (c : Cache) : Controller :=
  { st with LLC := { st.LLC with toCache := c } }

/-- Method `Cache::evict` on L1D (`prev_level` empty). -/
def L1D_evict (st : Controller) (line_address : Nat) : Controller :=
  st.setL1D (st.L1D.evict line_address)

/-- Method `Cache::evict` on L2D (`prev_level = {L1D}`). -/
def L2D_evict (st : Controller) (line_address : Nat) : Controller :=
  let set_index := st.L2D.set_index line_address
  let tag := st.L2D.tag line_address
  match st.L2D.find_tag set_index tag with
  | some i => (st.setL2D (st.L2D.invalidate set_index i)).L1D_evict line_address
  | none => st

/-- Method `CeaserCache::evict` on the LLC (`prev_level = {L2D}`). -/
def LLC_evict (st : Controller) (line_address : Nat) : Controller :=
  let set_index := st.LLC.set_index line_address
  let tag := st.LLC.tag line_address
  match st.LLC.find_tag set_index tag with
  | some i =>
    (st.setLLC (st.LLC.invalidate set_index i)).L2D_evict (st.LLC.decrypt line_address)
  | none => st

/-- Method `Cache::insert` on L1D. -/
def L1D_insert (st : Controller) (line_address : Nat) : Option Controller :=
  (st.L1D.insert line_address).map fun c => st.setL1D c

/-- Method `Cache::evict_LRU` on L2D. -/
def L2D_evict_LRU (st : Controller) (set_index : Nat) : Option (Nat × Controller) :=
  (st.L2D.lru_way set_index).map fun lru => (lru, st.L2D_evict (st.L2D.victim set_index lru))

/-- Method `Cache::insert` on L2D. -/
def L2D_insert (st : Controller) (line_address : Nat) : Option Controller :=
  let set_index := st.L2D.set_index line_address
  let tag := st.L2D.tag line_address
  match st.L2D.find_invalid set_index with
  | some pos => some (st.setL2D (st.L2D.fill set_index pos tag))
  | none => (st.L2D_evict_LRU set_index).map fun r =>
      r.2.setL2D (r.2.L2D.fill set_index r.1 tag)

/-- Method `Cache::evict_LRU` on the LLC (the `evict` call is virtual). -/
def LLC_evict_LRU (st : Controller) (set_index : Nat) : Option (Nat × Controller) :=
  (st.LLC.lru_way set_index).map fun lru => (lru, st.LLC_evict (st.LLC.victim set_index lru))

/-- Method `Cache::insert` on the LLC. -/
def LLC_insert (st : Controller) (line_address : Nat) : Option Controller :=
  let set_index := st.LLC.set_index line_address
  let tag := st.LLC.tag line_address
  match st.LLC.find_invalid set_index with
  | some pos => some (st.setLLC (st.LLC.fill set_index pos tag))
  | none => (st.LLC_evict_LRU set_index).map fun r =>
      r.2.setLLC (r.2.LLC.fill set_index r.1 tag)

/-- Method `CeaserCache::access` on the LLC: `Cache::access` (with `next_level == nullptr`)
on the re-assembled ciphertext address. -/
def LLC_access (st : Controller) (address : Nat) : Option (Nat × Controller) :=
  let address := (st.LLC.encrypt (address >>> LINE_SIZE) <<< LINE_SIZE) ||| (address &&& LINE_MASK)
  match st.LLC.access_helper address with
  | (true, c) => some (0, st.setLLC c)
  | (false, c) => ((st.setLLC c).LLC_insert (address >>> LINE_SIZE)).map fun st2 => (1, st2)

/-- Method `Cache::access` on L2D (`next_level = &LLC`). -/
def L2D_access (st : Controller) (address : Nat) : Option (Nat × Controller) :=
  match st.L2D.access_helper address with
  | (true, c) => some (0, st.setL2D c)
  | (false, c) =>
    ((st.setL2D c).LLC_access address).bind fun r =>
      (r.2.L2D_insert (address >>> LINE_SIZE)).map fun st2 => (1 + r.1, st2)

/-- Method `Cache::access` on L1D (`next_level = &L2D`). -/
def L1D_access (st : Controller) (address : Nat) : Option (Nat × Controller) :=
  match st.L1D.access_helper address with
  | (true, c) => some (0, st.setL1D c)
  | (false, c) =>
    ((st.setL1D c).L2D_access address).bind fun r =>
      (r.2.L1D_insert (address >>> LINE_SIZE)).map fun st2 => (1 + r.1, st2)

/-- Method `Controller::access`; `none` when `assert((addr >> 46) == 0)` fails. -/
def access (st : Controller) (addr : Nat) : Option (Nat × Controller) :=
  if addr >>> 46 = 0 then st.L1D_access addr else none

/-- A sequence of `access` calls in program order, from the state `st`. -/
def run (st : Controller) : List Nat → Option Controller
  | [] => some st
  | addr :: rest => (st.access addr).bind fun r => run r.2 rest

end Controller

/-! ## Specification-level notions -/

/-- The table `f` restricted to `[0, n)` is a permutation of `[0, n)`. -/
def IsPerm (n : Nat) (f : Nat → Nat) : Prop :=
  (∀ k, k < n → f k < n) ∧ (∀ a b, a < n → b < n → f a = f b → a = b)

/-- Table hypotheses on the shuffled boxes: every `s_box[i][j]` is a permutation of `[0,256)`
and every `p_box[i]` is a permutation of `[0,40)`. -/
def ShuffledBoxes (s_box : Nat → Nat → Nat → Nat) (p_box : Nat → Nat → Nat) : Prop :=
  (∀ i j, i < FIESTEL_DEPTH → j < 5 → IsPerm 256 (s_box i j)) ∧
  (∀ i, i < FIESTEL_DEPTH → IsPerm 40 (p_box i))

/-- A fresh `Controller` followed by a sequence of `access` calls. -/
def Controller.exec (s_box : Nat → Nat → Nat → Nat) (p_box : Nat → Nat → Nat)
    (addrs : List Nat) : Option Controller :=
  (Controller.new s_box p_box).bind fun st => st.run addrs

/-- Sample substitution tables: every box reverses `[0,256)`. -/
def revS : Nat → Nat → Nat → Nat := fun _ _ k => 255 - k

/-- Sample permutation tables: every box reverses `[0,40)`. -/
def revP : Nat → Nat → Nat := fun _ k => 39 - k

/-- No two valid ways of a set carry the same tag. -/
def Cache.TagsUnique (c : Cache) : Prop :=
  ∀ s i j, i < 2 ^ c.bit_ways → j < 2 ^ c.bit_ways →
    c.cache_valid s i = true → c.cache_valid s j = true →
    c.cache_tag s i = c.cache_tag s j → i = j

/-- Ages of the valid ways of every set are pairwise distinct and lie in `[1, n]`. -/
def Cache.AgesOK (n : Nat) (c : Cache) : Prop :=
  (∀ s i, i < 2 ^ c.bit_ways → c.cache_valid s i = true →
    1 ≤ c.last_access s i ∧ c.last_access s i ≤ n) ∧
  (∀ s i j, i < 2 ^ c.bit_ways → j < 2 ^ c.bit_ways →
    c.cache_valid s i = true → c.cache_valid s j = true →
    c.last_access s i = c.last_access s j → i = j)

/-- Shape parameters installed by the `Controller` constructor. -/
def Controller.Shaped (st : Controller) : Prop :=
  st.L1D.bit_sets = 8 ∧ st.L1D.bit_ways = 3 ∧ st.L2D.bit_sets = 10 ∧ st.L2D.bit_ways = 4 ∧
  st.LLC.bit_sets = 11 ∧ st.LLC.bit_ways = 5

/-- Inclusion: every line valid in L1D is valid in L2D, and the ciphertext of every line valid
in L2D is valid in the LLC. -/
def Controller.Inclusive (st : Controller) : Prop :=
  (∀ l, st.L1D.valid_line l → st.L2D.valid_line l) ∧
  (∀ l, st.L2D.valid_line l → st.LLC.valid_line (st.LLC.encrypt l))

/-- Tag uniqueness at the three levels. -/
def Controller.TagsUnique (st : Controller) : Prop :=
  st.L1D.TagsUnique ∧ st.L2D.TagsUnique ∧ st.LLC.TagsUnique

/-- Age bounds and distinctness at the three levels, with one bound per level. -/
def Controller.Ages (n1 n2 n3 : Nat) (st : Controller) : Prop :=
  st.L1D.AgesOK n1 ∧ st.L2D.AgesOK n2 ∧ st.LLC.AgesOK n3

/-- Invariant of the hierarchy carried through every `access`. -/
structure Controller.Inv (st : Controller) : Prop where
  shaped : st.Shaped
  u1 : st.L1D.TagsUnique
  u2 : st.L2D.TagsUnique
  u3 : st.LLC.TagsUnique
  inc12 : ∀ l, st.L1D.valid_line l → st.L2D.valid_line l
  inc23 : ∀ l, st.L2D.valid_line l → st.LLC.valid_line (st.LLC.encrypt l)
  r2 : ∀ l, st.L2D.valid_line l → l < 2 ^ 40
  cancel : ∀ x, x < 2 ^ 40 → st.LLC.decrypt (st.LLC.encrypt x) = x
  uncancel : ∀ x, x < 2 ^ 40 → st.LLC.encrypt (st.LLC.decrypt x) = x

/-- Miss depth of a line in a given state: the first level, from L1D down, that holds it. -/
def Controller.depth (st : Controller) (line_address : Nat) : Nat :=
  if st.L1D.valid_line line_address then 0
  else if st.L2D.valid_line line_address then 1
  else if st.LLC.valid_line (st.LLC.encrypt line_address) then 2
  else 3

/-- Set `s` holds exactly the tags `t 0 .. t (k-1)` in ways `0 .. k-1`, inserted in that order
(way `i` has age `k - i`), and every way from `k` on is invalid. -/
def Cache.FilledTo (c : Cache) (s : Nat) (t : Nat → Nat) (k : Nat) : Prop :=
  (∀ i, i < k → c.cache_valid s i = true ∧ c.cache_tag s i = t i ∧ c.last_access s i = k - i) ∧
  (∀ i, k ≤ i → c.cache_valid s i = false)

/-- Every way of index at least `k` is invalid, in every set. -/
def Cache.FreeFrom (k : Nat) (c : Cache) : Prop :=
  ∀ s j, k ≤ j → c.cache_valid s j = false

/-- Eight addresses whose lines `0, 256, .., 7 * 256` are distinct and share set 0 of a level
with 8 set bits. -/
def capacityAddrs : List Nat := [0, 16384, 32768, 49152, 65536, 81920, 98304, 114688]

/-- Address of the `i`-th line of set 0 of a level with 8 set bits: line `i * 256`. -/
def sameSetAddr (i : Nat) : Nat := (i * 256) <<< LINE_SIZE

/-- Ages of the valid ways of set `s`, in way order. -/
def Cache.valid_ages (c : Cache) (s : Nat) : List Nat :=
  ((List.range (2 ^ c.bit_ways)).filter fun i => c.cache_valid s i).map fun i =>
    c.last_access s i

/-- The ages of the valid ways of set `s` are a permutation of `0 .. V-1`, where `V` is the
number of valid ways of the set. -/
def Cache.AgesContiguous (c : Cache) (s : Nat) : Prop :=
  List.Perm (c.valid_ages s) (List.range (c.valid_ages s).length)

instance (c : Cache) (s : Nat) : Decidable (c.AgesContiguous s) := by
  unfold Cache.AgesContiguous; infer_instance

/-- State of the hierarchy after the accesses to addresses 0, 16384 and 64 on a fresh
controller built with the sample tables. -/
def sampleState : Controller :=
  (Controller.exec revS revP [0, 16384, 64]).getD
    { L1D := Cache.new 8 3, L2D := Cache.new 10 4,
      LLC := { toCache := Cache.new 11 5, keys := [], s_box := revS, inv_s_box := revS,
               p_box := revP, inv_p_box := revP } }

/-- Set `s` after four lines with tags `t 0 .. t 3` were installed in ways 0..3 and then hit
`k` times, alternating the lines of ways 2 and 3 (way 2 first): ways 0 and 1 carry the ages
`4 + k` and `3 + k` reduced modulo `2^16`, ways 2 and 3 carry the ages 1 and 2 in the order of
the last hit, and every further way is invalid. -/
def Cache.Cycling (c : Cache) (s : Nat) (t : Nat → Nat) (k : Nat) : Prop :=
  (∀ i, i < 4 → c.cache_valid s i = true ∧ c.cache_tag s i = t i) ∧
  (∀ i, 4 ≤ i → c.cache_valid s i = false) ∧
  c.last_access s 0 = (4 + k) % 2 ^ 16 ∧ c.last_access s 1 = (3 + k) % 2 ^ 16 ∧
  c.last_access s 2 = (if k % 2 = 0 then 2 else 1) ∧
  c.last_access s 3 = (if k % 2 = 0 then 1 else 2)

/-- Address of the `j`-th re-access of the long trace: line 512 for even `j`, line 768 for
odd `j`. -/
def hitAddr (j : Nat) : Nat := sameSetAddr (2 + j % 2)

/-- Long trace: the lines 0, 256, 512, 768 of set 0, then `n` re-accesses alternating the lines
512 and 768. -/
def wrapTrace (n : Nat) : List Nat := (List.range 4).map sameSetAddr ++ (List.range n).map hitAddr

/-- Reference true-LRU model, recency order: the distinct lines accessed so far, most recently
accessed first. -/
def refLRU_stack (addrs : List Nat) : List Nat :=
  addrs.foldl (fun stack a => (a >>> LINE_SIZE) :: stack.erase (a >>> LINE_SIZE)) []

/-- Reference true-LRU model, resident lines of the set of line `l`: the `2^bit_ways` most
recently accessed distinct lines mapping to that set. -/
def refLRU_set (bit_sets bit_ways : Nat) (addrs : List Nat) (l : Nat) : List Nat :=
  ((refLRU_stack addrs).filter fun x => x % 2 ^ bit_sets = l % 2 ^ bit_sets).take (2 ^ bit_ways)

/-- The line is valid at the level and every way that holds it carries the age 1: the age
`access_helper` tests for (`last_access != 1`) and the age `insert` and a hit leave on the
slot they touch. -/
def Cache.AgeOne (c : Cache) (l : Nat) : Prop :=
  c.valid_line l ∧
  ∀ j, j < 2 ^ c.bit_ways → c.cache_valid (l % 2 ^ c.bit_sets) j = true →
    c.cache_tag (l % 2 ^ c.bit_sets) j = l / 2 ^ c.bit_sets →
    c.last_access (l % 2 ^ c.bit_sets) j = 1

/-- An event of the hierarchy: a call of `Controller::access`, or the eviction of a line by the
LLC (`CeaserCache::evict` on the ciphertext of the line, with its back-invalidations), as
`evict_LRU` of the LLC performs it on its victim. -/
inductive Op where
  | access (addr : Nat) : Op
  | evict (line : Nat) : Op

/-- An `access` event respects `assert((addr >> 46) == 0)`; an eviction has no precondition. -/
def Op.ok : Op → Bool
  | .access addr => decide (addr < 2 ^ 46)
  | .evict _ => true

/-- One event applied to a state. -/
def Controller.step (st : Controller) : Op → Option Controller
  | .access addr => (st.access addr).map fun r => r.2
  | .evict line => some (st.LLC_evict (st.LLC.encrypt line))

/-- A sequence of events in program order, from the state `st`. -/
def Controller.runOps (st : Controller) : List Op → Option Controller
  | [] => some st
  | op :: rest => (st.step op).bind fun st1 => Controller.runOps st1 rest

/-- A fresh `Controller` followed by a sequence of events. -/
def Controller.execOps (s_box : Nat → Nat → Nat → Nat) (p_box : Nat → Nat → Nat)
    (ops : List Op) : Option Controller :=
  (Controller.new s_box p_box).bind fun st => st.runOps ops

/-! ## The keyed bijection: bit-level lemmas -/

theorem testBit_foldl_or (f : Nat → Nat) (l : List Nat) (init b : Nat) :
    (l.foldl (fun o j => o ||| f j) init).testBit b
      = (init.testBit b || l.any (fun j => (f j).testBit b)) := by
  induction l generalizing init with
  | nil => simp
  | cons a t ih => simp [ih, Nat.testBit_or, Bool.or_assoc]

theorem testBit_bit_shift (x j p b : Nat) :
    (((x >>> j) &&& 1) <<< p).testBit b = (decide (b = p) && x.testBit j) := by
  rw [Nat.testBit_shiftLeft, Nat.testBit_and, Nat.testBit_shiftRight]
  by_cases h : b = p
  · subst h; simp
  · by_cases h2 : p ≤ b
    · have h0 : b - p ≠ 0 := by omega
      have h1 : Nat.testBit 1 (b - p) = false := by
        rw [Bool.eq_false_iff]
        intro hh
        exact h0 (Nat.testBit_one_eq_true_iff_self_eq_zero.mp hh)
      simp [h, h1]
    · simp [h, h2]

theorem testBit_lt_of_lt {v n i : Nat} (hv : v < 2 ^ n) (h : v.testBit i = true) : i < n := by
  by_contra hn
  have : v < 2 ^ i := lt_of_lt_of_le hv (Nat.pow_le_pow_right (by norm_num) (by omega))
  rw [Nat.testBit_lt_two_pow this] at h
  exact Bool.false_ne_true h

theorem byte_lt (x j : Nat) : (x >>> (8 * j)) &&& 0xFF < 256 := by
  have h255 : (0xFF : Nat) = 2 ^ 8 - 1 := by norm_num
  rw [h255, Nat.and_pow_two_sub_one_eq_mod]
  exact Nat.mod_lt _ (by norm_num)

theorem p_layer_testBit (P : Nat → Nat) (x b : Nat) :
    (p_layer P x).testBit b = true ↔ ∃ j, j < 40 ∧ b = P j ∧ x.testBit j = true := by
  unfold p_layer
  rw [testBit_foldl_or (fun j => ((x >>> j) &&& 1) <<< P j)]
  simp only [Nat.zero_testBit, Bool.false_or, List.any_eq_true, List.mem_range,
    testBit_bit_shift, Bool.and_eq_true, decide_eq_true_eq]

theorem p_layer_cancel (P Q : Nat → Nat) (hP : ∀ k, k < 40 → P k < 40)
    (hQ : ∀ k, k < 40 → Q (P k) = k) (x : Nat) :
    p_layer Q (p_layer P x) = x % 2 ^ 40 := by
  apply Nat.eq_of_testBit_eq
  intro b
  rw [Bool.eq_iff_iff, p_layer_testBit, Nat.testBit_mod_two_pow]
  simp only [p_layer_testBit, Bool.and_eq_true, decide_eq_true_eq]
  constructor
  · rintro ⟨j, _, hb, k, hk, hj, hx⟩
    have : b = k := by rw [hb, hj, hQ k hk]
    subst this
    exact ⟨hk, hx⟩
  · rintro ⟨hb, hx⟩
    exact ⟨P b, hP b hb, (hQ b hb).symm, b, hb, rfl, hx⟩

theorem p_layer_lt (P : Nat → Nat) (hP : ∀ k, k < 40 → P k < 40) (x : Nat) :
    p_layer P x < 2 ^ 40 := by
  apply Nat.lt_pow_two_of_testBit
  intro b hb
  rw [Bool.eq_false_iff]
  intro h
  obtain ⟨j, hj, hbj, _⟩ := (p_layer_testBit P x b).mp h
  have := hP j hj
  omega

theorem s_layer_testBit (S : Nat → Nat → Nat) (x b : Nat) :
    (s_layer S x).testBit b = true ↔
      ∃ j, j < 5 ∧ 8 * j ≤ b ∧ (S j ((x >>> (8 * j)) &&& 0xFF)).testBit (b - 8 * j) = true := by
  unfold s_layer
  rw [testBit_foldl_or (fun j => S j ((x >>> (8 * j)) &&& 0xFF) <<< (8 * j))]
  simp only [Nat.zero_testBit, Bool.false_or, List.any_eq_true, List.mem_range,
    Nat.testBit_shiftLeft, Bool.and_eq_true, decide_eq_true_eq, ge_iff_le]

theorem s_layer_lt (S : Nat → Nat → Nat) (hS : ∀ j v, j < 5 → v < 256 → S j v < 256) (x : Nat) :
    s_layer S x < 2 ^ 40 := by
  apply Nat.lt_pow_two_of_testBit
  intro b hb
  rw [Bool.eq_false_iff]
  intro h
  obtain ⟨j, hj, hjb, ht⟩ := (s_layer_testBit S x b).mp h
  have := testBit_lt_of_lt (n := 8) (hS j _ hj (byte_lt x j)) ht
  omega

theorem s_layer_byte (S : Nat → Nat → Nat) (hS : ∀ j v, j < 5 → v < 256 → S j v < 256)
    (x k : Nat) (hk : k < 5) :
    (s_layer S x >>> (8 * k)) &&& 0xFF = S k ((x >>> (8 * k)) &&& 0xFF) := by
  apply Nat.eq_of_testBit_eq
  intro i
  have h255 : (0xFF : Nat) = 2 ^ 8 - 1 := by norm_num
  rw [Bool.eq_iff_iff, Nat.testBit_and, Nat.testBit_shiftRight]
  nth_rewrite 1 [h255]
  rw [Nat.testBit_two_pow_sub_one]
  simp only [Bool.and_eq_true, decide_eq_true_eq, s_layer_testBit]
  constructor
  · rintro ⟨⟨j, hj, hjb, ht⟩, hi⟩
    have := testBit_lt_of_lt (n := 8) (hS j _ hj (byte_lt x j)) ht
    have hjk : j = k := by omega
    subst hjk
    have : 8 * j + i - 8 * j = i := by omega
    rwa [this] at ht
  · intro ht
    have hi := testBit_lt_of_lt (n := 8) (hS k _ hk (byte_lt x k)) ht
    refine ⟨⟨k, hk, by omega, ?_⟩, hi⟩
    have : 8 * k + i - 8 * k = i := by omega
    rwa [this]

theorem s_layer_cancel (S T : Nat → Nat → Nat)
    (hS : ∀ j v, j < 5 → v < 256 → S j v < 256)
    (hT : ∀ j v, j < 5 → v < 256 → T j (S j v) = v) (x : Nat) :
    s_layer T (s_layer S x) = x % 2 ^ 40 := by
  apply Nat.eq_of_testBit_eq
  intro b
  have h255 : (0xFF : Nat) = 2 ^ 8 - 1 := by norm_num
  rw [Bool.eq_iff_iff, s_layer_testBit, Nat.testBit_mod_two_pow]
  simp only [Bool.and_eq_true, decide_eq_true_eq]
  constructor
  · rintro ⟨j, hj, hjb, ht⟩
    rw [s_layer_byte S hS x j hj, hT j _ hj (byte_lt x j), Nat.testBit_and,
      Nat.testBit_shiftRight, h255, Nat.testBit_two_pow_sub_one] at ht
    simp only [Bool.and_eq_true, decide_eq_true_eq] at ht
    have : 8 * j + (b - 8 * j) = b := by omega
    rw [this] at ht
    exact ⟨by omega, ht.1⟩
  · rintro ⟨hb, ht⟩
    refine ⟨b / 8, by omega, by omega, ?_⟩
    rw [s_layer_byte S hS x _ (by omega), hT _ _ (by omega) (byte_lt x _), Nat.testBit_and,
      Nat.testBit_shiftRight, h255, Nat.testBit_two_pow_sub_one]
    have : 8 * (b / 8) + (b - 8 * (b / 8)) = b := by omega
    rw [this, ht]
    simp
    omega

/-! ## Inverse tables -/

theorem build_inv_succ (n : Nat) (box : Nat → Nat) :
    build_inv (n + 1) box = Function.update (build_inv n box) (box n) n := by
  simp [build_inv, List.range_succ]

theorem build_inv_apply (n : Nat) (box : Nat → Nat)
    (hinj : ∀ a b, a < n → b < n → box a = box b → a = b) (k : Nat) (hk : k < n) :
    build_inv n box (box k) = k := by
  induction n with
  | zero => omega
  | succ n ih =>
    rw [build_inv_succ]
    by_cases hkn : k = n
    · subst hkn; simp
    · have hne : box k ≠ box n := fun h => hkn (hinj k n hk (by omega) h)
      rw [Function.update_noteq hne]
      exact ih (fun a b ha hb => hinj a b (by omega) (by omega)) (by omega)

theorem IsPerm.surj {n : Nat} {f : Nat → Nat} (h : IsPerm n f) (v : Nat) (hv : v < n) :
    ∃ k, k < n ∧ f k = v := by
  let g : Fin n → Fin n := fun a => ⟨f a.1, h.1 a.1 a.2⟩
  have hg : Function.Injective g := by
    intro a b hab
    apply Fin.ext
    exact h.2 a.1 b.1 a.2 b.2 (congrArg Fin.val hab)
  obtain ⟨a, ha⟩ := (Finite.injective_iff_surjective.mp hg) ⟨v, hv⟩
  exact ⟨a.1, a.2, congrArg Fin.val ha⟩

theorem build_inv_lt {n : Nat} {f : Nat → Nat} (h : IsPerm n f) (v : Nat) (hv : v < n) :
    build_inv n f v < n := by
  obtain ⟨k, hk, rfl⟩ := h.surj v hv
  rw [build_inv_apply n f h.2 k hk]
  exact hk

theorem apply_build_inv {n : Nat} {f : Nat → Nat} (h : IsPerm n f) (v : Nat) (hv : v < n) :
    f (build_inv n f v) = v := by
  obtain ⟨k, hk, rfl⟩ := h.surj v hv
  rw [build_inv_apply n f h.2 k hk]

/-! ## Encrypt / decrypt -/

theorem CeaserCache.encrypt_eq (l : CeaserCache) (x : Nat) :
    l.encrypt x =
      p_layer (l.p_box 3) (s_layer (l.s_box 3) (p_layer (l.p_box 2) (s_layer (l.s_box 2)
        (p_layer (l.p_box 1) (s_layer (l.s_box 1) (p_layer (l.p_box 0)
          (s_layer (l.s_box 0) x))))))) := rfl

theorem CeaserCache.decrypt_eq (l : CeaserCache) (x : Nat) :
    l.decrypt x =
      s_layer (l.inv_s_box 0) (p_layer (l.inv_p_box 0) (s_layer (l.inv_s_box 1)
        (p_layer (l.inv_p_box 1) (s_layer (l.inv_s_box 2) (p_layer (l.inv_p_box 2)
          (s_layer (l.inv_s_box 3) (p_layer (l.inv_p_box 3) x))))))) := rfl

theorem CeaserCache.decrypt_encrypt_of_tables (l : CeaserCache)
    (hS : ∀ i j v, i < 4 → j < 5 → v < 256 → l.s_box i j v < 256)
    (hSi : ∀ i j v, i < 4 → j < 5 → v < 256 → l.inv_s_box i j (l.s_box i j v) = v)
    (hP : ∀ i k, i < 4 → k < 40 → l.p_box i k < 40)
    (hPi : ∀ i k, i < 4 → k < 40 → l.inv_p_box i (l.p_box i k) = k)
    (x : Nat) (hx : x < 2 ^ 40) : l.decrypt (l.encrypt x) = x := by
  have pc : ∀ i, i < 4 → ∀ y, y < 2 ^ 40 →
      p_layer (l.inv_p_box i) (p_layer (l.p_box i) y) = y := fun i hi y hy => by
    rw [p_layer_cancel _ _ (fun k hk => hP i k hi hk) (fun k hk => hPi i k hi hk),
      Nat.mod_eq_of_lt hy]
  have sc : ∀ i, i < 4 → ∀ y, y < 2 ^ 40 →
      s_layer (l.inv_s_box i) (s_layer (l.s_box i) y) = y := fun i hi y hy => by
    rw [s_layer_cancel _ _ (fun j v hj hv => hS i j v hi hj hv)
      (fun j v hj hv => hSi i j v hi hj hv), Nat.mod_eq_of_lt hy]
  have pl : ∀ i, i < 4 → ∀ y, p_layer (l.p_box i) y < 2 ^ 40 := fun i hi y =>
    p_layer_lt _ (fun k hk => hP i k hi hk) y
  have sl : ∀ i, i < 4 → ∀ y, s_layer (l.s_box i) y < 2 ^ 40 := fun i hi y =>
    s_layer_lt _ (fun j v hj hv => hS i j v hi hj hv) y
  rw [l.encrypt_eq, l.decrypt_eq]
  rw [pc 3 (by norm_num) _ (sl 3 (by norm_num) _), sc 3 (by norm_num) _ (pl 2 (by norm_num) _),
    pc 2 (by norm_num) _ (sl 2 (by norm_num) _), sc 2 (by norm_num) _ (pl 1 (by norm_num) _),
    pc 1 (by norm_num) _ (sl 1 (by norm_num) _), sc 1 (by norm_num) _ (pl 0 (by norm_num) _),
    pc 0 (by norm_num) _ (sl 0 (by norm_num) _), sc 0 (by norm_num) _ hx]

theorem CeaserCache.encrypt_decrypt_of_tables (l : CeaserCache)
    (hS : ∀ i j v, i < 4 → j < 5 → v < 256 → l.inv_s_box i j v < 256)
    (hSi : ∀ i j v, i < 4 → j < 5 → v < 256 → l.s_box i j (l.inv_s_box i j v) = v)
    (hP : ∀ i k, i < 4 → k < 40 → l.inv_p_box i k < 40)
    (hPi : ∀ i k, i < 4 → k < 40 → l.p_box i (l.inv_p_box i k) = k)
    (x : Nat) (hx : x < 2 ^ 40) : l.encrypt (l.decrypt x) = x := by
  have pc : ∀ i, i < 4 → ∀ y, y < 2 ^ 40 →
      p_layer (l.p_box i) (p_layer (l.inv_p_box i) y) = y := fun i hi y hy => by
    rw [p_layer_cancel _ _ (fun k hk => hP i k hi hk) (fun k hk => hPi i k hi hk),
      Nat.mod_eq_of_lt hy]
  have sc : ∀ i, i < 4 → ∀ y, y < 2 ^ 40 →
      s_layer (l.s_box i) (s_layer (l.inv_s_box i) y) = y := fun i hi y hy => by
    rw [s_layer_cancel _ _ (fun j v hj hv => hS i j v hi hj hv)
      (fun j v hj hv => hSi i j v hi hj hv), Nat.mod_eq_of_lt hy]
  have pl : ∀ i, i < 4 → ∀ y, p_layer (l.inv_p_box i) y < 2 ^ 40 := fun i hi y =>
    p_layer_lt _ (fun k hk => hP i k hi hk) y
  have sl : ∀ i, i < 4 → ∀ y, s_layer (l.inv_s_box i) y < 2 ^ 40 := fun i hi y =>
    s_layer_lt _ (fun j v hj hv => hS i j v hi hj hv) y
  rw [l.encrypt_eq, l.decrypt_eq]
  rw [sc 0 (by norm_num) _ (pl 0 (by norm_num) _), pc 0 (by norm_num) _ (sl 1 (by norm_num) _),
    sc 1 (by norm_num) _ (pl 1 (by norm_num) _), pc 1 (by norm_num) _ (sl 2 (by norm_num) _),
    sc 2 (by norm_num) _ (pl 2 (by norm_num) _), pc 2 (by norm_num) _ (sl 3 (by norm_num) _),
    sc 3 (by norm_num) _ (pl 3 (by norm_num) _), pc 3 (by norm_num) _ hx]

theorem CeaserCache.encrypt_lt (l : CeaserCache)
    (hP : ∀ k, k < 40 → l.p_box 3 k < 40) (x : Nat) : l.encrypt x < 2 ^ 40 := by
  rw [l.encrypt_eq]
  exact p_layer_lt _ hP _

theorem CeaserCache.new_eq (key : List Nat) (s_box : Nat → Nat → Nat → Nat)
    (p_box : Nat → Nat → Nat) (hkey : key.length = FIESTEL_DEPTH) :
    CeaserCache.new key s_box p_box =
      some { toCache := Cache.new 11 5,
             keys := key.map (fun k => KEY_MASK &&& k),
             s_box := s_box,
             inv_s_box := fun i j => build_inv (1 <<< 8) (s_box i j),
             p_box := p_box,
             inv_p_box := fun i => build_inv 40 (p_box i) } := by
  simp [CeaserCache.new, hkey]

/-- Table facts that make `decrypt` the two-sided inverse of `encrypt`. -/
theorem CeaserCache.tables_of_new {key : List Nat} {s_box : Nat → Nat → Nat → Nat}
    {p_box : Nat → Nat → Nat} {l : CeaserCache} (hbox : ShuffledBoxes s_box p_box)
    (hl : CeaserCache.new key s_box p_box = some l) :
    (∀ i j v, i < 4 → j < 5 → v < 256 → l.s_box i j v < 256) ∧
    (∀ i j v, i < 4 → j < 5 → v < 256 → l.inv_s_box i j (l.s_box i j v) = v) ∧
    (∀ i k, i < 4 → k < 40 → l.p_box i k < 40) ∧
    (∀ i k, i < 4 → k < 40 → l.inv_p_box i (l.p_box i k) = k) ∧
    (∀ i j v, i < 4 → j < 5 → v < 256 → l.inv_s_box i j v < 256) ∧
    (∀ i j v, i < 4 → j < 5 → v < 256 → l.s_box i j (l.inv_s_box i j v) = v) ∧
    (∀ i k, i < 4 → k < 40 → l.inv_p_box i k < 40) ∧
    (∀ i k, i < 4 → k < 40 → l.p_box i (l.inv_p_box i k) = k) := by
  have h256 : (1 <<< 8 : Nat) = 256 := by decide
  unfold CeaserCache.new at hl
  split at hl
  · cases hl
    simp only [h256]
    refine ⟨?_, ?_, ?_, ?_, ?_, ?_, ?_, ?_⟩
    · exact fun i j v hi hj hv => (hbox.1 i j hi hj).1 v hv
    · exact fun i j v hi hj hv => build_inv_apply _ _ (hbox.1 i j hi hj).2 v hv
    · exact fun i k hi hk => (hbox.2 i hi).1 k hk
    · exact fun i k hi hk => build_inv_apply _ _ (hbox.2 i hi).2 k hk
    · exact fun i j v hi hj hv => build_inv_lt (hbox.1 i j hi hj) v hv
    · exact fun i j v hi hj hv => apply_build_inv (hbox.1 i j hi hj) v hv
    · exact fun i k hi hk => build_inv_lt (hbox.2 i hi) k hk
    · exact fun i k hi hk => apply_build_inv (hbox.2 i hi) k hk
  · cases hl

theorem revBoxes_shuffled : ShuffledBoxes revS revP := by
  refine ⟨fun i j _ _ => ⟨?_, ?_⟩, fun i _ => ⟨?_, ?_⟩⟩
  · intro k hk; simp only [revS]; omega
  · intro a b ha hb h; simp only [revS] at h; omega
  · intro k hk; simp only [revP]; omega
  · intro a b ha hb h; simp only [revP] at h; omega

/-- C1: for shuffled tables (every `s_box[i][j]` a permutation of `[0,256)`, every `p_box[i]`
a permutation of `[0,40)`) and inverse tables built by the `CeaserCache` constructor, the
construction succeeds and `decrypt (encrypt x) = x` for every `x < 2^40`. -/
theorem decrypt_encrypt_id (key : List Nat) (s_box : Nat → Nat → Nat → Nat)
    (p_box : Nat → Nat → Nat) (hkey : key.length = FIESTEL_DEPTH)
    (hbox : ShuffledBoxes s_box p_box) :
    ∃ l, CeaserCache.new key s_box p_box = some l ∧
      ∀ x, x < 2 ^ 40 → l.decrypt (l.encrypt x) = x := by
  obtain ⟨l, hl⟩ : ∃ l, CeaserCache.new key s_box p_box = some l :=
    ⟨_, CeaserCache.new_eq key s_box p_box hkey⟩
  refine ⟨l, hl, ?_⟩
  obtain ⟨h1, h2, h3, h4, -⟩ := CeaserCache.tables_of_new hbox hl
  exact fun x hx => CeaserCache.decrypt_encrypt_of_tables l h1 h2 h3 h4 x hx

theorem decrypt_encrypt_id_witness :
    ShuffledBoxes revS revP ∧
    ∃ l, CeaserCache.new [100, 200, 300, 400] revS revP = some l ∧
      ∀ x, x < 2 ^ 40 → l.decrypt (l.encrypt x) = x :=
  ⟨revBoxes_shuffled, decrypt_encrypt_id [100, 200, 300, 400] revS revP rfl revBoxes_shuffled⟩

/-- C2: under the same table hypotheses, `encrypt (decrypt x) = x` for every `x < 2^40`, and
`encrypt` is a bijection of `[0, 2^40)` onto itself whose two-sided inverse there is
`decrypt`. -/
theorem encrypt_decrypt_id (key : List Nat) (s_box : Nat → Nat → Nat → Nat)
    (p_box : Nat → Nat → Nat) (hkey : key.length = FIESTEL_DEPTH)
    (hbox : ShuffledBoxes s_box p_box) :
    ∃ l, CeaserCache.new key s_box p_box = some l ∧
      (∀ x, x < 2 ^ 40 → l.encrypt (l.decrypt x) = x) ∧
      Set.BijOn l.encrypt (Set.Iio (2 ^ 40)) (Set.Iio (2 ^ 40)) ∧
      Set.InvOn l.decrypt l.encrypt (Set.Iio (2 ^ 40)) (Set.Iio (2 ^ 40)) := by
  obtain ⟨l, hl⟩ : ∃ l, CeaserCache.new key s_box p_box = some l :=
    ⟨_, CeaserCache.new_eq key s_box p_box hkey⟩
  refine ⟨l, hl, ?_⟩
  obtain ⟨h1, h2, h3, h4, h5, h6, h7, h8⟩ := CeaserCache.tables_of_new hbox hl
  have hde : ∀ x, x < 2 ^ 40 → l.decrypt (l.encrypt x) = x :=
    fun x hx => CeaserCache.decrypt_encrypt_of_tables l h1 h2 h3 h4 x hx
  have hed : ∀ x, x < 2 ^ 40 → l.encrypt (l.decrypt x) = x :=
    fun x hx => CeaserCache.encrypt_decrypt_of_tables l h5 h6 h7 h8 x hx
  have hdl : ∀ x, l.decrypt x < 2 ^ 40 := fun x => by
    rw [l.decrypt_eq]
    exact s_layer_lt _ (fun j v hj hv => h5 0 j v (by norm_num) hj hv) _
  refine ⟨hed, ⟨?_, ?_, ?_⟩, ?_, ?_⟩
  · intro x _
    exact l.encrypt_lt (fun k hk => h3 3 k (by norm_num) hk) x
  · intro x hx y hy hxy
    rw [← hde x hx, ← hde y hy, hxy]
  · intro y hy
    exact ⟨l.decrypt y, hdl y, hed y hy⟩
  · exact fun x hx => hde x hx
  · exact fun x hx => hed x hx

theorem encrypt_decrypt_id_witness :
    ShuffledBoxes revS revP ∧
    ∃ l, CeaserCache.new [100, 200, 300, 400] revS revP = some l ∧
      (∀ x, x < 2 ^ 40 → l.encrypt (l.decrypt x) = x) ∧
      Set.BijOn l.encrypt (Set.Iio (2 ^ 40)) (Set.Iio (2 ^ 40)) ∧
      Set.InvOn l.decrypt l.encrypt (Set.Iio (2 ^ 40)) (Set.Iio (2 ^ 40)) :=
  ⟨revBoxes_shuffled, encrypt_decrypt_id [100, 200, 300, 400] revS revP rfl revBoxes_shuffled⟩

/-! ## Storage and loop lemmas -/

theorem set2_apply {α : Type} (a : Nat → Nat → α) (s i : Nat) (v : α) (s' i' : Nat) :
    set2 a s i v s' i' = if s' = s ∧ i' = i then v else a s' i' := by
  unfold set2
  by_cases hs : s' = s
  · subst hs
    by_cases hi : i' = i
    · subst hi; simp
    · simp [hi]
  · simp [hs]

theorem find_range_succ (p : Nat → Bool) (n : Nat) :
    (List.range (n + 1)).find? p =
      ((List.range n).find? p).or (if p n then some n else none) := by
  rw [List.range_succ, List.find?_append]
  cases h : p n <;> simp [h]

theorem find_range_none {p : Nat → Bool} {n : Nat} :
    (List.range n).find? p = none ↔ ∀ j, j < n → p j = false := by
  simp [List.find?_eq_none]

theorem find_range_some {p : Nat → Bool} {n i : Nat} :
    (List.range n).find? p = some i ↔ i < n ∧ p i = true ∧ ∀ j, j < i → p j = false := by
  induction n generalizing i with
  | zero => simp
  | succ n ih =>
    rw [find_range_succ]
    cases h : (List.range n).find? p with
    | some k =>
      obtain ⟨hk1, hk2, hk3⟩ := ih.mp h
      simp only [Option.or_some, Option.some.injEq]
      constructor
      · rintro rfl
        exact ⟨by omega, hk2, hk3⟩
      · rintro ⟨_, hi2, hi3⟩
        rcases Nat.lt_trichotomy k i with hlt | heq | hgt
        · rw [hi3 k hlt] at hk2; cases hk2
        · exact heq
        · rw [hk3 i hgt] at hi2; cases hi2
    | none =>
      have hn := find_range_none.mp h
      simp only [Option.none_or]
      by_cases hp : p n = true
      · simp only [hp, if_true, Option.some.injEq]
        constructor
        · rintro rfl
          exact ⟨by omega, hp, hn⟩
        · rintro ⟨hi1, hi2, _⟩
          by_contra hne
          rw [hn i (by omega)] at hi2; cases hi2
      · simp only [hp, if_false]
        constructor
        · intro h0; cases h0
        · rintro ⟨hi1, hi2, _⟩
          by_cases hin : i = n
          · subst hin; exact absurd hi2 hp
          · rw [hn i (by omega)] at hi2; cases hi2

theorem age_loop_apply (valid : Nat → Bool) (s n : Nat) (la0 : Nat → Nat → Nat) :
    ∀ s' j', (List.range n).foldl
      (fun la j => if valid j then set2 la s j ((la s j + 1) % 2 ^ 16) else la) la0 s' j'
      = if s' = s ∧ j' < n ∧ valid j' = true then (la0 s j' + 1) % 2 ^ 16 else la0 s' j' := by
  induction n with
  | zero => simp
  | succ n ih =>
    intro s' j'
    rw [List.range_succ, List.foldl_append]
    simp only [List.foldl_cons, List.foldl_nil]
    have hn := ih s n
    simp only [lt_self_iff_false, false_and, and_false, if_false] at hn
    by_cases hv : valid n = true
    · rw [if_pos hv, set2_apply, hn, ih s' j']
      by_cases h1 : s' = s ∧ j' = n
      · obtain ⟨rfl, rfl⟩ := h1
        simp [hv]
      · rw [if_neg h1]
        by_cases h3 : s' = s ∧ j' < n ∧ valid j' = true
        · rw [if_pos h3, if_pos ⟨h3.1, Nat.lt_succ_of_lt h3.2.1, h3.2.2⟩]
        · rw [if_neg h3, if_neg]
          rintro ⟨a, b, c⟩
          have hne : j' ≠ n := fun e => h1 ⟨a, e⟩
          exact h3 ⟨a, Nat.lt_of_le_of_ne (Nat.lt_succ_iff.mp b) hne, c⟩
    · rw [if_neg hv, ih s' j']
      by_cases h3 : s' = s ∧ j' < n ∧ valid j' = true
      · rw [if_pos h3, if_pos ⟨h3.1, Nat.lt_succ_of_lt h3.2.1, h3.2.2⟩]
      · rw [if_neg h3, if_neg]
        rintro ⟨a, b, c⟩
        have hne : j' ≠ n := by rintro rfl; exact hv c
        exact h3 ⟨a, Nat.lt_of_le_of_ne (Nat.lt_succ_iff.mp b) hne, c⟩

theorem dec_loop_apply (valid : Nat → Bool) (s i n : Nat) (la0 : Nat → Nat → Nat)
    (hi : valid i = false) :
    ∀ s' j', (List.range n).foldl
      (fun la j => if valid j && decide (la s j > la s i)
                   then set2 la s j (la s j - 1) else la) la0 s' j'
      = if s' = s ∧ j' < n ∧ valid j' = true ∧ la0 s j' > la0 s i
        then la0 s j' - 1 else la0 s' j' := by
  induction n with
  | zero => simp
  | succ n ih =>
    intro s' j'
    rw [List.range_succ, List.foldl_append]
    simp only [List.foldl_cons, List.foldl_nil]
    have hn := ih s n
    simp only [lt_self_iff_false, false_and, and_false, if_false] at hn
    have hii := ih s i
    simp only [hi, Bool.false_eq_true, false_and, and_false, if_false] at hii
    rw [hn, hii]
    by_cases hv : (valid n && decide (la0 s n > la0 s i)) = true
    · rw [if_pos hv, set2_apply, ih s' j']
      simp only [Bool.and_eq_true, decide_eq_true_eq] at hv
      by_cases h1 : s' = s ∧ j' = n
      · obtain ⟨rfl, rfl⟩ := h1
        simp [hv.1, hv.2]
      · rw [if_neg h1]
        by_cases h3 : s' = s ∧ j' < n ∧ valid j' = true ∧ la0 s j' > la0 s i
        · rw [if_pos h3, if_pos ⟨h3.1, Nat.lt_succ_of_lt h3.2.1, h3.2.2⟩]
        · rw [if_neg h3, if_neg]
          rintro ⟨a, b, c⟩
          have hne : j' ≠ n := fun e => h1 ⟨a, e⟩
          exact h3 ⟨a, Nat.lt_of_le_of_ne (Nat.lt_succ_iff.mp b) hne, c⟩
    · rw [if_neg hv, ih s' j']
      simp only [Bool.and_eq_true, decide_eq_true_eq] at hv
      by_cases h3 : s' = s ∧ j' < n ∧ valid j' = true ∧ la0 s j' > la0 s i
      · rw [if_pos h3, if_pos ⟨h3.1, Nat.lt_succ_of_lt h3.2.1, h3.2.2⟩]
      · rw [if_neg h3, if_neg]
        rintro ⟨a, b, c⟩
        have hne : j' ≠ n := by rintro rfl; exact hv c
        exact h3 ⟨a, Nat.lt_of_le_of_ne (Nat.lt_succ_iff.mp b) hne, c⟩

/-! ## Effect of the level primitives on the three arrays -/

namespace Cache

theorem ways_eq (c : Cache) : c.ways = 2 ^ c.bit_ways := by
  simp [ways, Nat.one_shiftLeft]

theorem set_index_eq (c : Cache) (h : c.bit_sets ≤ 16) (l : Nat) :
    c.set_index l = l % 2 ^ c.bit_sets := by
  unfold set_index
  rw [Nat.one_shiftLeft, Nat.and_pow_two_sub_one_eq_mod]
  apply Nat.mod_eq_of_lt
  calc l % 2 ^ c.bit_sets < 2 ^ c.bit_sets := Nat.mod_lt _ (by positivity)
    _ ≤ 2 ^ 16 := Nat.pow_le_pow_right (by norm_num) h

theorem tag_eq (c : Cache) (l : Nat) : c.tag l = l / 2 ^ c.bit_sets := by
  simp [tag, Nat.shiftRight_eq_div_pow]

theorem line_ext {b x y : Nat} (h1 : x % 2 ^ b = y % 2 ^ b) (h2 : x / 2 ^ b = y / 2 ^ b) :
    x = y := by
  rw [← Nat.div_add_mod x (2 ^ b), ← Nat.div_add_mod y (2 ^ b), h1, h2]

@[simp] theorem age_all_bit_sets (c : Cache) (s : Nat) : (c.age_all s).bit_sets = c.bit_sets := rfl
@[simp] theorem age_all_bit_ways (c : Cache) (s : Nat) : (c.age_all s).bit_ways = c.bit_ways := rfl
@[simp] theorem age_all_cache_tag (c : Cache) (s : Nat) : (c.age_all s).cache_tag = c.cache_tag := rfl
@[simp] theorem age_all_cache_valid (c : Cache) (s : Nat) :
    (c.age_all s).cache_valid = c.cache_valid := rfl

theorem age_all_last_access (c : Cache) (s s' j : Nat) :
    (c.age_all s).last_access s' j =
      if s' = s ∧ j < 2 ^ c.bit_ways ∧ c.cache_valid s j = true
      then (c.last_access s j + 1) % 2 ^ 16 else c.last_access s' j := by
  unfold age_all
  simp only
  rw [age_loop_apply (fun j => c.cache_valid s j), ways_eq]

@[simp] theorem invalidate_bit_sets (c : Cache) (s i : Nat) :
    (c.invalidate s i).bit_sets = c.bit_sets := rfl
@[simp] theorem invalidate_bit_ways (c : Cache) (s i : Nat) :
    (c.invalidate s i).bit_ways = c.bit_ways := rfl
@[simp] theorem invalidate_cache_tag (c : Cache) (s i : Nat) :
    (c.invalidate s i).cache_tag = c.cache_tag := rfl
theorem invalidate_cache_valid (c : Cache) (s i : Nat) :
    (c.invalidate s i).cache_valid = set2 c.cache_valid s i false := rfl

theorem invalidate_valid_apply (c : Cache) (s i s' j : Nat) :
    (c.invalidate s i).cache_valid s' j =
      if s' = s ∧ j = i then false else c.cache_valid s' j := by
  rw [invalidate_cache_valid, set2_apply]

theorem invalidate_last_access (c : Cache) (s i s' j : Nat) :
    (c.invalidate s i).last_access s' j =
      if s' = s ∧ j < 2 ^ c.bit_ways ∧ (j ≠ i ∧ c.cache_valid s j = true) ∧
          c.last_access s j > c.last_access s i
      then c.last_access s j - 1 else c.last_access s' j := by
  unfold invalidate
  simp only
  rw [dec_loop_apply (fun j => set2 c.cache_valid s i false s j) s i _ _
    (by simp [set2_apply]), ways_eq]
  simp only [set2_apply, true_and]
  congr 1
  by_cases hji : j = i
  · simp [hji]
  · simp [hji]

@[simp] theorem fill_bit_sets (c : Cache) (s p t : Nat) : (c.fill s p t).bit_sets = c.bit_sets := rfl
@[simp] theorem fill_bit_ways (c : Cache) (s p t : Nat) : (c.fill s p t).bit_ways = c.bit_ways := rfl
theorem fill_cache_valid (c : Cache) (s p t : Nat) :
    (c.fill s p t).cache_valid = set2 c.cache_valid s p true := rfl
theorem fill_cache_tag (c : Cache) (s p t : Nat) :
    (c.fill s p t).cache_tag = set2 c.cache_tag s p t := rfl

theorem fill_valid_apply (c : Cache) (s p t s' j : Nat) :
    (c.fill s p t).cache_valid s' j = if s' = s ∧ j = p then true else c.cache_valid s' j := by
  rw [fill_cache_valid, set2_apply]

theorem fill_tag_apply (c : Cache) (s p t s' j : Nat) :
    (c.fill s p t).cache_tag s' j = if s' = s ∧ j = p then t else c.cache_tag s' j := by
  rw [fill_cache_tag, set2_apply]

theorem fill_last_access (c : Cache) (s p t : Nat) (hp : p < 2 ^ c.bit_ways) (s' j : Nat) :
    (c.fill s p t).last_access s' j =
      if s' = s ∧ j = p then 1
      else if s' = s ∧ j < 2 ^ c.bit_ways ∧ c.cache_valid s j = true
        then (c.last_access s j + 1) % 2 ^ 16 else c.last_access s' j := by
  unfold fill
  rw [age_all_last_access]
  simp only [set2_apply, true_and]
  by_cases h1 : s' = s ∧ j = p
  · obtain ⟨rfl, rfl⟩ := h1
    simp [hp]
  · rw [if_neg h1]
    by_cases hjp : j = p
    · have hs : ¬ s' = s := fun e => h1 ⟨e, hjp⟩
      simp [hs]
    · simp [hjp]

end Cache

namespace Cache

/-! ## Tag search and line validity -/

theorem find_tag_some {c : Cache} {s t i : Nat} :
    c.find_tag s t = some i ↔
      i < 2 ^ c.bit_ways ∧ (c.cache_valid s i = true ∧ c.cache_tag s i = t) ∧
        ∀ j, j < i → ¬ (c.cache_valid s j = true ∧ c.cache_tag s j = t) := by
  unfold find_tag
  rw [find_range_some, ways_eq]
  simp

theorem find_tag_none {c : Cache} {s t : Nat} :
    c.find_tag s t = none ↔
      ∀ j, j < 2 ^ c.bit_ways → ¬ (c.cache_valid s j = true ∧ c.cache_tag s j = t) := by
  unfold find_tag
  rw [find_range_none, ways_eq]
  simp

theorem find_tag_unique {c : Cache} (hu : c.TagsUnique) {s i : Nat} (hi : i < 2 ^ c.bit_ways)
    (hv : c.cache_valid s i = true) : c.find_tag s (c.cache_tag s i) = some i := by
  rw [find_tag_some]
  refine ⟨hi, ⟨hv, rfl⟩, ?_⟩
  rintro j hj ⟨hvj, htj⟩
  have := hu s j i (by omega) hi hvj hv htj
  omega

theorem not_valid_line_iff {c : Cache} (hbs : c.bit_sets ≤ 16) (l : Nat) :
    ¬ c.valid_line l ↔ c.find_tag (c.set_index l) (c.tag l) = none := by
  rw [find_tag_none, set_index_eq c hbs, tag_eq]
  unfold valid_line
  constructor
  · intro h j hj hv
    exact h ⟨j, hj, hv.1, hv.2⟩
  · rintro h ⟨j, hj, hv, ht⟩
    exact h j hj ⟨hv, ht⟩

theorem valid_line_iff {c : Cache} (hbs : c.bit_sets ≤ 16) (l : Nat) :
    c.valid_line l ↔ ∃ i, c.find_tag (c.set_index l) (c.tag l) = some i := by
  rw [← not_iff_not, not_valid_line_iff hbs]
  cases c.find_tag (c.set_index l) (c.tag l) <;> simp

theorem valid_line_congr {c d : Cache} (hs : d.bit_sets = c.bit_sets)
    (hw : d.bit_ways = c.bit_ways) (hv : d.cache_valid = c.cache_valid)
    (ht : d.cache_tag = c.cache_tag) (l : Nat) : d.valid_line l ↔ c.valid_line l := by
  unfold valid_line
  rw [hs, hw, hv, ht]

theorem TagsUnique.congr {c d : Cache} (hw : d.bit_ways = c.bit_ways)
    (hv : d.cache_valid = c.cache_valid) (ht : d.cache_tag = c.cache_tag)
    (hu : c.TagsUnique) : d.TagsUnique := by
  unfold TagsUnique at *
  rw [hw, hv, ht]
  exact hu

/-! ## `access_helper` -/

theorem access_helper_miss {c : Cache} {a : Nat}
    (h : c.find_tag (c.set_index (a >>> LINE_SIZE)) (c.tag (a >>> LINE_SIZE)) = none) :
    c.access_helper a = (false, c) := by
  simp [access_helper, h]

theorem access_helper_hit {c : Cache} {a i : Nat}
    (h : c.find_tag (c.set_index (a >>> LINE_SIZE)) (c.tag (a >>> LINE_SIZE)) = some i) :
    c.access_helper a =
      (true, if c.last_access (c.set_index (a >>> LINE_SIZE)) i ≠ 1 then
        c.promote (c.set_index (a >>> LINE_SIZE)) i else c) := by
  simp only [access_helper, h]
  split <;> rfl

theorem access_helper_fst (c : Cache) (a : Nat) :
    (c.access_helper a).1 =
      (c.find_tag (c.set_index (a >>> LINE_SIZE)) (c.tag (a >>> LINE_SIZE))).isSome := by
  cases h : c.find_tag (c.set_index (a >>> LINE_SIZE)) (c.tag (a >>> LINE_SIZE)) with
  | none => rw [access_helper_miss h]; rfl
  | some i => rw [access_helper_hit h]; rfl

theorem access_helper_fst_iff {c : Cache} (hbs : c.bit_sets ≤ 16) (a : Nat) :
    (c.access_helper a).1 = true ↔ c.valid_line (a >>> LINE_SIZE) := by
  rw [access_helper_fst, valid_line_iff hbs, Option.isSome_iff_exists]

@[simp] theorem access_helper_bit_sets (c : Cache) (a : Nat) :
    (c.access_helper a).2.bit_sets = c.bit_sets := by
  cases h : c.find_tag (c.set_index (a >>> LINE_SIZE)) (c.tag (a >>> LINE_SIZE)) with
  | none => rw [access_helper_miss h]
  | some i => rw [access_helper_hit h]; simp only; split <;> rfl

@[simp] theorem access_helper_bit_ways (c : Cache) (a : Nat) :
    (c.access_helper a).2.bit_ways = c.bit_ways := by
  cases h : c.find_tag (c.set_index (a >>> LINE_SIZE)) (c.tag (a >>> LINE_SIZE)) with
  | none => rw [access_helper_miss h]
  | some i => rw [access_helper_hit h]; simp only; split <;> rfl

@[simp] theorem access_helper_cache_valid (c : Cache) (a : Nat) :
    (c.access_helper a).2.cache_valid = c.cache_valid := by
  cases h : c.find_tag (c.set_index (a >>> LINE_SIZE)) (c.tag (a >>> LINE_SIZE)) with
  | none => rw [access_helper_miss h]
  | some i => rw [access_helper_hit h]; simp only; split <;> rfl

@[simp] theorem access_helper_cache_tag (c : Cache) (a : Nat) :
    (c.access_helper a).2.cache_tag = c.cache_tag := by
  cases h : c.find_tag (c.set_index (a >>> LINE_SIZE)) (c.tag (a >>> LINE_SIZE)) with
  | none => rw [access_helper_miss h]
  | some i => rw [access_helper_hit h]; simp only; split <;> rfl

theorem access_helper_valid_line (c : Cache) (a l : Nat) :
    (c.access_helper a).2.valid_line l ↔ c.valid_line l :=
  valid_line_congr (by simp) (by simp) (by simp) (by simp) l

theorem access_helper_tagsUnique {c : Cache} (hu : c.TagsUnique) (a : Nat) :
    (c.access_helper a).2.TagsUnique :=
  hu.congr (by simp) (by simp) (by simp)

/-! ## `evict` -/

theorem evict_of_none {c : Cache} {l : Nat}
    (h : c.find_tag (c.set_index l) (c.tag l) = none) : c.evict l = c := by
  simp [evict, h]

theorem evict_of_some {c : Cache} {l i : Nat}
    (h : c.find_tag (c.set_index l) (c.tag l) = some i) :
    c.evict l = c.invalidate (c.set_index l) i := by
  simp [evict, h]

@[simp] theorem evict_bit_sets (c : Cache) (l : Nat) : (c.evict l).bit_sets = c.bit_sets := by
  cases h : c.find_tag (c.set_index l) (c.tag l) with
  | none => rw [evict_of_none h]
  | some i => rw [evict_of_some h]; rfl

@[simp] theorem evict_bit_ways (c : Cache) (l : Nat) : (c.evict l).bit_ways = c.bit_ways := by
  cases h : c.find_tag (c.set_index l) (c.tag l) with
  | none => rw [evict_of_none h]
  | some i => rw [evict_of_some h]; rfl

@[simp] theorem evict_cache_tag (c : Cache) (l : Nat) : (c.evict l).cache_tag = c.cache_tag := by
  cases h : c.find_tag (c.set_index l) (c.tag l) with
  | none => rw [evict_of_none h]
  | some i => rw [evict_of_some h]; rfl

theorem evict_valid_le (c : Cache) (l s j : Nat) (h : (c.evict l).cache_valid s j = true) :
    c.cache_valid s j = true := by
  cases hf : c.find_tag (c.set_index l) (c.tag l) with
  | none => rwa [evict_of_none hf] at h
  | some i =>
    rw [evict_of_some hf, invalidate_valid_apply] at h
    split at h
    · cases h
    · exact h

theorem evict_of_not_valid {c : Cache} (hbs : c.bit_sets ≤ 16) {l : Nat}
    (h : ¬ c.valid_line l) : c.evict l = c :=
  evict_of_none ((not_valid_line_iff hbs l).mp h)

theorem evict_valid_line_mono (c : Cache) (l x : Nat) (h : (c.evict l).valid_line x) :
    c.valid_line x := by
  obtain ⟨i, hi, hv, ht⟩ := h
  simp only [evict_bit_sets, evict_bit_ways, evict_cache_tag] at hi hv ht
  exact ⟨i, hi, evict_valid_le c l _ _ hv, ht⟩

theorem evict_tagsUnique {c : Cache} (hu : c.TagsUnique) (l : Nat) : (c.evict l).TagsUnique := by
  intro s i j hi hj hvi hvj ht
  simp only [evict_bit_ways, evict_cache_tag] at hi hj ht
  exact hu s i j hi hj (evict_valid_le c l _ _ hvi) (evict_valid_le c l _ _ hvj) ht

theorem evict_valid_line {c : Cache} (hbs : c.bit_sets ≤ 16) (hu : c.TagsUnique) (l x : Nat) :
    (c.evict l).valid_line x ↔ c.valid_line x ∧ x ≠ l := by
  cases hf : c.find_tag (c.set_index l) (c.tag l) with
  | none =>
    rw [evict_of_none hf]
    have hnl := (not_valid_line_iff hbs l).mpr hf
    constructor
    · intro hx
      exact ⟨hx, fun e => hnl (e ▸ hx)⟩
    · exact fun h => h.1
  | some i =>
    rw [evict_of_some hf]
    rw [set_index_eq c hbs, tag_eq] at hf
    obtain ⟨hi, ⟨hvi, hti⟩, _⟩ := find_tag_some.mp hf
    rw [set_index_eq c hbs]
    unfold valid_line
    simp only [invalidate_bit_sets, invalidate_bit_ways, invalidate_cache_tag,
      invalidate_valid_apply]
    constructor
    · rintro ⟨k, hk, hvk, htk⟩
      split at hvk
      · cases hvk
      · rename_i hne
        refine ⟨⟨k, hk, hvk, htk⟩, ?_⟩
        rintro rfl
        exact hne ⟨rfl, hu _ k i hk hi hvk hvi (htk.trans hti.symm)⟩
    · rintro ⟨⟨k, hk, hvk, htk⟩, hne⟩
      refine ⟨k, hk, ?_, htk⟩
      rw [if_neg]
      · exact hvk
      · rintro ⟨hs, rfl⟩
        apply hne
        apply line_ext hs
        rw [← htk, ← hti, hs]

end Cache

namespace Cache

/-! ## Victim selection and insertion -/

theorem find_invalid_none {c : Cache} {s : Nat} :
    c.find_invalid s = none ↔ ∀ k, k < 2 ^ c.bit_ways → c.cache_valid s k = true := by
  unfold find_invalid
  rw [find_range_none, ways_eq]
  simp

theorem find_invalid_some {c : Cache} {s p : Nat} :
    c.find_invalid s = some p ↔
      p < 2 ^ c.bit_ways ∧ c.cache_valid s p = false ∧
        ∀ k, k < p → c.cache_valid s k = true := by
  unfold find_invalid
  rw [find_range_some, ways_eq]
  simp

theorem lru_loop (c : Cache) (s n : Nat) (h : ∀ k, k < n → c.cache_valid s k = true) :
    ∃ m, (List.range n).foldl
      (fun acc i => acc.bind fun lru =>
        if c.cache_valid s i then
          (if c.last_access s i > c.last_access s lru then some i else some lru)
        else none)
      (some 0) = some m ∧ m < max n 1 ∧
      (∀ k, k < n → c.last_access s k ≤ c.last_access s m) ∧
      (∀ k, k < m → c.last_access s k < c.last_access s m) := by
  induction n with
  | zero => exact ⟨0, rfl, by simp, by simp, by simp⟩
  | succ n ih =>
    obtain ⟨m, hm, hlt, hmax, hfirst⟩ := ih (fun k hk => h k (by omega))
    rw [List.range_succ, List.foldl_append, hm]
    simp only [List.foldl_cons, List.foldl_nil, Option.some_bind, h n (by omega), if_true]
    by_cases hgt : c.last_access s n > c.last_access s m
    · refine ⟨n, by rw [if_pos hgt], by simp, ?_, ?_⟩
      · intro k hk
        rcases Nat.lt_succ_iff_lt_or_eq.mp hk with hk' | rfl
        · exact le_of_lt (lt_of_le_of_lt (hmax k hk') hgt)
        · exact le_refl _
      · intro k hk
        exact lt_of_le_of_lt (hmax k hk) hgt
    · refine ⟨m, by rw [if_neg hgt], ?_, ?_, hfirst⟩
      · rcases Nat.eq_zero_or_pos n with rfl | hpos
        · simpa using hlt
        · have : max n 1 = n := max_eq_left hpos
          rw [this] at hlt
          exact lt_of_lt_of_le (Nat.lt_succ_of_lt hlt) (le_max_left _ _)
      · intro k hk
        rcases Nat.lt_succ_iff_lt_or_eq.mp hk with hk' | rfl
        · exact hmax k hk'
        · exact not_lt.mp hgt

theorem lru_way_some {c : Cache} {s : Nat} (h : ∀ k, k < 2 ^ c.bit_ways → c.cache_valid s k = true) :
    ∃ lru, c.lru_way s = some lru ∧ lru < 2 ^ c.bit_ways ∧
      (∀ k, k < 2 ^ c.bit_ways → c.last_access s k ≤ c.last_access s lru) ∧
      (∀ k, k < lru → c.last_access s k < c.last_access s lru) := by
  obtain ⟨m, hm, hlt, hmax, hfirst⟩ := lru_loop c s (2 ^ c.bit_ways) h
  refine ⟨m, ?_, ?_, hmax, hfirst⟩
  · unfold lru_way
    rw [ways_eq]
    exact hm
  · have : max (2 ^ c.bit_ways) 1 = 2 ^ c.bit_ways := max_eq_left Nat.one_le_two_pow
    rwa [this] at hlt

theorem victim_mod (c : Cache) {s : Nat} (hs : s < 2 ^ c.bit_sets) (i : Nat) :
    c.victim s i % 2 ^ c.bit_sets = s := by
  unfold victim
  rw [Nat.shiftLeft_eq, Nat.mul_comm, ← Nat.mul_add_lt_is_or hs, Nat.mul_add_mod,
    Nat.mod_eq_of_lt hs]

theorem victim_div (c : Cache) {s : Nat} (hs : s < 2 ^ c.bit_sets) (i : Nat) :
    c.victim s i / 2 ^ c.bit_sets = c.cache_tag s i := by
  unfold victim
  rw [Nat.shiftLeft_eq, Nat.mul_comm, ← Nat.mul_add_lt_is_or hs,
    Nat.mul_add_div (by positivity), Nat.div_eq_of_lt hs, Nat.add_zero]

theorem victim_valid_line (c : Cache) {s i : Nat} (hs : s < 2 ^ c.bit_sets)
    (hi : i < 2 ^ c.bit_ways) (hv : c.cache_valid s i = true) :
    c.valid_line (c.victim s i) := by
  refine ⟨i, hi, ?_, ?_⟩
  · rw [victim_mod c hs]; exact hv
  · rw [victim_mod c hs, victim_div c hs]

theorem evict_victim {c : Cache} (hbs : c.bit_sets ≤ 16) (hu : c.TagsUnique) {s i : Nat}
    (hs : s < 2 ^ c.bit_sets) (hi : i < 2 ^ c.bit_ways) (hv : c.cache_valid s i = true) :
    c.evict (c.victim s i) = c.invalidate s i := by
  have h := find_tag_unique hu hi hv
  have e : c.find_tag (c.set_index (c.victim s i)) (c.tag (c.victim s i)) = some i := by
    rw [set_index_eq c hbs, tag_eq, victim_mod c hs, victim_div c hs]
    exact h
  rw [evict_of_some e, set_index_eq c hbs, victim_mod c hs]

theorem insert_of_free {c : Cache} {l p : Nat} (h : c.find_invalid (c.set_index l) = some p) :
    c.insert l = some (c.fill (c.set_index l) p (c.tag l)) := by
  simp [insert, h]

theorem insert_of_full {c : Cache} {l lru : Nat} (h : c.find_invalid (c.set_index l) = none)
    (hl : c.lru_way (c.set_index l) = some lru) :
    c.insert l =
      some ((c.evict (c.victim (c.set_index l) lru)).fill (c.set_index l) lru (c.tag l)) := by
  simp [insert, h, evict_LRU, hl]

/-! ## `fill` on an invalid way -/

theorem fill_valid_line {c : Cache} {l p : Nat} (hp : p < 2 ^ c.bit_ways)
    (hv : c.cache_valid (l % 2 ^ c.bit_sets) p = false) (x : Nat) :
    (c.fill (l % 2 ^ c.bit_sets) p (l / 2 ^ c.bit_sets)).valid_line x ↔
      c.valid_line x ∨ x = l := by
  unfold valid_line
  simp only [fill_bit_sets, fill_bit_ways, fill_valid_apply, fill_tag_apply]
  constructor
  · rintro ⟨k, hk, hvk, htk⟩
    by_cases h1 : x % 2 ^ c.bit_sets = l % 2 ^ c.bit_sets ∧ k = p
    · rw [if_pos h1] at htk
      exact Or.inr (line_ext h1.1 htk.symm)
    · rw [if_neg h1] at hvk htk
      exact Or.inl ⟨k, hk, hvk, htk⟩
  · rintro (⟨k, hk, hvk, htk⟩ | rfl)
    · have h1 : ¬ (x % 2 ^ c.bit_sets = l % 2 ^ c.bit_sets ∧ k = p) := by
        rintro ⟨hs, rfl⟩
        rw [hs, hv] at hvk
        cases hvk
      exact ⟨k, hk, by rw [if_neg h1]; exact hvk, by rw [if_neg h1]; exact htk⟩
    · exact ⟨p, hp, by simp, by simp⟩

theorem fill_tagsUnique {c : Cache} (hu : c.TagsUnique) {l : Nat} (p : Nat)
    (habs : ¬ c.valid_line l) :
    (c.fill (l % 2 ^ c.bit_sets) p (l / 2 ^ c.bit_sets)).TagsUnique := by
  intro s i j hi hj hvi hvj ht
  simp only [fill_bit_ways, fill_valid_apply, fill_tag_apply] at hi hj hvi hvj ht
  by_cases h1 : s = l % 2 ^ c.bit_sets ∧ i = p
  · by_cases h2 : s = l % 2 ^ c.bit_sets ∧ j = p
    · rw [h1.2, h2.2]
    · exfalso
      rw [if_pos h1, if_neg h2] at ht
      rw [if_neg h2] at hvj
      apply habs
      refine ⟨j, hj, ?_, ?_⟩
      · rw [← h1.1]; exact hvj
      · rw [← h1.1]; exact ht.symm
  · by_cases h2 : s = l % 2 ^ c.bit_sets ∧ j = p
    · exfalso
      rw [if_neg h1, if_pos h2] at ht
      rw [if_neg h1] at hvi
      apply habs
      refine ⟨i, hi, ?_, ?_⟩
      · rw [← h2.1]; exact hvi
      · rw [← h2.1]; exact ht
    · rw [if_neg h1] at hvi ht
      rw [if_neg h2] at hvj ht
      exact hu s i j hi hj hvi hvj ht

end Cache

namespace Cache

/-! ## Ages -/

theorem promote_last_access (c : Cache) (s i : Nat) (hi : i < 2 ^ c.bit_ways)
    (hv : c.cache_valid s i = true) (s' j : Nat) :
    (c.promote s i).last_access s' j =
      if s' = s ∧ j = i then 1
      else if s' = s ∧ j < 2 ^ c.bit_ways ∧ c.cache_valid s j = true
        then (c.last_access s j + 1) % 2 ^ 16 else c.last_access s' j := by
  unfold promote
  rw [age_all_last_access]
  simp only [set2_apply, true_and]
  by_cases h1 : s' = s ∧ j = i
  · obtain ⟨rfl, rfl⟩ := h1
    simp [hi, hv]
  · rw [if_neg h1]
    by_cases hji : j = i
    · have hs : ¬ s' = s := fun e => h1 ⟨e, hji⟩
      simp [hs]
    · simp [hji]

theorem AgesOK.relax {c : Cache} {n m : Nat} (h : c.AgesOK n) (hnm : n ≤ m) : c.AgesOK m :=
  ⟨fun s i hi hv => ⟨(h.1 s i hi hv).1, le_trans (h.1 s i hi hv).2 hnm⟩, h.2⟩

theorem agesOK_bump {c d : Cache} {s p n : Nat} (hw : d.bit_ways = c.bit_ways)
    (hv : ∀ s' j, d.cache_valid s' j = if s' = s ∧ j = p then true else c.cache_valid s' j)
    (hla : ∀ s' j, d.last_access s' j =
      if s' = s ∧ j = p then 1
      else if s' = s ∧ j < 2 ^ c.bit_ways ∧ c.cache_valid s j = true
        then (c.last_access s j + 1) % 2 ^ 16 else c.last_access s' j)
    (hn : n + 1 < 2 ^ 16) (h : c.AgesOK n) : d.AgesOK (n + 1) := by
  have key : ∀ s' j, j < 2 ^ c.bit_ways → d.cache_valid s' j = true →
      (s' = s ∧ j = p ∧ d.last_access s' j = 1) ∨
      (¬ (s' = s ∧ j = p) ∧ c.cache_valid s' j = true ∧ s' = s ∧
        d.last_access s' j = c.last_access s' j + 1 ∧ 1 ≤ c.last_access s' j ∧
        c.last_access s' j ≤ n) ∨
      (¬ (s' = s ∧ j = p) ∧ c.cache_valid s' j = true ∧ s' ≠ s ∧
        d.last_access s' j = c.last_access s' j ∧ 1 ≤ c.last_access s' j ∧
        c.last_access s' j ≤ n) := by
    intro s' j hj hvj
    rw [hv] at hvj
    by_cases h1 : s' = s ∧ j = p
    · left
      exact ⟨h1.1, h1.2, by rw [hla, if_pos h1]⟩
    · right
      rw [if_neg h1] at hvj
      have hb := h.1 s' j hj hvj
      by_cases hs : s' = s
      · left
        subst hs
        refine ⟨h1, hvj, rfl, ?_, hb.1, hb.2⟩
        rw [hla, if_neg h1, if_pos ⟨rfl, hj, hvj⟩]
        apply Nat.mod_eq_of_lt
        omega
      · right
        refine ⟨h1, hvj, hs, ?_, hb.1, hb.2⟩
        rw [hla, if_neg h1, if_neg (fun hh => hs hh.1)]
  constructor
  · intro s' j hj hvj
    rw [hw] at hj
    rcases key s' j hj hvj with ⟨_, _, e⟩ | ⟨_, _, _, e, h1, h2⟩ | ⟨_, _, _, e, h1, h2⟩ <;>
      rw [e] <;> omega
  · intro s' i j hi hj hvi hvj he
    rw [hw] at hi hj
    rcases key s' i hi hvi with ⟨hs1, hi1, e1⟩ | ⟨hn1, hc1, hs1, e1, hl1, _⟩ |
        ⟨hn1, hc1, hs1, e1, hl1, _⟩ <;>
      rcases key s' j hj hvj with ⟨hs2, hj2, e2⟩ | ⟨hn2, hc2, hs2, e2, hl2, _⟩ |
        ⟨hn2, hc2, hs2, e2, hl2, _⟩
    · rw [hi1, hj2]
    · rw [e1, e2] at he; omega
    · exact absurd hs1 hs2
    · rw [e1, e2] at he; omega
    · rw [e1, e2] at he
      exact h.2 s' i j hi hj hc1 hc2 (by omega)
    · exact absurd hs1 hs2
    · exact absurd hs2 hs1
    · exact absurd hs2 hs1
    · rw [e1, e2] at he
      exact h.2 s' i j hi hj hc1 hc2 he

theorem fill_agesOK {c : Cache} {s p t n : Nat} (hp : p < 2 ^ c.bit_ways)
    (hn : n + 1 < 2 ^ 16) (h : c.AgesOK n) : (c.fill s p t).AgesOK (n + 1) :=
  agesOK_bump (fill_bit_ways c s p t) (fill_valid_apply c s p t)
    (fill_last_access c s p t hp) hn h

theorem promote_agesOK {c : Cache} {s i n : Nat} (hi : i < 2 ^ c.bit_ways)
    (hv : c.cache_valid s i = true) (hn : n + 1 < 2 ^ 16) (h : c.AgesOK n) :
    (c.promote s i).AgesOK (n + 1) := by
  refine agesOK_bump (c := c) (d := c.promote s i) (s := s) (p := i) rfl ?_
    (promote_last_access c s i hi hv) hn h
  intro s' j
  show c.cache_valid s' j = _
  by_cases h1 : s' = s ∧ j = i
  · rw [if_pos h1, h1.1, h1.2, hv]
  · rw [if_neg h1]

theorem access_helper_agesOK {c : Cache} {n : Nat} (a : Nat) (hn : n + 1 < 2 ^ 16)
    (h : c.AgesOK n) : (c.access_helper a).2.AgesOK (n + 1) := by
  cases hf : c.find_tag (c.set_index (a >>> LINE_SIZE)) (c.tag (a >>> LINE_SIZE)) with
  | none => rw [access_helper_miss hf]; exact h.relax (by omega)
  | some i =>
    rw [access_helper_hit hf]
    obtain ⟨hi, ⟨hvi, _⟩, _⟩ := find_tag_some.mp hf
    simp only
    split
    · exact promote_agesOK hi hvi hn h
    · exact h.relax (by omega)

theorem invalidate_agesOK {c : Cache} {s i n : Nat} (hi : i < 2 ^ c.bit_ways)
    (hv : c.cache_valid s i = true) (h : c.AgesOK n) : (c.invalidate s i).AgesOK n := by
  have key : ∀ s' j, j < 2 ^ c.bit_ways → (c.invalidate s i).cache_valid s' j = true →
      c.cache_valid s' j = true ∧ ¬ (s' = s ∧ j = i) ∧
      ((s' = s ∧ c.last_access s j > c.last_access s i ∧
          (c.invalidate s i).last_access s' j = c.last_access s' j - 1) ∨
       ((s' = s → c.last_access s j < c.last_access s i) ∧
          (c.invalidate s i).last_access s' j = c.last_access s' j)) := by
    intro s' j hj hvj
    rw [invalidate_valid_apply] at hvj
    by_cases h1 : s' = s ∧ j = i
    · rw [if_pos h1] at hvj; cases hvj
    · rw [if_neg h1] at hvj
      refine ⟨hvj, h1, ?_⟩
      rw [invalidate_last_access]
      by_cases hs : s' = s
      · subst hs
        have hji : j ≠ i := fun e => h1 ⟨rfl, e⟩
        by_cases hgt : c.last_access s' j > c.last_access s' i
        · left
          exact ⟨rfl, hgt, by rw [if_pos ⟨rfl, hj, ⟨hji, hvj⟩, hgt⟩]⟩
        · right
          have hne : c.last_access s' j ≠ c.last_access s' i :=
            fun e => hji (h.2 s' j i hj hi hvj hv e)
          refine ⟨fun _ => by omega, ?_⟩
          rw [if_neg]
          exact fun hh => hgt hh.2.2.2
      · right
        exact ⟨fun e => absurd e hs, by rw [if_neg (fun hh => hs hh.1)]⟩
  have hb0 := h.1 s i hi hv
  constructor
  · intro s' j hj hvj
    obtain ⟨hc, _, hcase⟩ := key s' j hj hvj
    have hb := h.1 s' j hj hc
    rcases hcase with ⟨rfl, hgt, e⟩ | ⟨_, e⟩
    · rw [e]; omega
    · rw [e]; exact hb
  · intro s' a b ha hb hva hvb he
    obtain ⟨hca, hna, hcasea⟩ := key s' a ha hva
    obtain ⟨hcb, hnb, hcaseb⟩ := key s' b hb hvb
    have hba := h.1 s' a ha hca
    apply h.2 s' a b ha hb hca hcb
    rcases hcasea with ⟨rfl, hgta, ea⟩ | ⟨hlta, ea⟩ <;>
      rcases hcaseb with ⟨hsb, hgtb, eb⟩ | ⟨hltb, eb⟩
    · rw [ea, eb] at he; omega
    · rw [ea, eb] at he; have := hltb rfl; omega
    · subst hsb; rw [ea, eb] at he; have := hlta rfl; omega
    · rw [ea, eb] at he; exact he

theorem evict_agesOK {c : Cache} {n : Nat} (l : Nat) (h : c.AgesOK n) : (c.evict l).AgesOK n := by
  cases hf : c.find_tag (c.set_index l) (c.tag l) with
  | none => rw [evict_of_none hf]; exact h
  | some i =>
    rw [evict_of_some hf]
    obtain ⟨hi, ⟨hvi, _⟩, _⟩ := find_tag_some.mp hf
    exact invalidate_agesOK hi hvi h

end Cache

/-! ## The hierarchy: back-invalidation -/

namespace Controller

@[simp] theorem setL1D_L1D (st : Controller) (c : Cache) : (st.setL1D c).L1D = c := rfl
@[simp] theorem setL1D_L2D (st : Controller) (c : Cache) : (st.setL1D c).L2D = st.L2D := rfl
@[simp] theorem setL1D_LLC (st : Controller) (c : Cache) : (st.setL1D c).LLC = st.LLC := rfl
@[simp] theorem setL2D_L1D (st : Controller) (c : Cache) : (st.setL2D c).L1D = st.L1D := rfl
@[simp] theorem setL2D_L2D (st : Controller) (c : Cache) : (st.setL2D c).L2D = c := rfl
@[simp] theorem setL2D_LLC (st : Controller) (c : Cache) : (st.setL2D c).LLC = st.LLC := rfl
@[simp] theorem setLLC_L1D (st : Controller) (c : Cache) : (st.setLLC c).L1D = st.L1D := rfl
@[simp] theorem setLLC_L2D (st : Controller) (c : Cache) : (st.setLLC c).L2D = st.L2D := rfl
@[simp] theorem setLLC_toCache (st : Controller) (c : Cache) : (st.setLLC c).LLC.toCache = c := rfl
@[simp] theorem setLLC_encrypt (st : Controller) (c : Cache) (x : Nat) :
    (st.setLLC c).LLC.encrypt x = st.LLC.encrypt x := rfl
@[simp] theorem setLLC_decrypt (st : Controller) (c : Cache) (x : Nat) :
    (st.setLLC c).LLC.decrypt x = st.LLC.decrypt x := rfl

theorem setL1D_self (st : Controller) : st.setL1D st.L1D = st := rfl
theorem setL2D_self (st : Controller) : st.setL2D st.L2D = st := rfl
theorem setLLC_self (st : Controller) : st.setLLC st.LLC.toCache = st := rfl

theorem Shaped.bs1 {st : Controller} (h : st.Shaped) : st.L1D.bit_sets ≤ 16 := by
  rw [h.1]; norm_num
theorem Shaped.bs2 {st : Controller} (h : st.Shaped) : st.L2D.bit_sets ≤ 16 := by
  rw [h.2.2.1]; norm_num
theorem Shaped.bs3 {st : Controller} (h : st.Shaped) : st.LLC.bit_sets ≤ 16 := by
  rw [h.2.2.2.2.1]; norm_num

/-- Replacing the L1D arrays by a level that holds fewer lines keeps the invariant. -/
theorem Inv.shrinkL1 {st : Controller} (h : st.Inv) (c : Cache)
    (hs : c.bit_sets = st.L1D.bit_sets) (hw : c.bit_ways = st.L1D.bit_ways)
    (hu : c.TagsUnique) (hsub : ∀ x, c.valid_line x → st.L1D.valid_line x) :
    (st.setL1D c).Inv where
  shaped := by
    obtain ⟨a, b, r⟩ := h.shaped
    exact ⟨hs.trans a, hw.trans b, r⟩
  u1 := hu
  u2 := h.u2
  u3 := h.u3
  inc12 := fun l hl => h.inc12 l (hsub l hl)
  inc23 := h.inc23
  r2 := h.r2
  cancel := h.cancel
  uncancel := h.uncancel

theorem Inv.evictL1 {st : Controller} (h : st.Inv) (x : Nat) :
    (st.setL1D (st.L1D.evict x)).Inv :=
  h.shrinkL1 _ (by simp) (by simp) (Cache.evict_tagsUnique h.u1 x)
    (fun y hy => Cache.evict_valid_line_mono _ _ _ hy)

theorem L2D_evict_eq {st : Controller} (h : st.Inv) (v : Nat) :
    st.L2D_evict v = (st.setL2D (st.L2D.evict v)).setL1D (st.L1D.evict v) := by
  cases hf : st.L2D.find_tag (st.L2D.set_index v) (st.L2D.tag v) with
  | none =>
    have h2 : ¬ st.L2D.valid_line v := (Cache.not_valid_line_iff h.shaped.bs2 v).mpr hf
    have h1 : ¬ st.L1D.valid_line v := fun hv => h2 (h.inc12 v hv)
    rw [Cache.evict_of_not_valid h.shaped.bs2 h2, Cache.evict_of_not_valid h.shaped.bs1 h1]
    simp only [L2D_evict, hf]
    rfl
  | some i =>
    simp only [L2D_evict, hf, L1D_evict, Cache.evict_of_some hf, setL2D_L1D]

theorem Inv.evictL2 {st : Controller} (h : st.Inv) (v : Nat) :
    ((st.setL2D (st.L2D.evict v)).setL1D (st.L1D.evict v)).Inv where
  shaped := by
    obtain ⟨a, b, c, d, r⟩ := h.shaped
    exact ⟨by simpa using a, by simpa using b, by simpa using c, by simpa using d, r⟩
  u1 := Cache.evict_tagsUnique h.u1 v
  u2 := Cache.evict_tagsUnique h.u2 v
  u3 := h.u3
  inc12 := fun l hl => by
    have h1 := (Cache.evict_valid_line h.shaped.bs1 h.u1 v l).mp hl
    exact (Cache.evict_valid_line h.shaped.bs2 h.u2 v l).mpr ⟨h.inc12 l h1.1, h1.2⟩
  inc23 := fun l hl => h.inc23 l (Cache.evict_valid_line_mono _ _ _ hl)
  r2 := fun l hl => h.r2 l (Cache.evict_valid_line_mono _ _ _ hl)
  cancel := h.cancel
  uncancel := h.uncancel

theorem LLC_evict_eq {st : Controller} (h : st.Inv) (w : Nat) (hw : st.LLC.valid_line w) :
    st.LLC_evict w =
      ((st.setLLC (st.LLC.evict w)).setL2D (st.L2D.evict (st.LLC.decrypt w))).setL1D
        (st.L1D.evict (st.LLC.decrypt w)) := by
  obtain ⟨i, hf⟩ := (Cache.valid_line_iff h.shaped.bs3 w).mp hw
  cases hf2 : st.L2D.find_tag (st.L2D.set_index (st.LLC.decrypt w))
      (st.L2D.tag (st.LLC.decrypt w)) with
  | none =>
    have h2 : ¬ st.L2D.valid_line (st.LLC.decrypt w) :=
      (Cache.not_valid_line_iff h.shaped.bs2 _).mpr hf2
    have h1 : ¬ st.L1D.valid_line (st.LLC.decrypt w) := fun hv => h2 (h.inc12 _ hv)
    rw [Cache.evict_of_not_valid h.shaped.bs2 h2, Cache.evict_of_not_valid h.shaped.bs1 h1]
    simp only [LLC_evict, hf, Cache.evict_of_some hf, L2D_evict, setLLC_L2D, hf2]
    rfl
  | some j =>
    simp only [LLC_evict, hf, Cache.evict_of_some hf, L2D_evict, setLLC_L2D, hf2, L1D_evict,
      Cache.evict_of_some hf2, setL2D_L1D, setLLC_L1D]

theorem Inv.evictLLC {st : Controller} (h : st.Inv) (w : Nat) :
    (((st.setLLC (st.LLC.evict w)).setL2D (st.L2D.evict (st.LLC.decrypt w))).setL1D
        (st.L1D.evict (st.LLC.decrypt w))).Inv where
  shaped := by
    obtain ⟨a, b, c, d, e, f⟩ := h.shaped
    exact ⟨by simpa using a, by simpa using b, by simpa using c, by simpa using d,
      by simpa using e, by simpa using f⟩
  u1 := Cache.evict_tagsUnique h.u1 _
  u2 := Cache.evict_tagsUnique h.u2 _
  u3 := Cache.evict_tagsUnique h.u3 w
  inc12 := fun l hl => by
    have h1 := (Cache.evict_valid_line h.shaped.bs1 h.u1 _ l).mp hl
    exact (Cache.evict_valid_line h.shaped.bs2 h.u2 _ l).mpr ⟨h.inc12 l h1.1, h1.2⟩
  inc23 := fun l hl => by
    have h2 := (Cache.evict_valid_line h.shaped.bs2 h.u2 _ l).mp hl
    refine (Cache.evict_valid_line h.shaped.bs3 h.u3 w _).mpr ⟨h.inc23 l h2.1, ?_⟩
    intro he
    apply h2.2
    have hc := h.cancel l (h.r2 l h2.1)
    simp only [setLLC_encrypt, setL2D_LLC, setL1D_LLC] at he
    rw [← hc, he]
  r2 := fun l hl => h.r2 l (Cache.evict_valid_line_mono _ _ _ hl)
  cancel := h.cancel
  uncancel := h.uncancel

theorem Ages.keep_evictL1 {st : Controller} {n1 n2 n3 : Nat} (h : st.Ages n1 n2 n3) (x : Nat) :
    (st.setL1D (st.L1D.evict x)).Ages n1 n2 n3 :=
  ⟨Cache.evict_agesOK x h.1, h.2.1, h.2.2⟩

theorem Ages.keep_evictL2 {st : Controller} {n1 n2 n3 : Nat} (h : st.Ages n1 n2 n3) (v : Nat) :
    ((st.setL2D (st.L2D.evict v)).setL1D (st.L1D.evict v)).Ages n1 n2 n3 :=
  ⟨Cache.evict_agesOK v h.1, Cache.evict_agesOK v h.2.1, h.2.2⟩

theorem Ages.keep_evictLLC {st : Controller} {n1 n2 n3 : Nat} (h : st.Ages n1 n2 n3) (w d : Nat) :
    (((st.setLLC (st.LLC.evict w)).setL2D (st.L2D.evict d)).setL1D
        (st.L1D.evict d)).Ages n1 n2 n3 :=
  ⟨Cache.evict_agesOK d h.1, Cache.evict_agesOK d h.2.1, Cache.evict_agesOK w h.2.2⟩

end Controller

/-! ## The hierarchy: insertion -/

namespace Cache

theorem insert_cases (c : Cache) (s : Nat) :
    (∃ p, c.find_invalid s = some p ∧ p < 2 ^ c.bit_ways ∧ c.cache_valid s p = false) ∨
    (c.find_invalid s = none ∧ ∃ lru, c.lru_way s = some lru ∧ lru < 2 ^ c.bit_ways ∧
      c.cache_valid s lru = true) := by
  cases h : c.find_invalid s with
  | some p =>
    obtain ⟨hp, hv, _⟩ := find_invalid_some.mp h
    exact Or.inl ⟨p, rfl, hp, hv⟩
  | none =>
    have hall := find_invalid_none.mp h
    obtain ⟨lru, hl, hlt, _⟩ := lru_way_some hall
    exact Or.inr ⟨rfl, lru, hl, hlt, hall lru hlt⟩

theorem evict_victim_slot {c : Cache} (hbs : c.bit_sets ≤ 16) (hu : c.TagsUnique) {s i : Nat}
    (hs : s < 2 ^ c.bit_sets) (hi : i < 2 ^ c.bit_ways) (hv : c.cache_valid s i = true) :
    (c.evict (c.victim s i)).cache_valid s i = false := by
  rw [evict_victim hbs hu hs hi hv, invalidate_valid_apply]
  simp

theorem fill_valid_line_of {c : Cache} {bs bw l p : Nat} (hbs : c.bit_sets = bs)
    (hbw : c.bit_ways = bw) (hp : p < 2 ^ bw) (hv : c.cache_valid (l % 2 ^ bs) p = false)
    (x : Nat) : (c.fill (l % 2 ^ bs) p (l / 2 ^ bs)).valid_line x ↔ c.valid_line x ∨ x = l := by
  subst hbs hbw
  exact fill_valid_line hp hv x

theorem fill_tagsUnique_of {c : Cache} {bs l : Nat} (hbs : c.bit_sets = bs)
    (hu : c.TagsUnique) (p : Nat) (habs : ¬ c.valid_line l) :
    (c.fill (l % 2 ^ bs) p (l / 2 ^ bs)).TagsUnique := by
  subst hbs
  exact fill_tagsUnique hu p habs

theorem fill_agesOK_of {c : Cache} {bw s p t n : Nat} (hbw : c.bit_ways = bw) (hp : p < 2 ^ bw)
    (hn : n + 1 < 2 ^ 16) (h : c.AgesOK n) : (c.fill s p t).AgesOK (n + 1) := by
  subst hbw
  exact fill_agesOK hp hn h

theorem set_index_of {c : Cache} {bs : Nat} (hbs : c.bit_sets = bs) (h16 : bs ≤ 16) (l : Nat) :
    c.set_index l = l % 2 ^ bs := by
  subst hbs
  exact set_index_eq c h16 l

theorem tag_of {c : Cache} {bs : Nat} (hbs : c.bit_sets = bs) (l : Nat) :
    c.tag l = l / 2 ^ bs := by
  subst hbs
  exact tag_eq c l

/-- Outcome of the two loops of `insert` on the set of line `l`: either a free way `p`, or a
full set with LRU way `lru`, whose line `v` is valid and whose slot is free once `v` is
evicted. -/
theorem insert_cases_of {c : Cache} {bs bw : Nat} (hbs : c.bit_sets = bs) (hbw : c.bit_ways = bw)
    (h16 : bs ≤ 16) (hu : c.TagsUnique) (l : Nat) :
    (∃ p, c.find_invalid (l % 2 ^ bs) = some p ∧ p < 2 ^ bw ∧
      c.cache_valid (l % 2 ^ bs) p = false) ∨
    (c.find_invalid (l % 2 ^ bs) = none ∧ ∃ lru, c.lru_way (l % 2 ^ bs) = some lru ∧
      lru < 2 ^ bw ∧ c.valid_line (c.victim (l % 2 ^ bs) lru) ∧
      (c.evict (c.victim (l % 2 ^ bs) lru)).cache_valid (l % 2 ^ bs) lru = false) := by
  subst hbs hbw
  have hs : l % 2 ^ c.bit_sets < 2 ^ c.bit_sets := Nat.mod_lt _ (by positivity)
  rcases insert_cases c (l % 2 ^ c.bit_sets) with ⟨p, hf, hp, hv⟩ | ⟨hf, lru, hl, hlt, hv⟩
  · exact Or.inl ⟨p, hf, hp, hv⟩
  · exact Or.inr ⟨hf, lru, hl, hlt, victim_valid_line c hs hlt hv,
      evict_victim_slot h16 hu hs hlt hv⟩

end Cache

namespace Controller

theorem Inv.fillLLC {st : Controller} (h : st.Inv) (c p : Nat)
    (hv : st.LLC.cache_valid (c % 2 ^ 11) p = false)
    (hp : p < 2 ^ 5) (hc : ¬ st.LLC.valid_line c) :
    (st.setLLC (st.LLC.fill (c % 2 ^ 11) p (c / 2 ^ 11))).Inv where
  shaped := h.shaped
  u1 := h.u1
  u2 := h.u2
  u3 := Cache.fill_tagsUnique_of h.shaped.2.2.2.2.1 h.u3 p hc
  inc12 := h.inc12
  inc23 := fun l hl =>
    (Cache.fill_valid_line_of h.shaped.2.2.2.2.1 h.shaped.2.2.2.2.2 hp hv _).mpr
      (Or.inl (h.inc23 l hl))
  r2 := h.r2
  cancel := h.cancel
  uncancel := h.uncancel

theorem Inv.fillL2 {st : Controller} (h : st.Inv) (l p : Nat)
    (hv : st.L2D.cache_valid (l % 2 ^ 10) p = false)
    (hp : p < 2 ^ 4) (hl : ¬ st.L2D.valid_line l) (hlt : l < 2 ^ 40)
    (hin : st.LLC.valid_line (st.LLC.encrypt l)) :
    (st.setL2D (st.L2D.fill (l % 2 ^ 10) p (l / 2 ^ 10))).Inv where
  shaped := h.shaped
  u1 := h.u1
  u2 := Cache.fill_tagsUnique_of h.shaped.2.2.1 h.u2 p hl
  u3 := h.u3
  inc12 := fun x hx =>
    (Cache.fill_valid_line_of h.shaped.2.2.1 h.shaped.2.2.2.1 hp hv _).mpr
      (Or.inl (h.inc12 x hx))
  inc23 := fun x hx => by
    rcases (Cache.fill_valid_line_of h.shaped.2.2.1 h.shaped.2.2.2.1 hp hv x).mp hx
      with h1 | rfl
    · exact h.inc23 x h1
    · exact hin
  r2 := fun x hx => by
    rcases (Cache.fill_valid_line_of h.shaped.2.2.1 h.shaped.2.2.2.1 hp hv x).mp hx
      with h1 | rfl
    · exact h.r2 x h1
    · exact hlt
  cancel := h.cancel
  uncancel := h.uncancel

theorem Inv.fillL1 {st : Controller} (h : st.Inv) (l p : Nat)
    (hv : st.L1D.cache_valid (l % 2 ^ 8) p = false)
    (hp : p < 2 ^ 3) (hl : ¬ st.L1D.valid_line l)
    (hin : st.L2D.valid_line l) :
    (st.setL1D (st.L1D.fill (l % 2 ^ 8) p (l / 2 ^ 8))).Inv where
  shaped := h.shaped
  u1 := Cache.fill_tagsUnique_of h.shaped.1 h.u1 p hl
  u2 := h.u2
  u3 := h.u3
  inc12 := fun x hx => by
    rcases (Cache.fill_valid_line_of h.shaped.1 h.shaped.2.1 hp hv x).mp hx with h1 | rfl
    · exact h.inc12 x h1
    · exact hin
  inc23 := h.inc23
  r2 := h.r2
  cancel := h.cancel
  uncancel := h.uncancel

theorem Inv.LLC_insert {st : Controller} (h : st.Inv) (c : Nat) (hc : ¬ st.LLC.valid_line c) :
    ∃ st', st.LLC_insert c = some st' ∧ st'.Inv ∧ st'.LLC.valid_line c ∧
      (∀ x, st'.L2D.valid_line x → st.L2D.valid_line x) ∧
      (∀ x, st'.L1D.valid_line x → st.L1D.valid_line x) ∧
      (∀ x, st'.LLC.encrypt x = st.LLC.encrypt x) ∧
      (∀ n1 n2 n3, n3 + 1 < 2 ^ 16 → st.Ages n1 n2 n3 → st'.Ages n1 n2 (n3 + 1)) := by
  have hbs := h.shaped.2.2.2.2.1
  have hbw := h.shaped.2.2.2.2.2
  have hsi := Cache.set_index_of hbs (by norm_num) c
  have hti := Cache.tag_of hbs c
  rcases Cache.insert_cases_of hbs hbw (by norm_num) h.u3 c with
    ⟨p, hf, hp, hv⟩ | ⟨hf, lru, hl, hlt, hvl, hslot⟩
  · have e : st.LLC_insert c = some (st.setLLC (st.LLC.fill (c % 2 ^ 11) p (c / 2 ^ 11))) := by
      simp only [Controller.LLC_insert, hsi, hti, hf]
    refine ⟨_, e, h.fillLLC c p hv hp hc,
      (Cache.fill_valid_line_of hbs hbw hp hv c).mpr (Or.inr rfl),
      fun x hx => hx, fun x hx => hx, fun _ => rfl, ?_⟩
    intro n1 n2 n3 hn ha
    exact ⟨ha.1, ha.2.1, Cache.fill_agesOK_of hbw hp hn ha.2.2⟩
  · have hi1 := h.evictLLC (st.LLC.victim (c % 2 ^ 11) lru)
    have hc1 : ¬ (st.LLC.evict (st.LLC.victim (c % 2 ^ 11) lru)).valid_line c :=
      fun hx => hc (Cache.evict_valid_line_mono _ _ _ hx)
    have e : st.LLC_insert c = some
        ((st.LLC_evict (st.LLC.victim (c % 2 ^ 11) lru)).setLLC
          ((st.LLC_evict (st.LLC.victim (c % 2 ^ 11) lru)).LLC.fill
            (c % 2 ^ 11) lru (c / 2 ^ 11))) := by
      simp only [Controller.LLC_insert, hsi, hti, hf, LLC_evict_LRU, hl, Option.map_some']
    rw [LLC_evict_eq h _ hvl] at e
    refine ⟨_, e, hi1.fillLLC c lru hslot hlt hc1,
      (Cache.fill_valid_line_of (c := st.LLC.evict _) (by simpa using hbs)
        (by simpa using hbw) hlt hslot c).mpr (Or.inr rfl),
      fun x hx => Cache.evict_valid_line_mono _ _ _ hx,
      fun x hx => Cache.evict_valid_line_mono _ _ _ hx, fun _ => rfl, ?_⟩
    intro n1 n2 n3 hn ha
    have ha1 := ha.keep_evictLLC (st.LLC.victim (c % 2 ^ 11) lru)
      (st.LLC.decrypt (st.LLC.victim (c % 2 ^ 11) lru))
    exact ⟨ha1.1, ha1.2.1, Cache.fill_agesOK_of (c := st.LLC.evict _)
      (by simpa using hbw) hlt hn ha1.2.2⟩

theorem Inv.L2D_insert {st : Controller} (h : st.Inv) (l : Nat) (hl : ¬ st.L2D.valid_line l)
    (hlt : l < 2 ^ 40) (hin : st.LLC.valid_line (st.LLC.encrypt l)) :
    ∃ st', st.L2D_insert l = some st' ∧ st'.Inv ∧ st'.L2D.valid_line l ∧
      (∀ x, st'.L1D.valid_line x → st.L1D.valid_line x) ∧
      (∀ n1 n2 n3, n2 + 1 < 2 ^ 16 → st.Ages n1 n2 n3 → st'.Ages n1 (n2 + 1) n3) := by
  have hbs := h.shaped.2.2.1
  have hbw := h.shaped.2.2.2.1
  have hsi := Cache.set_index_of hbs (by norm_num) l
  have hti := Cache.tag_of hbs l
  rcases Cache.insert_cases_of hbs hbw (by norm_num) h.u2 l with
    ⟨p, hf, hp, hv⟩ | ⟨hf, lru, hlr, hlt2, hvl, hslot⟩
  · have e : st.L2D_insert l = some (st.setL2D (st.L2D.fill (l % 2 ^ 10) p (l / 2 ^ 10))) := by
      simp only [Controller.L2D_insert, hsi, hti, hf]
    refine ⟨_, e, h.fillL2 l p hv hp hl hlt hin,
      (Cache.fill_valid_line_of hbs hbw hp hv l).mpr (Or.inr rfl), fun x hx => hx, ?_⟩
    intro n1 n2 n3 hn ha
    exact ⟨ha.1, Cache.fill_agesOK_of hbw hp hn ha.2.1, ha.2.2⟩
  · have hi1 := h.evictL2 (st.L2D.victim (l % 2 ^ 10) lru)
    have hl1 : ¬ (st.L2D.evict (st.L2D.victim (l % 2 ^ 10) lru)).valid_line l :=
      fun hx => hl (Cache.evict_valid_line_mono _ _ _ hx)
    have e : st.L2D_insert l = some
        ((st.L2D_evict (st.L2D.victim (l % 2 ^ 10) lru)).setL2D
          ((st.L2D_evict (st.L2D.victim (l % 2 ^ 10) lru)).L2D.fill
            (l % 2 ^ 10) lru (l / 2 ^ 10))) := by
      simp only [Controller.L2D_insert, hsi, hti, hf, L2D_evict_LRU, hlr, Option.map_some']
    rw [L2D_evict_eq h] at e
    refine ⟨_, e, hi1.fillL2 l lru hslot hlt2 hl1 hlt hin,
      (Cache.fill_valid_line_of (c := st.L2D.evict _) (by simpa using hbs)
        (by simpa using hbw) hlt2 hslot l).mpr (Or.inr rfl),
      fun x hx => Cache.evict_valid_line_mono _ _ _ hx, ?_⟩
    intro n1 n2 n3 hn ha
    have ha1 := ha.keep_evictL2 (st.L2D.victim (l % 2 ^ 10) lru)
    exact ⟨ha1.1, Cache.fill_agesOK_of (c := st.L2D.evict _) (by simpa using hbw) hlt2 hn
      ha1.2.1, ha1.2.2⟩

theorem Inv.L1D_insert {st : Controller} (h : st.Inv) (l : Nat) (hl : ¬ st.L1D.valid_line l)
    (hin : st.L2D.valid_line l) :
    ∃ st', st.L1D_insert l = some st' ∧ st'.Inv ∧ st'.L1D.valid_line l ∧
      (∀ n1 n2 n3, n1 + 1 < 2 ^ 16 → st.Ages n1 n2 n3 → st'.Ages (n1 + 1) n2 n3) := by
  have hbs := h.shaped.1
  have hbw := h.shaped.2.1
  have hsi := Cache.set_index_of hbs (by norm_num) l
  have hti := Cache.tag_of hbs l
  rcases Cache.insert_cases_of hbs hbw (by norm_num) h.u1 l with
    ⟨p, hf, hp, hv⟩ | ⟨hf, lru, hlr, hlt2, hvl, hslot⟩
  · have e : st.L1D_insert l = some (st.setL1D (st.L1D.fill (l % 2 ^ 8) p (l / 2 ^ 8))) := by
      simp only [Controller.L1D_insert, Cache.insert, hsi, hti, hf, Option.map_some']
    refine ⟨_, e, h.fillL1 l p hv hp hl hin,
      (Cache.fill_valid_line_of hbs hbw hp hv l).mpr (Or.inr rfl), ?_⟩
    intro n1 n2 n3 hn ha
    exact ⟨Cache.fill_agesOK_of hbw hp hn ha.1, ha.2.1, ha.2.2⟩
  · have hi1 := h.evictL1 (st.L1D.victim (l % 2 ^ 8) lru)
    have hl1 : ¬ (st.L1D.evict (st.L1D.victim (l % 2 ^ 8) lru)).valid_line l :=
      fun hx => hl (Cache.evict_valid_line_mono _ _ _ hx)
    have e : st.L1D_insert l = some
        (st.setL1D ((st.L1D.evict (st.L1D.victim (l % 2 ^ 8) lru)).fill
            (l % 2 ^ 8) lru (l / 2 ^ 8))) := by
      simp only [Controller.L1D_insert, Cache.insert, hsi, hti, hf, Cache.evict_LRU, hlr,
        Option.map_some']
    have hi2 := hi1.fillL1 l lru hslot hlt2 hl1 hin
    refine ⟨_, e, hi2,
      (Cache.fill_valid_line_of (c := st.L1D.evict _) (by simpa using hbs)
        (by simpa using hbw) hlt2 hslot l).mpr (Or.inr rfl), ?_⟩
    intro n1 n2 n3 hn ha
    have ha1 := ha.keep_evictL1 (st.L1D.victim (l % 2 ^ 8) lru)
    exact ⟨Cache.fill_agesOK_of (c := st.L1D.evict _) (by simpa using hbw) hlt2 hn ha1.1,
      ha1.2.1, ha1.2.2⟩

end Controller

/-! ## The hierarchy: access -/

theorem reassemble_line (x a : Nat) :
    ((x <<< LINE_SIZE) ||| (a &&& LINE_MASK)) >>> LINE_SIZE = x := by
  have hm : a &&& LINE_MASK < 2 ^ 6 := by
    have : LINE_MASK = 2 ^ 6 - 1 := by decide
    rw [this, Nat.and_pow_two_sub_one_eq_mod]
    exact Nat.mod_lt _ (by norm_num)
  have h6 : LINE_SIZE = 6 := rfl
  rw [h6, Nat.shiftLeft_eq, Nat.mul_comm, ← Nat.mul_add_lt_is_or hm, Nat.shiftRight_eq_div_pow,
    Nat.mul_add_div (by norm_num), Nat.div_eq_of_lt hm, Nat.add_zero]

namespace Cache

theorem access_helper_of_valid {c : Cache} (hbs : c.bit_sets ≤ 16) {a : Nat}
    (h : c.valid_line (a >>> LINE_SIZE)) :
    c.access_helper a = (true, (c.access_helper a).2) :=
  Prod.ext ((access_helper_fst_iff hbs a).mpr h) rfl

theorem access_helper_of_not_valid {c : Cache} (hbs : c.bit_sets ≤ 16) {a : Nat}
    (h : ¬ c.valid_line (a >>> LINE_SIZE)) : c.access_helper a = (false, c) :=
  access_helper_miss ((not_valid_line_iff hbs _).mp h)

end Cache

namespace Controller

theorem Inv.helperL1 {st : Controller} (h : st.Inv) (a : Nat) :
    (st.setL1D (st.L1D.access_helper a).2).Inv where
  shaped := by
    obtain ⟨x, y, r⟩ := h.shaped
    exact ⟨by simpa using x, by simpa using y, r⟩
  u1 := Cache.access_helper_tagsUnique h.u1 a
  u2 := h.u2
  u3 := h.u3
  inc12 := fun l hl => h.inc12 l ((Cache.access_helper_valid_line _ a l).mp hl)
  inc23 := h.inc23
  r2 := h.r2
  cancel := h.cancel
  uncancel := h.uncancel

theorem Inv.helperL2 {st : Controller} (h : st.Inv) (a : Nat) :
    (st.setL2D (st.L2D.access_helper a).2).Inv where
  shaped := by
    obtain ⟨x, y, z, w, r⟩ := h.shaped
    exact ⟨x, y, by simpa using z, by simpa using w, r⟩
  u1 := h.u1
  u2 := Cache.access_helper_tagsUnique h.u2 a
  u3 := h.u3
  inc12 := fun l hl => (Cache.access_helper_valid_line _ a l).mpr (h.inc12 l hl)
  inc23 := fun l hl => h.inc23 l ((Cache.access_helper_valid_line _ a l).mp hl)
  r2 := fun l hl => h.r2 l ((Cache.access_helper_valid_line _ a l).mp hl)
  cancel := h.cancel
  uncancel := h.uncancel

theorem Inv.helperLLC {st : Controller} (h : st.Inv) (a : Nat) :
    (st.setLLC (st.LLC.access_helper a).2).Inv where
  shaped := by
    obtain ⟨x, y, z, w, u, v⟩ := h.shaped
    exact ⟨x, y, z, w, by simpa using u, by simpa using v⟩
  u1 := h.u1
  u2 := h.u2
  u3 := Cache.access_helper_tagsUnique h.u3 a
  inc12 := h.inc12
  inc23 := fun l hl => (Cache.access_helper_valid_line _ a _).mpr (h.inc23 l hl)
  r2 := h.r2
  cancel := h.cancel
  uncancel := h.uncancel

theorem Inv.LLC_access {st : Controller} (h : st.Inv) (a : Nat) :
    ∃ st', st.LLC_access a =
        some ((if st.LLC.valid_line (st.LLC.encrypt (a >>> LINE_SIZE)) then 0 else 1), st') ∧
      st'.Inv ∧ st'.LLC.valid_line (st.LLC.encrypt (a >>> LINE_SIZE)) ∧
      (∀ x, st'.L2D.valid_line x → st.L2D.valid_line x) ∧
      (∀ x, st'.L1D.valid_line x → st.L1D.valid_line x) ∧
      (∀ x, st'.LLC.encrypt x = st.LLC.encrypt x) ∧
      (∀ n1 n2 n3, n3 + 1 < 2 ^ 16 → st.Ages n1 n2 n3 → st'.Ages n1 n2 (n3 + 1)) := by
  have hbs := h.shaped.bs3
  have hline := reassemble_line (st.LLC.encrypt (a >>> LINE_SIZE)) a
  by_cases hv : st.LLC.valid_line (st.LLC.encrypt (a >>> LINE_SIZE))
  · have hh := Cache.access_helper_of_valid (c := st.LLC.toCache) hbs
      (a := (st.LLC.encrypt (a >>> LINE_SIZE) <<< LINE_SIZE) ||| (a &&& LINE_MASK))
      (by rw [hline]; exact hv)
    have e : st.LLC_access a = some (0, st.setLLC (st.LLC.access_helper
        ((st.LLC.encrypt (a >>> LINE_SIZE) <<< LINE_SIZE) ||| (a &&& LINE_MASK))).2) := by
      unfold Controller.LLC_access
      simp only
      rw [hh]
    rw [if_pos hv]
    refine ⟨_, e, h.helperLLC _, (Cache.access_helper_valid_line _ _ _).mpr hv,
      fun x hx => hx, fun x hx => hx, fun _ => rfl, ?_⟩
    intro n1 n2 n3 hn ha
    exact ⟨ha.1, ha.2.1, Cache.access_helper_agesOK _ hn ha.2.2⟩
  · have hh := Cache.access_helper_of_not_valid (c := st.LLC.toCache) hbs
      (a := (st.LLC.encrypt (a >>> LINE_SIZE) <<< LINE_SIZE) ||| (a &&& LINE_MASK))
      (by rw [hline]; exact hv)
    obtain ⟨st', e', hi, hvl, h2, h1, henc, hages⟩ :=
      h.LLC_insert (st.LLC.encrypt (a >>> LINE_SIZE)) hv
    have e : st.LLC_access a = some (1, st') := by
      unfold Controller.LLC_access
      simp only
      rw [hh]
      simp only [hline, setLLC_self, e', Option.map_some']
    rw [if_neg hv]
    exact ⟨_, e, hi, hvl, h2, h1, henc, hages⟩

theorem Ages.weaken {st : Controller} {n1 n2 n3 m1 m2 m3 : Nat} (h : st.Ages n1 n2 n3)
    (h1 : n1 ≤ m1) (h2 : n2 ≤ m2) (h3 : n3 ≤ m3) : st.Ages m1 m2 m3 :=
  ⟨h.1.relax h1, h.2.1.relax h2, h.2.2.relax h3⟩

theorem Inv.L2D_access {st : Controller} (h : st.Inv) (a : Nat)
    (ha : a >>> LINE_SIZE < 2 ^ 40) :
    ∃ st', st.L2D_access a =
        some ((if st.L2D.valid_line (a >>> LINE_SIZE) then 0
          else 1 + (if st.LLC.valid_line (st.LLC.encrypt (a >>> LINE_SIZE)) then 0 else 1)),
          st') ∧
      st'.Inv ∧ st'.L2D.valid_line (a >>> LINE_SIZE) ∧
      (∀ x, st'.L1D.valid_line x → st.L1D.valid_line x) ∧
      (∀ n1 n2 n3, n2 + 1 < 2 ^ 16 → n3 + 1 < 2 ^ 16 → st.Ages n1 n2 n3 →
        st'.Ages n1 (n2 + 1) (n3 + 1)) := by
  have hbs := h.shaped.bs2
  by_cases hv : st.L2D.valid_line (a >>> LINE_SIZE)
  · have hh := Cache.access_helper_of_valid hbs hv
    have e : st.L2D_access a = some (0, st.setL2D (st.L2D.access_helper a).2) := by
      unfold Controller.L2D_access
      rw [hh]
    rw [if_pos hv]
    refine ⟨_, e, h.helperL2 _, (Cache.access_helper_valid_line _ _ _).mpr hv,
      fun x hx => hx, ?_⟩
    intro n1 n2 n3 hn2 hn3 hag
    exact ⟨hag.1, Cache.access_helper_agesOK _ hn2 hag.2.1, hag.2.2.relax (by omega)⟩
  · have hh := Cache.access_helper_of_not_valid hbs hv
    obtain ⟨st1, e1, hi1, hvl1, h21, h11, henc1, hages1⟩ := h.LLC_access a
    have hv1 : ¬ st1.L2D.valid_line (a >>> LINE_SIZE) := fun hx => hv (h21 _ hx)
    obtain ⟨st2, e2, hi2, hvl2, h12, hages2⟩ :=
      hi1.L2D_insert (a >>> LINE_SIZE) hv1 ha (by rw [henc1]; exact hvl1)
    have e : st.L2D_access a = some
        (1 + (if st.LLC.valid_line (st.LLC.encrypt (a >>> LINE_SIZE)) then 0 else 1), st2) := by
      unfold Controller.L2D_access
      rw [hh]
      simp only [setL2D_self, e1, Option.some_bind, e2, Option.map_some']
    rw [if_neg hv]
    refine ⟨_, e, hi2, hvl2, fun x hx => h11 x (h12 x hx), ?_⟩
    intro n1 n2 n3 hn2 hn3 hag
    exact hages2 _ _ _ hn2 (hages1 _ _ _ hn3 hag)

theorem Inv.L1D_access {st : Controller} (h : st.Inv) (a : Nat)
    (ha : a >>> LINE_SIZE < 2 ^ 40) :
    ∃ st', st.L1D_access a = some (st.depth (a >>> LINE_SIZE), st') ∧
      st'.Inv ∧ st'.L1D.valid_line (a >>> LINE_SIZE) ∧
      (∀ n1 n2 n3, n1 + 1 < 2 ^ 16 → n2 + 1 < 2 ^ 16 → n3 + 1 < 2 ^ 16 → st.Ages n1 n2 n3 →
        st'.Ages (n1 + 1) (n2 + 1) (n3 + 1)) := by
  have hbs := h.shaped.bs1
  by_cases hv : st.L1D.valid_line (a >>> LINE_SIZE)
  · have hh := Cache.access_helper_of_valid hbs hv
    have e : st.L1D_access a = some (0, st.setL1D (st.L1D.access_helper a).2) := by
      unfold Controller.L1D_access
      rw [hh]
    have hd : st.depth (a >>> LINE_SIZE) = 0 := by simp [depth, hv]
    rw [hd]
    refine ⟨_, e, h.helperL1 _, (Cache.access_helper_valid_line _ _ _).mpr hv, ?_⟩
    intro n1 n2 n3 hn1 hn2 hn3 hag
    exact ⟨Cache.access_helper_agesOK _ hn1 hag.1, hag.2.1.relax (by omega),
      hag.2.2.relax (by omega)⟩
  · have hh := Cache.access_helper_of_not_valid hbs hv
    obtain ⟨st1, e1, hi1, hvl1, h11, hages1⟩ := h.L2D_access a ha
    have hv1 : ¬ st1.L1D.valid_line (a >>> LINE_SIZE) := fun hx => hv (h11 _ hx)
    obtain ⟨st2, e2, hi2, hvl2, hages2⟩ := hi1.L1D_insert (a >>> LINE_SIZE) hv1 hvl1
    have hd : st.depth (a >>> LINE_SIZE) =
        1 + (if st.L2D.valid_line (a >>> LINE_SIZE) then 0
          else 1 + (if st.LLC.valid_line (st.LLC.encrypt (a >>> LINE_SIZE)) then 0 else 1)) := by
      unfold depth
      rw [if_neg hv]
      split
      · rfl
      · split <;> rfl
    have e : st.L1D_access a = some (st.depth (a >>> LINE_SIZE), st2) := by
      unfold Controller.L1D_access
      rw [hh, hd]
      simp only [setL1D_self, e1, Option.some_bind, e2, Option.map_some']
    refine ⟨_, e, hi2, hvl2, ?_⟩
    intro n1 n2 n3 hn1 hn2 hn3 hag
    exact hages2 _ _ _ hn1 (hages1 _ _ _ hn2 hn3 hag)

theorem addr_line_lt {addr : Nat} (h : addr < 2 ^ 46) : addr >>> LINE_SIZE < 2 ^ 40 := by
  have h6 : LINE_SIZE = 6 := rfl
  rw [h6, Nat.shiftRight_eq_div_pow]
  omega

theorem addr_assert {addr : Nat} (h : addr < 2 ^ 46) : addr >>> 46 = 0 := by
  rw [Nat.shiftRight_eq_div_pow]
  exact Nat.div_eq_of_lt h

theorem Inv.access {st : Controller} (h : st.Inv) (addr : Nat) (ha : addr < 2 ^ 46) :
    ∃ st', st.access addr = some (st.depth (addr >>> LINE_SIZE), st') ∧
      st'.Inv ∧ st'.L1D.valid_line (addr >>> LINE_SIZE) ∧
      (∀ n1 n2 n3, n1 + 1 < 2 ^ 16 → n2 + 1 < 2 ^ 16 → n3 + 1 < 2 ^ 16 → st.Ages n1 n2 n3 →
        st'.Ages (n1 + 1) (n2 + 1) (n3 + 1)) := by
  obtain ⟨st', e, r⟩ := h.L1D_access addr (addr_line_lt ha)
  refine ⟨st', ?_, r⟩
  unfold Controller.access
  rw [if_pos (addr_assert ha), e]

end Controller

/-! ## Fresh controller and access sequences -/

namespace Cache

theorem new_not_valid_line (bs bw l : Nat) : ¬ (Cache.new bs bw).valid_line l := by
  rintro ⟨i, _, hv, _⟩
  cases hv

theorem new_tagsUnique (bs bw : Nat) : (Cache.new bs bw).TagsUnique := by
  intro s i j _ _ hv
  cases hv

theorem new_agesOK (bs bw n : Nat) : (Cache.new bs bw).AgesOK n :=
  ⟨fun s i _ hv => (by cases hv), fun s i j _ _ hv => (by cases hv)⟩

end Cache

namespace Controller

theorem new_some (s_box : Nat → Nat → Nat → Nat) (p_box : Nat → Nat → Nat) :
    ∃ llc, CeaserCache.new [100, 200, 300, 400] s_box p_box = some llc ∧
      llc.toCache = Cache.new 11 5 ∧
      Controller.new s_box p_box =
        some { L1D := Cache.new 8 3, L2D := Cache.new 10 4, LLC := llc } := by
  have hk : [100, 200, 300, 400].length = FIESTEL_DEPTH := rfl
  refine ⟨_, CeaserCache.new_eq [100, 200, 300, 400] s_box p_box hk, rfl, ?_⟩
  unfold Controller.new
  rw [CeaserCache.new_eq [100, 200, 300, 400] s_box p_box hk]
  rfl

theorem new_inv {s_box : Nat → Nat → Nat → Nat} {p_box : Nat → Nat → Nat}
    (hbox : ShuffledBoxes s_box p_box) :
    ∃ st, Controller.new s_box p_box = some st ∧ st.Inv ∧ st.Ages 0 0 0 ∧
      (∀ l, ¬ st.L1D.valid_line l) ∧ (∀ l, ¬ st.L2D.valid_line l) ∧
      (∀ l, ¬ st.LLC.valid_line l) := by
  obtain ⟨llc, hllc, hc, e⟩ := new_some s_box p_box
  obtain ⟨h1, h2, h3, h4, h5, h6, h7, h8⟩ := CeaserCache.tables_of_new hbox hllc
  refine ⟨_, e, ?_, ?_, ?_, ?_, ?_⟩
  · exact
    { shaped := ⟨rfl, rfl, rfl, rfl, by rw [hc]; exact ⟨rfl, rfl⟩⟩
      u1 := Cache.new_tagsUnique _ _
      u2 := Cache.new_tagsUnique _ _
      u3 := by show llc.toCache.TagsUnique; rw [hc]; exact Cache.new_tagsUnique _ _
      inc12 := fun l hl => absurd hl (Cache.new_not_valid_line _ _ l)
      inc23 := fun l hl => absurd hl (Cache.new_not_valid_line _ _ l)
      r2 := fun l hl => absurd hl (Cache.new_not_valid_line _ _ l)
      cancel := fun x hx => CeaserCache.decrypt_encrypt_of_tables llc h1 h2 h3 h4 x hx
      uncancel := fun x hx => CeaserCache.encrypt_decrypt_of_tables llc h5 h6 h7 h8 x hx }
  · refine ⟨Cache.new_agesOK _ _ _, Cache.new_agesOK _ _ _, ?_⟩
    show llc.toCache.AgesOK 0
    rw [hc]
    exact Cache.new_agesOK _ _ _
  · exact fun l => Cache.new_not_valid_line _ _ l
  · exact fun l => Cache.new_not_valid_line _ _ l
  · intro l
    show ¬ llc.toCache.valid_line l
    rw [hc]
    exact Cache.new_not_valid_line _ _ l

theorem Inv.run {st : Controller} (h : st.Inv) (addrs : List Nat)
    (hall : ∀ a ∈ addrs, a < 2 ^ 46) :
    ∃ st', st.run addrs = some st' ∧ st'.Inv ∧
      (∀ n, n + addrs.length < 2 ^ 16 → st.Ages n n n →
        st'.Ages (n + addrs.length) (n + addrs.length) (n + addrs.length)) := by
  induction addrs generalizing st with
  | nil => exact ⟨st, rfl, h, fun n _ ha => ha⟩
  | cons a rest ih =>
    obtain ⟨st1, e1, hi1, _, hag1⟩ := h.access a (hall a (List.mem_cons_self _ _))
    obtain ⟨st2, e2, hi2, hag2⟩ := ih hi1 (fun b hb => hall b (List.mem_cons_of_mem _ hb))
    refine ⟨st2, ?_, hi2, ?_⟩
    · simp only [Controller.run, e1, Option.some_bind, e2]
    · intro n hn ha
      simp only [List.length_cons] at hn ⊢
      have := hag2 (n + 1) (by omega) (hag1 n n n (by omega) (by omega) (by omega) ha)
      have e : n + 1 + rest.length = n + (rest.length + 1) := by omega
      rwa [e] at this

theorem exec_inv {s_box : Nat → Nat → Nat → Nat} {p_box : Nat → Nat → Nat}
    (hbox : ShuffledBoxes s_box p_box) (addrs : List Nat) (hall : ∀ a ∈ addrs, a < 2 ^ 46) :
    ∃ st, Controller.exec s_box p_box addrs = some st ∧ st.Inv ∧
      (addrs.length < 2 ^ 16 → st.Ages addrs.length addrs.length addrs.length) := by
  obtain ⟨st0, e0, hi0, ha0, -⟩ := new_inv hbox
  obtain ⟨st, e, hi, hag⟩ := hi0.run addrs hall
  refine ⟨st, ?_, hi, ?_⟩
  · simp only [Controller.exec, e0, Option.some_bind, e]
  · intro hlen
    have := hag 0 (by omega) ha0
    simpa using this

end Controller

/-! ## Claims on the hierarchy -/

/-- C3: inclusion is an invariant of `Controller.access`: from a fresh controller, every
sequence of accesses with addresses below `2^46` runs to completion, and in the state reached
every line valid in L1D is valid in L2D and the ciphertext `encrypt l` of every line `l` valid
in L2D is valid in the LLC. -/
theorem inclusion_invariant (s_box : Nat → Nat → Nat → Nat) (p_box : Nat → Nat → Nat)
    (hbox : ShuffledBoxes s_box p_box) (addrs : List Nat) (hall : ∀ a ∈ addrs, a < 2 ^ 46) :
    ∃ st, Controller.exec s_box p_box addrs = some st ∧ st.Inclusive := by
  obtain ⟨st, e, hi, -⟩ := Controller.exec_inv hbox addrs hall
  exact ⟨st, e, hi.inc12, hi.inc23⟩

theorem inclusion_invariant_witness :
    ∃ st, Controller.exec revS revP [0, 64, 16384, 0, 1 <<< 45] = some st ∧ st.Inclusive :=
  inclusion_invariant revS revP revBoxes_shuffled [0, 64, 16384, 0, 1 <<< 45] (by decide)

/-- C4: in every state reached from a fresh controller, `access addr` with `addr < 2^46`
returns the miss depth of the line `addr >> 6` in the state before the call: 0 if it is valid
in L1D, 1 if absent from L1D but valid in L2D, 2 if absent from both but its ciphertext is
valid in the LLC, 3 otherwise; the result is at most 3. -/
theorem access_returns_depth (s_box : Nat → Nat → Nat → Nat) (p_box : Nat → Nat → Nat)
    (hbox : ShuffledBoxes s_box p_box) (addrs : List Nat) (hall : ∀ a ∈ addrs, a < 2 ^ 46)
    (addr : Nat) (haddr : addr < 2 ^ 46) :
    ∃ st, Controller.exec s_box p_box addrs = some st ∧
      ∃ st', st.access addr = some (st.depth (addr >>> LINE_SIZE), st') ∧
        st.depth (addr >>> LINE_SIZE) ≤ 3 := by
  obtain ⟨st, e, hi, -⟩ := Controller.exec_inv hbox addrs hall
  obtain ⟨st', e', -⟩ := hi.access addr haddr
  refine ⟨st, e, st', e', ?_⟩
  unfold Controller.depth
  split
  · omega
  · split
    · omega
    · split <;> omega

theorem access_returns_depth_witness :
    ∃ st, Controller.exec revS revP [0, 64, 16384] = some st ∧
      ∃ st', st.access 64 = some (st.depth (64 >>> LINE_SIZE), st') ∧
        st.depth (64 >>> LINE_SIZE) ≤ 3 :=
  access_returns_depth revS revP revBoxes_shuffled [0, 64, 16384] (by decide) 64 (by decide)

/-- C5: hit idempotence: in every state reached from a fresh controller, two consecutive
calls `access addr` (with `addr < 2^46`) both return, and the second returns 0. -/
theorem hit_idempotence (s_box : Nat → Nat → Nat → Nat) (p_box : Nat → Nat → Nat)
    (hbox : ShuffledBoxes s_box p_box) (addrs : List Nat) (hall : ∀ a ∈ addrs, a < 2 ^ 46)
    (addr : Nat) (haddr : addr < 2 ^ 46) :
    ∃ st, Controller.exec s_box p_box addrs = some st ∧
      ∃ r st1 st2, st.access addr = some (r, st1) ∧ st1.access addr = some (0, st2) := by
  obtain ⟨st, e, hi, -⟩ := Controller.exec_inv hbox addrs hall
  obtain ⟨st1, e1, hi1, hv1, -⟩ := hi.access addr haddr
  obtain ⟨st2, e2, -⟩ := hi1.access addr haddr
  have hd : st1.depth (addr >>> LINE_SIZE) = 0 := by simp [Controller.depth, hv1]
  rw [hd] at e2
  exact ⟨st, e, _, st1, st2, e1, e2⟩

theorem hit_idempotence_witness :
    ∃ st, Controller.exec revS revP [0, 64, 16384] = some st ∧
      ∃ r st1 st2, st.access 4096 = some (r, st1) ∧ st1.access 4096 = some (0, st2) :=
  hit_idempotence revS revP revBoxes_shuffled [0, 64, 16384] (by decide) 4096 (by decide)

/-- C6: cold miss chain: on a freshly constructed controller, for every `addr < 2^46`, the
first `access addr` returns 3 and the immediately following `access addr` returns 0. -/
theorem cold_miss_chain (s_box : Nat → Nat → Nat → Nat) (p_box : Nat → Nat → Nat)
    (hbox : ShuffledBoxes s_box p_box) (addr : Nat) (haddr : addr < 2 ^ 46) :
    ∃ st0 st1 st2, Controller.new s_box p_box = some st0 ∧
      st0.access addr = some (3, st1) ∧ st1.access addr = some (0, st2) := by
  obtain ⟨st0, e0, hi0, -, hn1, hn2, hn3⟩ := Controller.new_inv hbox
  obtain ⟨st1, e1, hi1, hv1, -⟩ := hi0.access addr haddr
  obtain ⟨st2, e2, -⟩ := hi1.access addr haddr
  have hd0 : st0.depth (addr >>> LINE_SIZE) = 3 := by
    simp [Controller.depth, hn1, hn2, hn3]
  have hd1 : st1.depth (addr >>> LINE_SIZE) = 0 := by simp [Controller.depth, hv1]
  rw [hd0] at e1
  rw [hd1] at e2
  exact ⟨st0, st1, st2, e0, e1, e2⟩

theorem cold_miss_chain_witness :
    ∃ st0 st1 st2, Controller.new revS revP = some st0 ∧
      st0.access 0 = some (3, st1) ∧ st1.access 0 = some (0, st2) :=
  cold_miss_chain revS revP revBoxes_shuffled 0 (by decide)

/-- C8: tag uniqueness: in every state reached from a fresh controller by `access` calls, no
set of the LLC holds two valid ways with the same tag, and likewise for L1D and L2D. -/
theorem tag_uniqueness (s_box : Nat → Nat → Nat → Nat) (p_box : Nat → Nat → Nat)
    (hbox : ShuffledBoxes s_box p_box) (addrs : List Nat) (hall : ∀ a ∈ addrs, a < 2 ^ 46) :
    ∃ st, Controller.exec s_box p_box addrs = some st ∧ st.TagsUnique := by
  obtain ⟨st, e, hi, -⟩ := Controller.exec_inv hbox addrs hall
  exact ⟨st, e, hi.u1, hi.u2, hi.u3⟩

theorem tag_uniqueness_witness :
    ∃ st, Controller.exec revS revP [0, 64, 16384, 0, 128] = some st ∧ st.TagsUnique :=
  tag_uniqueness revS revP revBoxes_shuffled [0, 64, 16384, 0, 128] (by decide)

/-! ## Capacity of a stand-alone level -/

namespace Cache

theorem insert_some (c : Cache) (l : Nat) : ∃ c', c.insert l = some c' := by
  rcases insert_cases c (c.set_index l) with ⟨p, hf, -⟩ | ⟨hf, lru, hl, -⟩
  · exact ⟨_, insert_of_free hf⟩
  · exact ⟨_, insert_of_full hf hl⟩

theorem access_of_not_valid {c : Cache} (hbs : c.bit_sets ≤ 16) {a : Nat}
    (h : ¬ c.valid_line (a >>> LINE_SIZE)) :
    c.access a = (c.insert (a >>> LINE_SIZE)).map fun c2 => (1, c2) := by
  unfold access
  rw [access_helper_of_not_valid hbs h]

theorem access_of_valid {c : Cache} (hbs : c.bit_sets ≤ 16) {a : Nat}
    (h : c.valid_line (a >>> LINE_SIZE)) :
    c.access a = some (0, (c.access_helper a).2) := by
  unfold access
  rw [access_helper_of_valid hbs h]

theorem run_append (c : Cache) (xs ys : List Nat) :
    c.run (xs ++ ys) = (c.run xs).bind fun d => d.run ys := by
  induction xs generalizing c with
  | nil => rfl
  | cons a t ih =>
    show ((c.access a).bind fun r => r.2.run (t ++ ys)) =
      ((c.access a).bind fun r => r.2.run t).bind fun d => d.run ys
    cases c.access a with
    | none => rfl
    | some r => exact ih r.2

theorem FilledTo.not_valid_line {c : Cache} {s k l : Nat} {t : Nat → Nat}
    (h : c.FilledTo s t k) (hs : l % 2 ^ c.bit_sets = s)
    (ht : ∀ i, i < k → t i ≠ l / 2 ^ c.bit_sets) : ¬ c.valid_line l := by
  rintro ⟨i, _, hv, htag⟩
  rw [hs] at hv htag
  by_cases hik : i < k
  · exact ht i hik ((h.1 i hik).2.1.symm.trans htag)
  · rw [h.2 i (by omega)] at hv
    cases hv

/-- One more distinct line of the same set goes to the next free way. -/
theorem FilledTo.step {c : Cache} {s k a : Nat} {t : Nat → Nat}
    (hbs : c.bit_sets ≤ 15) (hbw : c.bit_ways ≤ 15) (hk : k < 2 ^ c.bit_ways)
    (h : c.FilledTo s t k) (hs : (a >>> LINE_SIZE) % 2 ^ c.bit_sets = s)
    (htk : (a >>> LINE_SIZE) / 2 ^ c.bit_sets = t k) (ht : ∀ i, i < k → t i ≠ t k) :
    ∃ d, c.access a = some (1, d) ∧ d.bit_sets = c.bit_sets ∧ d.bit_ways = c.bit_ways ∧
      d.FilledTo s t (k + 1) := by
  have h16 : c.bit_sets ≤ 16 := by omega
  have hw : 2 ^ c.bit_ways ≤ 2 ^ 15 := Nat.pow_le_pow_right (by norm_num) hbw
  have hnv : ¬ c.valid_line (a >>> LINE_SIZE) :=
    h.not_valid_line hs (fun i hi => by rw [htk]; exact ht i hi)
  have hfi : c.find_invalid (c.set_index (a >>> LINE_SIZE)) = some k := by
    rw [set_index_eq c h16, hs, find_invalid_some]
    exact ⟨hk, h.2 k (le_refl k), fun j hj => (h.1 j hj).1⟩
  refine ⟨c.fill s k (t k), ?_, rfl, rfl, ?_, ?_⟩
  · rw [access_of_not_valid h16 hnv, insert_of_free hfi, set_index_eq c h16, tag_eq, hs, htk]
    rfl
  · intro i hi
    rw [fill_valid_apply, fill_tag_apply, fill_last_access c s k (t k) hk]
    by_cases hik : i = k
    · subst hik
      simp
    · have hlt : i < k := by omega
      obtain ⟨hv, htg, hla⟩ := h.1 i hlt
      simp only [hik, and_false, if_false, true_and]
      refine ⟨hv, htg, ?_⟩
      rw [if_pos ⟨by omega, hv⟩, hla]
      have : k - i + 1 < 2 ^ 16 := by omega
      rw [Nat.mod_eq_of_lt this]
      omega
  · intro i hi
    rw [fill_valid_apply, if_neg (by omega)]
    exact h.2 i (by omega)

/-- On a full set filled in order, the next distinct line evicts way 0 and takes its place. -/
theorem FilledTo.overflow {c : Cache} {s a z : Nat} {t : Nat → Nat}
    (hbs : c.bit_sets ≤ 15)
    (h : c.FilledTo s t (2 ^ c.bit_ways)) (hs : (a >>> LINE_SIZE) % 2 ^ c.bit_sets = s)
    (htk : (a >>> LINE_SIZE) / 2 ^ c.bit_sets = t (2 ^ c.bit_ways))
    (ht : ∀ i, i < 2 ^ c.bit_ways → t i ≠ t (2 ^ c.bit_ways))
    (hl0s : z % 2 ^ c.bit_sets = s) (hl0t : z / 2 ^ c.bit_sets = t 0)
    (ht0 : ∀ i, 0 < i → i < 2 ^ c.bit_ways → t i ≠ t 0) :
    ∃ d, c.access a = some (1, d) ∧ d.bit_sets = c.bit_sets ∧ d.bit_ways = c.bit_ways ∧
      ¬ d.valid_line z := by
  have h16 : c.bit_sets ≤ 16 := by omega
  have hpos : 0 < 2 ^ c.bit_ways := by positivity
  have hs2 : s < 2 ^ c.bit_sets := by rw [← hs]; exact Nat.mod_lt _ (by positivity)
  have hnv : ¬ c.valid_line (a >>> LINE_SIZE) :=
    h.not_valid_line hs (fun i hi => by rw [htk]; exact ht i hi)
  have hall : ∀ k, k < 2 ^ c.bit_ways → c.cache_valid s k = true := fun k hk => (h.1 k hk).1
  have hfi : c.find_invalid (c.set_index (a >>> LINE_SIZE)) = none := by
    rw [set_index_eq c h16, hs, find_invalid_none]
    exact hall
  obtain ⟨lru, hl, hlt, _, hfirst⟩ := lru_way_some hall
  have hlru : lru = 0 := by
    by_contra hne
    have h0 := hfirst 0 (by omega)
    rw [(h.1 0 hpos).2.2, (h.1 lru hlt).2.2] at h0
    omega
  subst hlru
  have hft : c.find_tag (c.set_index (c.victim s 0)) (c.tag (c.victim s 0)) = some 0 := by
    rw [set_index_eq c h16, tag_eq, victim_mod c hs2, victim_div c hs2, find_tag_some]
    exact ⟨hpos, ⟨hall 0 hpos, rfl⟩, fun j hj => absurd hj (by omega)⟩
  refine ⟨(c.invalidate s 0).fill s 0 (t (2 ^ c.bit_ways)), ?_, rfl, rfl, ?_⟩
  · rw [access_of_not_valid h16 hnv]
    have hl' : c.lru_way (c.set_index (a >>> LINE_SIZE)) = some 0 := by
      rw [set_index_eq c h16, hs]; exact hl
    rw [insert_of_full hfi hl', set_index_eq c h16, tag_eq, hs, htk, evict_of_some hft,
      set_index_eq c h16, victim_mod c hs2]
    rfl
  · rintro ⟨i, hi, hv, htag⟩
    simp only [fill_bit_sets, fill_bit_ways, invalidate_bit_sets, invalidate_bit_ways,
      fill_valid_apply, fill_tag_apply, invalidate_cache_tag] at hi hv htag
    rw [hl0s] at hv htag
    rw [hl0t] at htag
    by_cases hi0 : i = 0
    · subst hi0
      simp only [and_self, if_true] at htag
      exact ht 0 hpos htag.symm
    · simp only [hi0, and_false, if_false] at htag
      exact ht0 i (by omega) hi ((h.1 i hi).2.1.symm.trans htag)

theorem new_filledTo (bs bw s : Nat) (t : Nat → Nat) : (Cache.new bs bw).FilledTo s t 0 :=
  ⟨fun i hi => absurd hi (by omega), fun _ _ => rfl⟩

/-- Tags of distinct lines of one set are distinct. -/
theorem tag_ne_of_line_ne {b x y : Nat} (hs : x % 2 ^ b = y % 2 ^ b) (hne : x ≠ y) :
    x / 2 ^ b ≠ y / 2 ^ b :=
  fun ht => hne (line_ext hs ht)

/-- From empty storage, `k ≤ 2^bit_ways` distinct lines of one set fill ways `0 .. k-1`. -/
theorem run_fill (bs bw : Nat) (hbs : bs ≤ 15) (hbw : bw ≤ 15) (a : Nat → Nat) (s : Nat)
    (hset : ∀ i, i ≤ 2 ^ bw → (a i >>> LINE_SIZE) % 2 ^ bs = s)
    (hdist : ∀ i j, i ≤ 2 ^ bw → j ≤ 2 ^ bw → a i >>> LINE_SIZE = a j >>> LINE_SIZE → i = j)
    (k : Nat) (hk : k ≤ 2 ^ bw) :
    ∃ c, (Cache.new bs bw).run ((List.range k).map a) = some c ∧ c.bit_sets = bs ∧
      c.bit_ways = bw ∧ c.FilledTo s (fun i => (a i >>> LINE_SIZE) / 2 ^ bs) k := by
  induction k with
  | zero => exact ⟨Cache.new bs bw, rfl, rfl, rfl, new_filledTo _ _ _ _⟩
  | succ k ih =>
    obtain ⟨c, hrun, h1, h2, hf⟩ := ih (by omega)
    have hstep := FilledTo.step (c := c) (s := s) (k := k) (a := a k)
      (t := fun i => (a i >>> LINE_SIZE) / 2 ^ bs) (by omega) (by omega) (by rw [h2]; omega) hf
      (by rw [h1]; exact hset k (by omega)) (by rw [h1])
      (fun i hi => tag_ne_of_line_ne
        ((hset i (by omega)).trans (hset k (by omega)).symm)
        (fun e => by have := hdist i k (by omega) (by omega) e; omega))
    obtain ⟨d, hacc, hd1, hd2, hdf⟩ := hstep
    refine ⟨d, ?_, hd1.trans h1, hd2.trans h2, hdf⟩
    rw [List.range_succ, List.map_append, run_append, hrun]
    simp only [Option.some_bind, List.map_cons, List.map_nil, run, hacc]

/-- From empty storage, after `2^bit_ways + 1` distinct lines of one set the first line is no
longer valid at the level. -/
theorem run_overflow (bs bw : Nat) (hbs : bs ≤ 15) (hbw : bw ≤ 15) (a : Nat → Nat) (s : Nat)
    (hset : ∀ i, i ≤ 2 ^ bw → (a i >>> LINE_SIZE) % 2 ^ bs = s)
    (hdist : ∀ i j, i ≤ 2 ^ bw → j ≤ 2 ^ bw → a i >>> LINE_SIZE = a j >>> LINE_SIZE → i = j) :
    ∃ c, (Cache.new bs bw).run ((List.range (2 ^ bw + 1)).map a) = some c ∧
      c.bit_sets = bs ∧ c.bit_ways = bw ∧ ¬ c.valid_line (a 0 >>> LINE_SIZE) := by
  obtain ⟨c, hrun, h1, h2, hf⟩ := run_fill bs bw hbs hbw a s hset hdist (2 ^ bw) (le_refl _)
  have hpos : 0 < 2 ^ bw := by positivity
  have hne : ∀ i j, i ≤ 2 ^ bw → j ≤ 2 ^ bw → i ≠ j →
      (a i >>> LINE_SIZE) / 2 ^ bs ≠ (a j >>> LINE_SIZE) / 2 ^ bs := fun i j hi hj hij =>
    tag_ne_of_line_ne ((hset i hi).trans (hset j hj).symm) (fun e => hij (hdist i j hi hj e))
  subst h1 h2
  obtain ⟨d, hacc, hd1, hd2, hnv⟩ := FilledTo.overflow (c := c) (s := s) (a := a (2 ^ c.bit_ways))
    (z := a 0 >>> LINE_SIZE) (t := fun i => (a i >>> LINE_SIZE) / 2 ^ c.bit_sets) hbs hf
    (hset _ (le_refl _)) rfl (fun i hi => hne i _ (by omega) (le_refl _) (by omega))
    (hset 0 (by omega)) rfl (fun i h0 hi => hne i 0 (by omega) (by omega) (by omega))
  refine ⟨d, ?_, hd1, hd2, ?_⟩
  · rw [List.range_succ, List.map_append, run_append, hrun]
    simp only [Option.some_bind, List.map_cons, List.map_nil, run, hacc]
  · exact hnv

end Cache

/-- C9 as stated fails: on an empty level with 8 set bits and 3 way bits, after accessing
`2^3 = 8` distinct lines of set 0, accessing the first of them again returns 0 (a hit): eight
lines fit the eight ways. -/
theorem lru_capacity_counterexample :
    capacityAddrs.length = 2 ^ 3 ∧
    (capacityAddrs.map (fun a => a >>> LINE_SIZE)).Nodup ∧
    (∀ a ∈ capacityAddrs, (Cache.new 8 3).set_index (a >>> LINE_SIZE) = 0) ∧
    ((Cache.new 8 3).run capacityAddrs).bind (fun c => (c.access 0).map Prod.fst) = some 0 := by
  refine ⟨by decide, by decide, by decide!, ?_⟩
  decide!

/-- C9, amended: on a stand-alone level with `bit_sets, bit_ways ≤ 15`, starting from empty
storage, after accessing `2^bit_ways + 1` distinct lines `a 0, .., a (2^bit_ways)` that all map
to the same set, accessing the first line again returns, and is a miss (the value is at least
1): the first line was evicted. -/
theorem lru_capacity (bs bw : Nat) (hbs : bs ≤ 15) (hbw : bw ≤ 15) (a : Nat → Nat) (s : Nat)
    (hset : ∀ i, i ≤ 2 ^ bw → (a i >>> LINE_SIZE) % 2 ^ bs = s)
    (hdist : ∀ i j, i ≤ 2 ^ bw → j ≤ 2 ^ bw → a i >>> LINE_SIZE = a j >>> LINE_SIZE → i = j) :
    ∃ c, (Cache.new bs bw).run ((List.range (2 ^ bw + 1)).map a) = some c ∧
      ∃ r c', c.access (a 0) = some (r, c') ∧ 1 ≤ r := by
  obtain ⟨c, hrun, h1, -, hnv⟩ := Cache.run_overflow bs bw hbs hbw a s hset hdist
  obtain ⟨c', hins⟩ := c.insert_some (a 0 >>> LINE_SIZE)
  refine ⟨c, hrun, 1, c', ?_, le_refl 1⟩
  rw [Cache.access_of_not_valid (by omega) hnv, hins]
  rfl

theorem sameSetAddr_line (i : Nat) : sameSetAddr i >>> LINE_SIZE = i * 256 := by
  unfold sameSetAddr
  exact Nat.shiftLeft_shiftRight _ _

theorem lru_capacity_witness :
    ∃ c, (Cache.new 8 3).run ((List.range (2 ^ 3 + 1)).map sameSetAddr) = some c ∧
      ∃ r c', c.access (sameSetAddr 0) = some (r, c') ∧ 1 ≤ r :=
  lru_capacity 8 3 (by decide) (by decide) sameSetAddr 0
    (fun i _ => by rw [sameSetAddr_line]; omega)
    (fun i j _ _ h => by rw [sameSetAddr_line, sameSetAddr_line] at h; omega)

/-! ## Accesses that cause no eviction below L1D -/

namespace Cache

theorem FreeFrom.succ {c : Cache} {k : Nat} (h : c.FreeFrom k) : c.FreeFrom (k + 1) :=
  fun s j hj => h s j (by omega)

theorem FreeFrom.helper {c : Cache} {k : Nat} (h : c.FreeFrom k) (a : Nat) :
    (c.access_helper a).2.FreeFrom k := by
  intro s j hj
  rw [access_helper_cache_valid]
  exact h s j hj

theorem FreeFrom.fill {c : Cache} {k p : Nat} (h : c.FreeFrom k) (hp : p ≤ k) (s t : Nat) :
    (c.fill s p t).FreeFrom (k + 1) := by
  intro s' j hj
  rw [fill_valid_apply, if_neg (by omega)]
  exact h s' j (by omega)

theorem FreeFrom.find_invalid {c : Cache} {k : Nat} (h : c.FreeFrom k) (hk : k < 2 ^ c.bit_ways)
    (s : Nat) : ∃ p, c.find_invalid s = some p ∧ p ≤ k := by
  cases hf : c.find_invalid s with
  | none =>
    have := find_invalid_none.mp hf k hk
    rw [h s k (le_refl k)] at this
    cases this
  | some p =>
    refine ⟨p, rfl, ?_⟩
    by_contra hlt
    have := (find_invalid_some.mp hf).2.2 k (by omega)
    rw [h s k (le_refl k)] at this
    cases this

end Cache

namespace Controller

theorem LLC_access_nofull {st : Controller} (h : st.Inv) (a k : Nat) (hk : k < 32)
    (hF : st.LLC.FreeFrom k) :
    ∃ r st', st.LLC_access a = some (r, st') ∧ st'.Inv ∧ st'.L1D = st.L1D ∧
      st'.L2D = st.L2D ∧ st'.LLC.FreeFrom (k + 1) ∧
      st'.LLC.valid_line (st.LLC.encrypt (a >>> LINE_SIZE)) ∧
      (∀ x, st'.LLC.encrypt x = st.LLC.encrypt x) := by
  have hbs := h.shaped.2.2.2.2.1
  have hbw := h.shaped.2.2.2.2.2
  have hline := reassemble_line (st.LLC.encrypt (a >>> LINE_SIZE)) a
  obtain ⟨st', e', hi, hvl, -, -, henc, -⟩ := h.LLC_access a
  by_cases hv : st.LLC.valid_line (st.LLC.encrypt (a >>> LINE_SIZE))
  · have hh := Cache.access_helper_of_valid (c := st.LLC.toCache) h.shaped.bs3
      (a := (st.LLC.encrypt (a >>> LINE_SIZE) <<< LINE_SIZE) ||| (a &&& LINE_MASK))
      (by rw [hline]; exact hv)
    have e : st.LLC_access a = some (0, st.setLLC (st.LLC.access_helper
        ((st.LLC.encrypt (a >>> LINE_SIZE) <<< LINE_SIZE) ||| (a &&& LINE_MASK))).2) := by
      unfold Controller.LLC_access
      simp only
      rw [hh]
    have hst : st' = _ := (Prod.mk.inj (Option.some.inj (e'.symm.trans e))).2
    subst hst
    exact ⟨_, _, e, hi, rfl, rfl, (hF.helper _).succ, hvl, henc⟩
  · have hh := Cache.access_helper_of_not_valid (c := st.LLC.toCache) h.shaped.bs3
      (a := (st.LLC.encrypt (a >>> LINE_SIZE) <<< LINE_SIZE) ||| (a &&& LINE_MASK))
      (by rw [hline]; exact hv)
    obtain ⟨p, hf, hp⟩ := hF.find_invalid (by rw [hbw]; exact hk)
      (st.LLC.encrypt (a >>> LINE_SIZE) % 2 ^ 11)
    have e : st.LLC_access a = some (1, st.setLLC (st.LLC.fill
        (st.LLC.encrypt (a >>> LINE_SIZE) % 2 ^ 11) p
        (st.LLC.encrypt (a >>> LINE_SIZE) / 2 ^ 11))) := by
      unfold Controller.LLC_access
      simp only
      rw [hh]
      simp only [hline, setLLC_self, Controller.LLC_insert,
        Cache.set_index_of hbs (by norm_num), Cache.tag_of hbs, hf, Option.map_some']
    have hst : st' = _ := (Prod.mk.inj (Option.some.inj (e'.symm.trans e))).2
    subst hst
    exact ⟨_, _, e, hi, rfl, rfl, hF.fill hp _ _, hvl, henc⟩

theorem L2D_access_nofull {st : Controller} (h : st.Inv) (a k : Nat) (hk : k < 16)
    (ha : a >>> LINE_SIZE < 2 ^ 40) (hF2 : st.L2D.FreeFrom k) (hF3 : st.LLC.FreeFrom k) :
    ∃ r st', st.L2D_access a = some (r, st') ∧ st'.Inv ∧ st'.L1D = st.L1D ∧
      st'.L2D.FreeFrom (k + 1) ∧ st'.LLC.FreeFrom (k + 1) ∧
      st'.L2D.valid_line (a >>> LINE_SIZE) ∧
      (∀ x, st.L2D.valid_line x → st'.L2D.valid_line x) := by
  have hbs := h.shaped.2.2.1
  have hbw := h.shaped.2.2.2.1
  obtain ⟨st', e', hi, hvl, -, -⟩ := h.L2D_access a ha
  by_cases hv : st.L2D.valid_line (a >>> LINE_SIZE)
  · have hh := Cache.access_helper_of_valid h.shaped.bs2 hv
    have e : st.L2D_access a = some (0, st.setL2D (st.L2D.access_helper a).2) := by
      unfold Controller.L2D_access
      rw [hh]
    have hst : st' = _ := (Prod.mk.inj (Option.some.inj (e'.symm.trans e))).2
    subst hst
    exact ⟨_, _, e, hi, rfl, (hF2.helper _).succ, hF3.succ, hvl,
      fun x hx => (Cache.access_helper_valid_line _ _ _).mpr hx⟩
  · have hh := Cache.access_helper_of_not_valid h.shaped.bs2 hv
    obtain ⟨r1, st1, e1, hi1, h11, h12, hF31, -, -⟩ := LLC_access_nofull h a k (by omega) hF3
    have hbs1 : st1.L2D.bit_sets = 10 := by rw [h12]; exact hbs
    have hbw1 : st1.L2D.bit_ways = 4 := by rw [h12]; exact hbw
    have hF21 : st1.L2D.FreeFrom k := by rw [h12]; exact hF2
    obtain ⟨p, hf, hp⟩ := hF21.find_invalid (by rw [hbw1]; exact hk) ((a >>> LINE_SIZE) % 2 ^ 10)
    have hpw : p < 2 ^ 4 := by omega
    have hvp : st1.L2D.cache_valid ((a >>> LINE_SIZE) % 2 ^ 10) p = false :=
      (Cache.find_invalid_some.mp hf).2.1
    have e : st.L2D_access a = some (1 + r1, st1.setL2D (st1.L2D.fill
        ((a >>> LINE_SIZE) % 2 ^ 10) p ((a >>> LINE_SIZE) / 2 ^ 10))) := by
      unfold Controller.L2D_access
      rw [hh]
      simp only [setL2D_self, e1, Option.some_bind, Controller.L2D_insert,
        Cache.set_index_of hbs1 (by norm_num), Cache.tag_of hbs1, hf, Option.map_some']
    have hst : st' = _ := (Prod.mk.inj (Option.some.inj (e'.symm.trans e))).2
    subst hst
    refine ⟨_, _, e, hi, h11, hF21.fill hp _ _, hF31, hvl, ?_⟩
    intro x hx
    refine (Cache.fill_valid_line_of hbs1 hbw1 hpw hvp x).mpr (Or.inl ?_)
    rw [h12]
    exact hx

/-- An access that finds free ways at L2D and the LLC acts on L1D as on a stand-alone level. -/
theorem access_nofull {st : Controller} (h : st.Inv) (addr k : Nat) (hk : k < 16)
    (haddr : addr < 2 ^ 46) (hF2 : st.L2D.FreeFrom k) (hF3 : st.LLC.FreeFrom k) :
    ∃ r st', st.access addr = some (r, st') ∧ st'.Inv ∧
      (∃ q, st.L1D.access addr = some (q, st'.L1D)) ∧
      st'.L2D.FreeFrom (k + 1) ∧ st'.LLC.FreeFrom (k + 1) ∧
      st'.L2D.valid_line (addr >>> LINE_SIZE) ∧
      (∀ x, st.L2D.valid_line x → st'.L2D.valid_line x) := by
  have ha := addr_line_lt haddr
  obtain ⟨st', e', hi, hvl, -⟩ := h.access addr haddr
  have e0 : st.access addr = st.L1D_access addr := by
    unfold Controller.access
    rw [if_pos (addr_assert haddr)]
  by_cases hv : st.L1D.valid_line (addr >>> LINE_SIZE)
  · have hh := Cache.access_helper_of_valid h.shaped.bs1 hv
    have e : st.L1D_access addr = some (0, st.setL1D (st.L1D.access_helper addr).2) := by
      unfold Controller.L1D_access
      rw [hh]
    have hst : st' = _ := (Prod.mk.inj (Option.some.inj (e'.symm.trans (e0.trans e)))).2
    subst hst
    exact ⟨_, _, e0.trans e, hi, ⟨0, Cache.access_of_valid h.shaped.bs1 hv⟩, hF2.succ, hF3.succ,
      h.inc12 _ hv, fun x hx => hx⟩
  · have hh := Cache.access_helper_of_not_valid h.shaped.bs1 hv
    obtain ⟨r1, st1, e1, hi1, h11, hF21, hF31, hvl1, hmono⟩ :=
      L2D_access_nofull h addr k hk ha hF2 hF3
    obtain ⟨c, hc⟩ := st.L1D.insert_some (addr >>> LINE_SIZE)
    have e : st.L1D_access addr = some (1 + r1, st1.setL1D c) := by
      unfold Controller.L1D_access
      rw [hh]
      simp only [setL1D_self, e1, Option.some_bind, Controller.L1D_insert, h11, hc,
        Option.map_some']
    have hst : st' = _ := (Prod.mk.inj (Option.some.inj (e'.symm.trans (e0.trans e)))).2
    subst hst
    refine ⟨_, _, e0.trans e, hi, ⟨1, ?_⟩, hF21, hF31, hvl1, hmono⟩
    rw [Cache.access_of_not_valid h.shaped.bs1 hv, hc]
    rfl

theorem run_nofull {st : Controller} (h : st.Inv) (addrs : List Nat) (k : Nat)
    (hk : k + addrs.length ≤ 16) (hall : ∀ a ∈ addrs, a < 2 ^ 46)
    (hF2 : st.L2D.FreeFrom k) (hF3 : st.LLC.FreeFrom k) :
    ∃ st', st.run addrs = some st' ∧ st'.Inv ∧ st.L1D.run addrs = some st'.L1D ∧
      (∀ x, st.L2D.valid_line x → st'.L2D.valid_line x) ∧
      (∀ a ∈ addrs, st'.L2D.valid_line (a >>> LINE_SIZE)) := by
  induction addrs generalizing st k with
  | nil => exact ⟨st, rfl, h, rfl, fun x hx => hx, fun a ha => absurd ha (List.not_mem_nil a)⟩
  | cons a rest ih =>
    simp only [List.length_cons] at hk
    obtain ⟨r1, st1, e1, hi1, ⟨q, hq⟩, hF21, hF31, hvl1, hmono1⟩ :=
      access_nofull h a k (by omega) (hall a (List.mem_cons_self _ _)) hF2 hF3
    obtain ⟨st2, e2, hi2, hrun2, hmono2, hall2⟩ :=
      ih hi1 (k + 1) (by omega) (fun b hb => hall b (List.mem_cons_of_mem _ hb)) hF21 hF31
    refine ⟨st2, ?_, hi2, ?_, fun x hx => hmono2 x (hmono1 x hx), ?_⟩
    · simp only [Controller.run, e1, Option.some_bind, e2]
    · simp only [Cache.run, hq, Option.some_bind, hrun2]
    · intro b hb
      rcases List.mem_cons.mp hb with rfl | hb'
      · exact hmono2 _ hvl1
      · exact hall2 b hb'

theorem exec_nofull {s_box : Nat → Nat → Nat → Nat} {p_box : Nat → Nat → Nat}
    (hbox : ShuffledBoxes s_box p_box) (addrs : List Nat) (hlen : addrs.length ≤ 16)
    (hall : ∀ a ∈ addrs, a < 2 ^ 46) :
    ∃ st, Controller.exec s_box p_box addrs = some st ∧ st.Inv ∧
      (Cache.new 8 3).run addrs = some st.L1D ∧
      (∀ a ∈ addrs, st.L2D.valid_line (a >>> LINE_SIZE)) := by
  obtain ⟨llc, hllc, hc, e0⟩ := new_some s_box p_box
  obtain ⟨st0, e0', hi0, -⟩ := new_inv hbox
  have hst : st0 = _ := Option.some.inj (e0'.symm.trans e0)
  subst hst
  obtain ⟨st, e, hi, hrun, -, hv⟩ := run_nofull hi0 addrs 0 (by omega) hall
    (fun _ _ _ => rfl) (fun s j _ => by
      show llc.toCache.cache_valid s j = false
      rw [hc]
      rfl)
  refine ⟨st, ?_, hi, hrun, hv⟩
  simp only [Controller.exec, e0, Option.some_bind, e]

end Controller

/-- C10: on a fresh controller, for nine pairwise distinct 40-bit line addresses
`a 0, .., a 8` that share their low 8 bits, after accessing them in order (each shifted left
by 6), the line `a 0` is no longer valid in L1D but is still valid in L2D and (as ciphertext)
in the LLC, and the next access to `a 0` returns exactly 1. -/
theorem l1d_capacity_inclusion (s_box : Nat → Nat → Nat → Nat) (p_box : Nat → Nat → Nat)
    (hbox : ShuffledBoxes s_box p_box) (a : Nat → Nat)
    (hlt : ∀ i, i < 9 → a i < 2 ^ 40)
    (hdist : ∀ i j, i < 9 → j < 9 → a i = a j → i = j)
    (hset : ∀ i, i < 9 → a i % 2 ^ 8 = a 0 % 2 ^ 8) :
    ∃ st, Controller.exec s_box p_box ((List.range 9).map fun i => a i <<< LINE_SIZE) = some st ∧
      ¬ st.L1D.valid_line (a 0) ∧ st.L2D.valid_line (a 0) ∧
      st.LLC.valid_line (st.LLC.encrypt (a 0)) ∧
      ∃ st', st.access (a 0 <<< LINE_SIZE) = some (1, st') := by
  have hline : ∀ i, (a i <<< LINE_SIZE) >>> LINE_SIZE = a i := fun i =>
    Nat.shiftLeft_shiftRight _ _
  have haddr : ∀ i, i < 9 → a i <<< LINE_SIZE < 2 ^ 46 := by
    intro i hi
    have h6 : LINE_SIZE = 6 := rfl
    have := hlt i hi
    rw [h6, Nat.shiftLeft_eq]
    omega
  obtain ⟨st, e, hi, hrun, hv⟩ := Controller.exec_nofull hbox
    ((List.range 9).map fun i => a i <<< LINE_SIZE) (by simp)
    (by
      intro x hx
      obtain ⟨i, hi, rfl⟩ := List.mem_map.mp hx
      exact haddr i (List.mem_range.mp hi))
  obtain ⟨c, hrun', -, -, hnv⟩ := Cache.run_overflow 8 3 (by norm_num) (by norm_num)
    (fun i => a i <<< LINE_SIZE) (a 0 % 2 ^ 8)
    (fun i hi => by
      show (a i <<< LINE_SIZE) >>> LINE_SIZE % 2 ^ 8 = _
      rw [hline]
      exact hset i (by norm_num at hi; omega))
    (fun i j hi hj h => by
      simp only [hline] at h
      exact hdist i j (by norm_num at hi; omega) (by norm_num at hj; omega) h)
  have hc : c = st.L1D := Option.some.inj (hrun'.symm.trans hrun)
  subst hc
  have hv0 : st.L2D.valid_line (a 0) := by
    have := hv (a 0 <<< LINE_SIZE) (List.mem_map.mpr ⟨0, List.mem_range.mpr (by norm_num), rfl⟩)
    rwa [hline] at this
  obtain ⟨st', e', -⟩ := hi.access (a 0 <<< LINE_SIZE) (haddr 0 (by norm_num))
  have hd : st.depth ((a 0 <<< LINE_SIZE) >>> LINE_SIZE) = 1 := by
    rw [hline] at hnv ⊢
    simp [Controller.depth, hnv, hv0]
  rw [hd] at e'
  rw [hline] at hnv
  exact ⟨st, e, hnv, hv0, hi.inc23 _ hv0, st', e'⟩

theorem l1d_capacity_inclusion_witness :
    ∃ st, Controller.exec revS revP
        ((List.range 9).map fun i => (i * 256 + 7) <<< LINE_SIZE) = some st ∧
      ¬ st.L1D.valid_line (0 * 256 + 7) ∧ st.L2D.valid_line (0 * 256 + 7) ∧
      st.LLC.valid_line (st.LLC.encrypt (0 * 256 + 7)) ∧
      ∃ st', st.access ((0 * 256 + 7) <<< LINE_SIZE) = some (1, st') :=
  l1d_capacity_inclusion revS revP revBoxes_shuffled (fun i => i * 256 + 7)
    (fun i hi => by show i * 256 + 7 < 2 ^ 40; omega)
    (fun i j _ _ h => by
      have h' : i * 256 + 7 = j * 256 + 7 := h
      omega)
    (fun i _ => by show (i * 256 + 7) % 2 ^ 8 = (0 * 256 + 7) % 2 ^ 8; omega)

/-- C7 as stated fails: after the accesses to lines 0, 256, 512 (one L1D set) and again to
line 256, the three valid ways of L1D set 0 have ages 4, 1, 2, which is not a permutation of
`0, 1, 2`: ages start at 1 and a hit on a non-MRU way increments every valid age of the set. -/
theorem age_invariant_counterexample :
    (Controller.exec revS revP [0, 16384, 32768, 16384]).map
        (fun st => (st.L1D.valid_ages 0, decide (st.L1D.AgesContiguous 0)))
      = some ([4, 1, 2], false) := by
  decide!

/-- C7, amended: in every state reached from a fresh controller by fewer than `2^16` accesses
(no 16-bit age counter has wrapped), at every level and in every set, no two valid ways share
an age, and every valid age is at least 1 and at most the number of accesses made. -/
theorem age_invariant (s_box : Nat → Nat → Nat → Nat) (p_box : Nat → Nat → Nat)
    (hbox : ShuffledBoxes s_box p_box) (addrs : List Nat) (hall : ∀ a ∈ addrs, a < 2 ^ 46)
    (hlen : addrs.length < 2 ^ 16) :
    ∃ st, Controller.exec s_box p_box addrs = some st ∧
      st.L1D.AgesOK addrs.length ∧ st.L2D.AgesOK addrs.length ∧
      st.LLC.AgesOK addrs.length := by
  obtain ⟨st, e, -, hag⟩ := Controller.exec_inv hbox addrs hall
  exact ⟨st, e, hag hlen⟩

theorem age_invariant_witness :
    ∃ st, Controller.exec revS revP [0, 16384, 32768, 16384] = some st ∧
      st.L1D.AgesOK [0, 16384, 32768, 16384].length ∧
      st.L2D.AgesOK [0, 16384, 32768, 16384].length ∧
      st.LLC.AgesOK [0, 16384, 32768, 16384].length :=
  age_invariant revS revP revBoxes_shuffled [0, 16384, 32768, 16384] (by decide) (by decide)

/-! ## Eviction entry points -/

namespace Controller

theorem L1D_evict_of_not_valid {st : Controller} (hs : st.Shaped) {x : Nat}
    (h : ¬ st.L1D.valid_line x) : st.L1D_evict x = st := by
  unfold Controller.L1D_evict
  rw [Cache.evict_of_not_valid hs.bs1 h]
  rfl

theorem L2D_evict_of_not_valid {st : Controller} (hs : st.Shaped) {x : Nat}
    (h : ¬ st.L2D.valid_line x) : st.L2D_evict x = st := by
  have hf := (Cache.not_valid_line_iff hs.bs2 x).mp h
  simp only [Controller.L2D_evict, hf]

theorem LLC_evict_of_not_valid {st : Controller} (hs : st.Shaped) {x : Nat}
    (h : ¬ st.LLC.valid_line x) : st.LLC_evict x = st := by
  have hf := (Cache.not_valid_line_iff hs.bs3 x).mp h
  simp only [Controller.LLC_evict, hf]

theorem Inv.LLC_evict_removes {st : Controller} (h : st.Inv) (c : Nat) (hc : c < 2 ^ 40) :
    ¬ (st.LLC_evict c).LLC.valid_line c ∧
    ¬ (st.LLC_evict c).L2D.valid_line (st.LLC.decrypt c) ∧
    ¬ (st.LLC_evict c).L1D.valid_line (st.LLC.decrypt c) := by
  by_cases hv : st.LLC.valid_line c
  · rw [LLC_evict_eq h c hv]
    refine ⟨?_, ?_, ?_⟩
    · intro hx
      exact ((Cache.evict_valid_line h.shaped.bs3 h.u3 c c).mp hx).2 rfl
    · intro hx
      exact ((Cache.evict_valid_line h.shaped.bs2 h.u2 _ _).mp hx).2 rfl
    · intro hx
      exact ((Cache.evict_valid_line h.shaped.bs1 h.u1 _ _).mp hx).2 rfl
  · rw [LLC_evict_of_not_valid h.shaped hv]
    have h2 : ¬ st.L2D.valid_line (st.LLC.decrypt c) := by
      intro hx
      have := h.inc23 _ hx
      rw [h.uncancel c hc] at this
      exact hv this
    exact ⟨hv, h2, fun hx => h2 (h.inc12 _ hx)⟩

end Controller

/-- C11: inclusive eviction: in every state reached from a fresh controller by accesses with
addresses below `2^46`, and for every ciphertext line address `c < 2^40`, after
`LLC.evict(c)` the line `c` is not valid in the LLC and its plaintext image `decrypt c` is
valid neither in L2D nor in L1D. -/
theorem inclusive_eviction (s_box : Nat → Nat → Nat → Nat) (p_box : Nat → Nat → Nat)
    (hbox : ShuffledBoxes s_box p_box) (addrs : List Nat) (hall : ∀ a ∈ addrs, a < 2 ^ 46)
    (c : Nat) (hc : c < 2 ^ 40) :
    ∃ st, Controller.exec s_box p_box addrs = some st ∧
      ¬ (st.LLC_evict c).LLC.valid_line c ∧
      ¬ (st.LLC_evict c).L2D.valid_line (st.LLC.decrypt c) ∧
      ¬ (st.LLC_evict c).L1D.valid_line (st.LLC.decrypt c) := by
  obtain ⟨st, e, hi, -⟩ := Controller.exec_inv hbox addrs hall
  exact ⟨st, e, hi.LLC_evict_removes c hc⟩

theorem inclusive_eviction_witness :
    ∃ st, Controller.exec revS revP [0, 64, 16384, 0, 128] = some st ∧
      ¬ (st.LLC_evict 256).LLC.valid_line 256 ∧
      ¬ (st.LLC_evict 256).L2D.valid_line (st.LLC.decrypt 256) ∧
      ¬ (st.LLC_evict 256).L1D.valid_line (st.LLC.decrypt 256) :=
  inclusive_eviction revS revP revBoxes_shuffled [0, 64, 16384, 0, 128] (by decide) 256
    (by decide)

/-- C12: empty eviction tolerance: in every hierarchy state of the constructed shape, `evict`
on a line address that is valid at no level (`Cache::evict` at L1D or L2D, `CeaserCache::evict`
at the LLC) returns the state unchanged: the valid, tag and age arrays of the three caches are
the same, and `evict` has no failing path. -/
theorem empty_eviction_tolerance (st : Controller) (hs : st.Shaped) (x : Nat)
    (h1 : ¬ st.L1D.valid_line x) (h2 : ¬ st.L2D.valid_line x) (h3 : ¬ st.LLC.valid_line x) :
    st.L1D_evict x = st ∧ st.L2D_evict x = st ∧ st.LLC_evict x = st :=
  ⟨Controller.L1D_evict_of_not_valid hs h1, Controller.L2D_evict_of_not_valid hs h2,
    Controller.LLC_evict_of_not_valid hs h3⟩

theorem sampleState_shaped : sampleState.Shaped := by
  unfold Controller.Shaped
  decide!

theorem sampleState_absent :
    ¬ sampleState.L1D.valid_line 5 ∧ ¬ sampleState.L2D.valid_line 5 ∧
    ¬ sampleState.LLC.valid_line 5 := by
  decide!

theorem empty_eviction_tolerance_witness :
    sampleState.L1D_evict 5 = sampleState ∧ sampleState.L2D_evict 5 = sampleState ∧
    sampleState.LLC_evict 5 = sampleState :=
  empty_eviction_tolerance sampleState sampleState_shaped 5 sampleState_absent.1
    sampleState_absent.2.1 sampleState_absent.2.2

/-! ## Local effect of `evict` and of a hit -/

namespace Controller

theorem L1D_evict_L1D (st : Controller) (l : Nat) : (st.L1D_evict l).L1D = st.L1D.evict l := rfl

theorem L2D_evict_L2D (st : Controller) (l : Nat) : (st.L2D_evict l).L2D = st.L2D.evict l := by
  cases hf : st.L2D.find_tag (st.L2D.set_index l) (st.L2D.tag l) with
  | none => simp only [Controller.L2D_evict, hf, Cache.evict_of_none hf]
  | some i =>
    simp only [Controller.L2D_evict, hf, Cache.evict_of_some hf, Controller.L1D_evict,
      setL1D_L2D, setL2D_L2D]

theorem L2D_evict_LLC (st : Controller) (l : Nat) : (st.L2D_evict l).LLC = st.LLC := by
  cases hf : st.L2D.find_tag (st.L2D.set_index l) (st.L2D.tag l) with
  | none => simp only [Controller.L2D_evict, hf]
  | some i => simp only [Controller.L2D_evict, hf, Controller.L1D_evict, setL1D_LLC, setL2D_LLC]

theorem LLC_evict_LLC (st : Controller) (l : Nat) :
    (st.LLC_evict l).LLC.toCache = st.LLC.toCache.evict l := by
  cases hf : st.LLC.find_tag (st.LLC.set_index l) (st.LLC.tag l) with
  | none => simp only [Controller.LLC_evict, hf, Cache.evict_of_none hf]
  | some i =>
    simp only [Controller.LLC_evict, hf, Cache.evict_of_some hf, L2D_evict_LLC, setLLC_toCache]

end Controller

/-- C15: evict age repair: on a level whose sets have pairwise distinct valid tags, `evict` of
a line present at the level invalidates its (unique) matching way `i`, decrements by exactly
one the age of every other valid way of that set whose age was greater than the age of way
`i`, and leaves every other valid bit, every tag and every other age of the level unchanged;
`Cache::evict` on L1D and L2D and `CeaserCache::evict` on the LLC act in this way on their
own arrays. -/
theorem evict_age_repair (c : Cache) (hbs : c.bit_sets ≤ 16) (hu : c.TagsUnique) (l : Nat)
    (hv : c.valid_line l) :
    (∃ i, i < 2 ^ c.bit_ways ∧
      (c.cache_valid (l % 2 ^ c.bit_sets) i = true ∧
        c.cache_tag (l % 2 ^ c.bit_sets) i = l / 2 ^ c.bit_sets) ∧
      (∀ j, j < 2 ^ c.bit_ways → c.cache_valid (l % 2 ^ c.bit_sets) j = true →
        c.cache_tag (l % 2 ^ c.bit_sets) j = l / 2 ^ c.bit_sets → j = i) ∧
      (c.evict l).cache_valid (l % 2 ^ c.bit_sets) i = false ∧
      (∀ j, j < 2 ^ c.bit_ways → j ≠ i → c.cache_valid (l % 2 ^ c.bit_sets) j = true →
        c.last_access (l % 2 ^ c.bit_sets) j > c.last_access (l % 2 ^ c.bit_sets) i →
        (c.evict l).last_access (l % 2 ^ c.bit_sets) j =
          c.last_access (l % 2 ^ c.bit_sets) j - 1) ∧
      (∀ s j, ¬ (s = l % 2 ^ c.bit_sets ∧ j = i) →
        (c.evict l).cache_valid s j = c.cache_valid s j) ∧
      (∀ s j, ¬ (s = l % 2 ^ c.bit_sets ∧ j < 2 ^ c.bit_ways ∧ j ≠ i ∧
          c.cache_valid (l % 2 ^ c.bit_sets) j = true ∧
          c.last_access (l % 2 ^ c.bit_sets) j > c.last_access (l % 2 ^ c.bit_sets) i) →
        (c.evict l).last_access s j = c.last_access s j)) ∧
    (c.evict l).cache_tag = c.cache_tag ∧
    (∀ st : Controller,
      (st.L1D = c → (st.L1D_evict l).L1D = c.evict l) ∧
      (st.L2D = c → (st.L2D_evict l).L2D = c.evict l) ∧
      (st.LLC.toCache = c → (st.LLC_evict l).LLC.toCache = c.evict l)) := by
  obtain ⟨i, hf⟩ := (Cache.valid_line_iff hbs l).mp hv
  have he := Cache.evict_of_some hf
  rw [Cache.set_index_eq c hbs] at he
  rw [Cache.set_index_eq c hbs, Cache.tag_eq] at hf
  obtain ⟨hi, ⟨hvi, hti⟩, _⟩ := Cache.find_tag_some.mp hf
  refine ⟨⟨i, hi, ⟨hvi, hti⟩, ?_, ?_, ?_, ?_, ?_⟩, Cache.evict_cache_tag c l, ?_⟩
  · intro j hj hvj htj
    exact hu _ j i hj hi hvj hvi (htj.trans hti.symm)
  · rw [he, Cache.invalidate_valid_apply]
    simp
  · intro j hj hji hvj hgt
    rw [he, Cache.invalidate_last_access, if_pos ⟨rfl, hj, ⟨hji, hvj⟩, hgt⟩]
  · intro s j hne
    rw [he, Cache.invalidate_valid_apply, if_neg hne]
  · intro s j hne
    rw [he, Cache.invalidate_last_access, if_neg]
    rintro ⟨h1, h2, ⟨h3, h4⟩, h5⟩
    exact hne ⟨h1, h2, h3, h4, h5⟩
  · intro st
    refine ⟨?_, ?_, ?_⟩
    · rintro rfl; exact Controller.L1D_evict_L1D st l
    · rintro rfl; exact Controller.L2D_evict_L2D st l
    · rintro rfl; exact Controller.LLC_evict_LLC st l

theorem sampleState_inv : sampleState.Inv := by
  obtain ⟨st, e, hi, -⟩ := Controller.exec_inv revBoxes_shuffled [0, 16384, 64] (by decide)
  unfold sampleState
  rw [e]
  exact hi

theorem sampleState_present : sampleState.L1D.valid_line 256 := by
  decide!

theorem evict_age_repair_witness :
    (∃ i, i < 2 ^ sampleState.L1D.bit_ways ∧
      (sampleState.L1D.cache_valid (256 % 2 ^ sampleState.L1D.bit_sets) i = true ∧
        sampleState.L1D.cache_tag (256 % 2 ^ sampleState.L1D.bit_sets) i =
          256 / 2 ^ sampleState.L1D.bit_sets) ∧
      (∀ j, j < 2 ^ sampleState.L1D.bit_ways →
        sampleState.L1D.cache_valid (256 % 2 ^ sampleState.L1D.bit_sets) j = true →
        sampleState.L1D.cache_tag (256 % 2 ^ sampleState.L1D.bit_sets) j =
          256 / 2 ^ sampleState.L1D.bit_sets → j = i) ∧
      (sampleState.L1D.evict 256).cache_valid (256 % 2 ^ sampleState.L1D.bit_sets) i = false ∧
      (∀ j, j < 2 ^ sampleState.L1D.bit_ways → j ≠ i →
        sampleState.L1D.cache_valid (256 % 2 ^ sampleState.L1D.bit_sets) j = true →
        sampleState.L1D.last_access (256 % 2 ^ sampleState.L1D.bit_sets) j >
          sampleState.L1D.last_access (256 % 2 ^ sampleState.L1D.bit_sets) i →
        (sampleState.L1D.evict 256).last_access (256 % 2 ^ sampleState.L1D.bit_sets) j =
          sampleState.L1D.last_access (256 % 2 ^ sampleState.L1D.bit_sets) j - 1) ∧
      (∀ s j, ¬ (s = 256 % 2 ^ sampleState.L1D.bit_sets ∧ j = i) →
        (sampleState.L1D.evict 256).cache_valid s j = sampleState.L1D.cache_valid s j) ∧
      (∀ s j, ¬ (s = 256 % 2 ^ sampleState.L1D.bit_sets ∧ j < 2 ^ sampleState.L1D.bit_ways ∧
          j ≠ i ∧ sampleState.L1D.cache_valid (256 % 2 ^ sampleState.L1D.bit_sets) j = true ∧
          sampleState.L1D.last_access (256 % 2 ^ sampleState.L1D.bit_sets) j >
            sampleState.L1D.last_access (256 % 2 ^ sampleState.L1D.bit_sets) i) →
        (sampleState.L1D.evict 256).last_access s j = sampleState.L1D.last_access s j)) ∧
    (sampleState.L1D.evict 256).cache_tag = sampleState.L1D.cache_tag ∧
    (∀ st : Controller,
      (st.L1D = sampleState.L1D → (st.L1D_evict 256).L1D = sampleState.L1D.evict 256) ∧
      (st.L2D = sampleState.L1D → (st.L2D_evict 256).L2D = sampleState.L1D.evict 256) ∧
      (st.LLC.toCache = sampleState.L1D →
        (st.LLC_evict 256).LLC.toCache = sampleState.L1D.evict 256)) :=
  evict_age_repair sampleState.L1D sampleState_shaped.bs1 sampleState_inv.u1 256
    sampleState_present


namespace Cache

theorem promote_bit_sets (c : Cache) (s i : Nat) : (c.promote s i).bit_sets = c.bit_sets := rfl
theorem promote_bit_ways (c : Cache) (s i : Nat) : (c.promote s i).bit_ways = c.bit_ways := rfl
theorem promote_cache_valid (c : Cache) (s i : Nat) :
    (c.promote s i).cache_valid = c.cache_valid := rfl
theorem promote_cache_tag (c : Cache) (s i : Nat) : (c.promote s i).cache_tag = c.cache_tag := rfl

/-- Outcome of `access_helper` on a line that is valid at the level, in terms of the first
matching way `i`. -/
theorem access_helper_hit_cases {c : Cache} (hbs : c.bit_sets ≤ 16) {a : Nat}
    (hv : c.valid_line (a >>> LINE_SIZE)) :
    ∃ i, i < 2 ^ c.bit_ways ∧
      (c.cache_valid ((a >>> LINE_SIZE) % 2 ^ c.bit_sets) i = true ∧
        c.cache_tag ((a >>> LINE_SIZE) % 2 ^ c.bit_sets) i = (a >>> LINE_SIZE) / 2 ^ c.bit_sets) ∧
      (∀ j, j < i → ¬ (c.cache_valid ((a >>> LINE_SIZE) % 2 ^ c.bit_sets) j = true ∧
        c.cache_tag ((a >>> LINE_SIZE) % 2 ^ c.bit_sets) j = (a >>> LINE_SIZE) / 2 ^ c.bit_sets)) ∧
      c.access_helper a =
        (true, if c.last_access ((a >>> LINE_SIZE) % 2 ^ c.bit_sets) i ≠ 1
          then c.promote ((a >>> LINE_SIZE) % 2 ^ c.bit_sets) i else c) := by
  obtain ⟨i, hf⟩ := (valid_line_iff hbs _).mp hv
  have he := access_helper_hit hf
  rw [set_index_eq c hbs] at he
  rw [set_index_eq c hbs, tag_eq] at hf
  obtain ⟨hi, hvt, hfirst⟩ := find_tag_some.mp hf
  exact ⟨i, hi, hvt, hfirst, he⟩

end Cache

/-- C14 as stated fails: on an empty level with 8 set bits and 3 way bits, after the accesses
to lines 0, 256, 512 the ways 0, 1, 2 of set 0 have ages 3, 2, 1; the hit on line 256 (way 1,
old age 2) leaves ages 4, 1, 2: the hit way has age 1, not 0, and way 0, whose age 3 was
greater than the old age of the hit way, was incremented. -/
theorem hit_age_update_counterexample :
    ((Cache.new 8 3).run [0, 16384, 32768]).map
        (fun c => (c.valid_ages 0, (c.access_helper 16384).1,
          (c.access_helper 16384).2.valid_ages 0))
      = some ([3, 2, 1], true, [4, 1, 2]) := by
  decide!

/-- C14, amended: on every level state and for every address whose line is valid in its set,
`access_helper` reports a hit and changes neither valid bits nor tags. With `i` the first
matching way: if its age is 1 (it is MRU) nothing changes at all; otherwise the hit way gets
age 1, every other valid way of the set with an age below 65535 has its age incremented by
one, whatever its age relative to the old age of the hit way, and the ages of invalid ways and
of other sets are unchanged. -/
theorem hit_age_update (c : Cache) (hbs : c.bit_sets ≤ 16) (a : Nat)
    (hv : c.valid_line (a >>> LINE_SIZE)) :
    (c.access_helper a).1 = true ∧
    (c.access_helper a).2.cache_valid = c.cache_valid ∧
    (c.access_helper a).2.cache_tag = c.cache_tag ∧
    ∃ i, i < 2 ^ c.bit_ways ∧
      (c.cache_valid ((a >>> LINE_SIZE) % 2 ^ c.bit_sets) i = true ∧
        c.cache_tag ((a >>> LINE_SIZE) % 2 ^ c.bit_sets) i = (a >>> LINE_SIZE) / 2 ^ c.bit_sets) ∧
      (∀ j, j < i → ¬ (c.cache_valid ((a >>> LINE_SIZE) % 2 ^ c.bit_sets) j = true ∧
        c.cache_tag ((a >>> LINE_SIZE) % 2 ^ c.bit_sets) j = (a >>> LINE_SIZE) / 2 ^ c.bit_sets)) ∧
      (c.last_access ((a >>> LINE_SIZE) % 2 ^ c.bit_sets) i = 1 → (c.access_helper a).2 = c) ∧
      (c.last_access ((a >>> LINE_SIZE) % 2 ^ c.bit_sets) i ≠ 1 →
        (c.access_helper a).2.last_access ((a >>> LINE_SIZE) % 2 ^ c.bit_sets) i = 1 ∧
        (∀ j, j < 2 ^ c.bit_ways → j ≠ i →
          c.cache_valid ((a >>> LINE_SIZE) % 2 ^ c.bit_sets) j = true →
          c.last_access ((a >>> LINE_SIZE) % 2 ^ c.bit_sets) j < 65535 →
          (c.access_helper a).2.last_access ((a >>> LINE_SIZE) % 2 ^ c.bit_sets) j =
            c.last_access ((a >>> LINE_SIZE) % 2 ^ c.bit_sets) j + 1) ∧
        (∀ j, c.cache_valid ((a >>> LINE_SIZE) % 2 ^ c.bit_sets) j = false →
          (c.access_helper a).2.last_access ((a >>> LINE_SIZE) % 2 ^ c.bit_sets) j =
            c.last_access ((a >>> LINE_SIZE) % 2 ^ c.bit_sets) j) ∧
        (∀ s j, s ≠ (a >>> LINE_SIZE) % 2 ^ c.bit_sets →
          (c.access_helper a).2.last_access s j = c.last_access s j)) := by
  obtain ⟨i, hi, hvt, hfirst, he⟩ := Cache.access_helper_hit_cases hbs hv
  refine ⟨by rw [he], Cache.access_helper_cache_valid c a, Cache.access_helper_cache_tag c a,
    i, hi, hvt, hfirst, ?_, ?_⟩
  · intro h1
    rw [he]
    simp [h1]
  · intro hne
    rw [he, if_pos hne]
    simp only
    refine ⟨?_, ?_, ?_, ?_⟩
    · rw [Cache.promote_last_access c _ i hi hvt.1]
      simp
    · intro j hj hji hvj hlt
      rw [Cache.promote_last_access c _ i hi hvt.1, if_neg (fun h => hji h.2),
        if_pos ⟨rfl, hj, hvj⟩]
      apply Nat.mod_eq_of_lt
      omega
    · intro j hvj
      have hji : j ≠ i := by
        rintro rfl
        rw [hvt.1] at hvj
        cases hvj
      rw [Cache.promote_last_access c _ i hi hvt.1, if_neg (fun h => hji h.2), if_neg]
      rintro ⟨_, _, h3⟩
      rw [hvj] at h3
      cases h3
    · intro s j hs
      rw [Cache.promote_last_access c _ i hi hvt.1, if_neg (fun h => hs h.1),
        if_neg (fun h => hs h.1)]


theorem sampleState_hit : sampleState.L1D.valid_line (0 >>> LINE_SIZE) := by
  decide!

theorem hit_age_update_witness :
    (sampleState.L1D.access_helper 0).1 = true ∧
    (sampleState.L1D.access_helper 0).2.cache_valid = sampleState.L1D.cache_valid ∧
    (sampleState.L1D.access_helper 0).2.cache_tag = sampleState.L1D.cache_tag ∧
    ∃ i, i < 2 ^ sampleState.L1D.bit_ways ∧
      (sampleState.L1D.cache_valid ((0 >>> LINE_SIZE) % 2 ^ sampleState.L1D.bit_sets) i = true ∧
        sampleState.L1D.cache_tag ((0 >>> LINE_SIZE) % 2 ^ sampleState.L1D.bit_sets) i = (0 >>>
            LINE_SIZE) / 2 ^ sampleState.L1D.bit_sets) ∧
      (∀ j, j < i → ¬ (sampleState.L1D.cache_valid ((0 >>> LINE_SIZE) % 2 ^
          sampleState.L1D.bit_sets) j = true ∧
        sampleState.L1D.cache_tag ((0 >>> LINE_SIZE) % 2 ^ sampleState.L1D.bit_sets) j = (0 >>>
            LINE_SIZE) / 2 ^ sampleState.L1D.bit_sets)) ∧
      (sampleState.L1D.last_access ((0 >>> LINE_SIZE) % 2 ^ sampleState.L1D.bit_sets) i = 1 →
          (sampleState.L1D.access_helper 0).2 = sampleState.L1D) ∧
      (sampleState.L1D.last_access ((0 >>> LINE_SIZE) % 2 ^ sampleState.L1D.bit_sets) i ≠ 1 →
        (sampleState.L1D.access_helper 0).2.last_access ((0 >>> LINE_SIZE) % 2 ^
            sampleState.L1D.bit_sets) i = 1 ∧
        (∀ j, j < 2 ^ sampleState.L1D.bit_ways → j ≠ i →
          sampleState.L1D.cache_valid ((0 >>> LINE_SIZE) % 2 ^ sampleState.L1D.bit_sets) j = true →
          sampleState.L1D.last_access ((0 >>> LINE_SIZE) % 2 ^ sampleState.L1D.bit_sets) j < 65535 →
          (sampleState.L1D.access_helper 0).2.last_access ((0 >>> LINE_SIZE) % 2 ^
              sampleState.L1D.bit_sets) j =
            sampleState.L1D.last_access ((0 >>> LINE_SIZE) % 2 ^ sampleState.L1D.bit_sets) j + 1) ∧
        (∀ j, sampleState.L1D.cache_valid ((0 >>> LINE_SIZE) % 2 ^ sampleState.L1D.bit_sets) j =
            false →
          (sampleState.L1D.access_helper 0).2.last_access ((0 >>> LINE_SIZE) % 2 ^
              sampleState.L1D.bit_sets) j =
            sampleState.L1D.last_access ((0 >>> LINE_SIZE) % 2 ^ sampleState.L1D.bit_sets) j) ∧
        (∀ s j, s ≠ (0 >>> LINE_SIZE) % 2 ^ sampleState.L1D.bit_sets →
          (sampleState.L1D.access_helper 0).2.last_access s j = sampleState.L1D.last_access s j)) :=
  hit_age_update sampleState.L1D sampleState_shaped.bs1 0 sampleState_hit

namespace Cache

theorem lru_loop_valid (c : Cache) (s n m : Nat)
    (h : (List.range n).foldl
      (fun acc i => acc.bind fun lru =>
        if c.cache_valid s i then
          (if c.last_access s i > c.last_access s lru then some i else some lru)
        else none)
      (some 0) = some m) :
    ∀ k, k < n → c.cache_valid s k = true := by
  induction n generalizing m with
  | zero => intro k hk; omega
  | succ n ih =>
    rw [List.range_succ, List.foldl_append] at h
    simp only [List.foldl_cons, List.foldl_nil] at h
    obtain ⟨m', hm', hstep⟩ := Option.bind_eq_some.mp h
    have hvn : c.cache_valid s n = true := by
      by_contra hne
      rw [if_neg hne] at hstep
      cases hstep
    intro k hk
    rcases Nat.lt_succ_iff_lt_or_eq.mp hk with hk' | rfl
    · exact ih m' hm' k hk'
    · exact hvn

/-- The loop of `evict_LRU` passes its `assert` exactly on a set whose ways are all valid, and
then returns a way index below `2^bit_ways`. -/
theorem lru_way_eq_some {c : Cache} {s lru : Nat} (h : c.lru_way s = some lru) :
    (∀ k, k < 2 ^ c.bit_ways → c.cache_valid s k = true) ∧ lru < 2 ^ c.bit_ways := by
  have hall : ∀ k, k < 2 ^ c.bit_ways → c.cache_valid s k = true := by
    unfold lru_way at h
    rw [ways_eq] at h
    exact lru_loop_valid c s _ lru h
  obtain ⟨m, hm, hlt, -⟩ := lru_way_some hall
  rw [h] at hm
  cases hm
  exact ⟨hall, hlt⟩

end Cache

/-- C19: the `assert` of `evict_LRU` never fails: from a fresh controller every access sequence
with addresses below `2^46` runs to completion (an assertion failure would make `access`
return nothing); at any level, whenever `insert` finds no invalid way in the set (the only case
in which it calls `evict_LRU`), every way of the set is valid and the loop of `evict_LRU`
returns a way index below `2^bit_ways`; and that loop passes its `assert` only on such a set. -/
theorem evict_LRU_assert_holds (s_box : Nat → Nat → Nat → Nat) (p_box : Nat → Nat → Nat)
    (hbox : ShuffledBoxes s_box p_box) (addrs : List Nat) (hall : ∀ a ∈ addrs, a < 2 ^ 46)
    (addr : Nat) (haddr : addr < 2 ^ 46) :
    ∃ st, Controller.exec s_box p_box addrs = some st ∧
      (∃ r st', st.access addr = some (r, st')) ∧
      (∀ (c : Cache) (s : Nat), c.find_invalid s = none →
        (∀ i, i < 2 ^ c.bit_ways → c.cache_valid s i = true) ∧
        ∃ lru, c.lru_way s = some lru ∧ lru < 2 ^ c.bit_ways) ∧
      (∀ (c : Cache) (s lru : Nat), c.lru_way s = some lru →
        (∀ i, i < 2 ^ c.bit_ways → c.cache_valid s i = true) ∧ lru < 2 ^ c.bit_ways) := by
  obtain ⟨st, e, hi, -⟩ := Controller.exec_inv hbox addrs hall
  obtain ⟨st', e', -⟩ := hi.access addr haddr
  refine ⟨st, e, ⟨_, st', e'⟩, ?_, fun c s lru h => Cache.lru_way_eq_some h⟩
  intro c s hf
  have hv := Cache.find_invalid_none.mp hf
  obtain ⟨lru, hl, hlt, -⟩ := Cache.lru_way_some hv
  exact ⟨hv, lru, hl, hlt⟩

theorem evict_LRU_assert_holds_witness :
    ∃ st, Controller.exec revS revP capacityAddrs = some st ∧
      (∃ r st', st.access 131072 = some (r, st')) ∧
      (∀ (c : Cache) (s : Nat), c.find_invalid s = none →
        (∀ i, i < 2 ^ c.bit_ways → c.cache_valid s i = true) ∧
        ∃ lru, c.lru_way s = some lru ∧ lru < 2 ^ c.bit_ways) ∧
      (∀ (c : Cache) (s lru : Nat), c.lru_way s = some lru →
        (∀ i, i < 2 ^ c.bit_ways → c.cache_valid s i = true) ∧ lru < 2 ^ c.bit_ways) :=
  evict_LRU_assert_holds revS revP revBoxes_shuffled capacityAddrs (by decide) 131072
    (by decide)


/-! ## L1D hits -/

namespace Cache

theorem access_helper_pair (c : Cache) (a : Nat) :
    c.access_helper a = ((c.access_helper a).1, (c.access_helper a).2) := rfl

/-- Ages outside the set of the accessed line are not touched by `access_helper`. -/
theorem access_helper_last_access_other (c : Cache) (a s j : Nat)
    (hs : s ≠ c.set_index (a >>> LINE_SIZE)) :
    (c.access_helper a).2.last_access s j = c.last_access s j := by
  cases hf : c.find_tag (c.set_index (a >>> LINE_SIZE)) (c.tag (a >>> LINE_SIZE)) with
  | none => rw [access_helper_miss hf]
  | some i =>
    rw [access_helper_hit hf]
    simp only
    split
    · unfold promote
      rw [age_all_last_access, if_neg (fun h => hs h.1)]
      simp only [set2_apply]
      rw [if_neg (fun h => hs h.1)]
    · rfl

/-- Shape of a successful `insert`: some way `p` of the set was filled on a level with the
same parameters. -/
theorem insert_shape {c d : Cache} {l : Nat} (h : c.insert l = some d) :
    ∃ (e : Cache) (p : Nat), p < 2 ^ c.bit_ways ∧ e.bit_sets = c.bit_sets ∧ e.bit_ways = c.bit_ways ∧
      d = e.fill (c.set_index l) p (c.tag l) := by
  rcases insert_cases c (c.set_index l) with ⟨p, hf, hp, -⟩ | ⟨hf, lru, hl, hlt, -⟩
  · rw [insert_of_free hf] at h
    exact ⟨c, p, hp, rfl, rfl, (Option.some.inj h).symm⟩
  · rw [insert_of_full hf hl] at h
    exact ⟨_, lru, hlt, evict_bit_sets _ _, evict_bit_ways _ _, (Option.some.inj h).symm⟩

end Cache

namespace Controller

theorem L1D_access_of_hit {st : Controller} {a : Nat}
    (h : (st.L1D.access_helper a).1 = true) :
    st.L1D_access a = some (0, st.setL1D (st.L1D.access_helper a).2) := by
  unfold Controller.L1D_access
  rw [Cache.access_helper_pair, h]

/-- On an L1D miss the result is at least 1 and the new L1D is the outcome of an `insert` of
the line. -/
theorem L1D_access_of_miss {st st' : Controller} {a r : Nat}
    (h : (st.L1D.access_helper a).1 = false) (e : st.L1D_access a = some (r, st')) :
    r ≠ 0 ∧ ∃ c : Cache, c.insert (a >>> LINE_SIZE) = some st'.L1D := by
  unfold Controller.L1D_access at e
  rw [Cache.access_helper_pair, h] at e
  simp only at e
  obtain ⟨r1, -, e2⟩ := Option.bind_eq_some.mp e
  obtain ⟨st2, e3, e4⟩ := Option.map_eq_some'.mp e2
  unfold Controller.L1D_insert at e3
  obtain ⟨c', e5, e6⟩ := Option.map_eq_some'.mp e3
  obtain ⟨hr, hst⟩ := Prod.mk.inj e4
  refine ⟨by omega, r1.2.L1D, ?_⟩
  rw [← hst, ← e6]
  exact e5

theorem access_eq_L1D_access {st : Controller} {addr : Nat} (haddr : addr < 2 ^ 46) :
    st.access addr = st.L1D_access addr := by
  unfold Controller.access
  rw [if_pos (addr_assert haddr)]

/-- An access that returns 0 is an L1D hit and only stores the `access_helper` result. -/
theorem access_zero {st st' : Controller} {addr : Nat} (haddr : addr < 2 ^ 46)
    (e : st.access addr = some (0, st')) :
    (st.L1D.access_helper addr).1 = true ∧ st' = st.setL1D (st.L1D.access_helper addr).2 := by
  rw [access_eq_L1D_access haddr] at e
  cases h : (st.L1D.access_helper addr).1 with
  | false => exact absurd rfl (L1D_access_of_miss h e).1
  | true =>
    rw [L1D_access_of_hit h] at e
    exact ⟨rfl, (Prod.mk.inj (Option.some.inj e)).2.symm⟩

end Controller

/-- C20: hit frame: in every state reached from a fresh controller and for every
`addr < 2^46`, an access that returns 0 leaves L2D and the LLC (arrays and tables) unchanged,
leaves the valid bits and tags of L1D unchanged, and changes no L1D age outside the set
indexed by the line of `addr`; such an access happens exactly when the line is valid in
L1D. -/
theorem hit_frame (s_box : Nat → Nat → Nat → Nat) (p_box : Nat → Nat → Nat)
    (hbox : ShuffledBoxes s_box p_box) (addrs : List Nat) (hall : ∀ a ∈ addrs, a < 2 ^ 46)
    (addr : Nat) (haddr : addr < 2 ^ 46) :
    ∃ st, Controller.exec s_box p_box addrs = some st ∧
      (st.L1D.valid_line (addr >>> LINE_SIZE) ↔ ∃ st', st.access addr = some (0, st')) ∧
      ∀ st', st.access addr = some (0, st') →
        st'.L2D = st.L2D ∧ st'.LLC = st.LLC ∧
        st'.L1D.cache_valid = st.L1D.cache_valid ∧ st'.L1D.cache_tag = st.L1D.cache_tag ∧
        ∀ s j, s ≠ (addr >>> LINE_SIZE) % 2 ^ 8 →
          st'.L1D.last_access s j = st.L1D.last_access s j := by
  obtain ⟨st, e, hi, -⟩ := Controller.exec_inv hbox addrs hall
  refine ⟨st, e, ⟨?_, ?_⟩, ?_⟩
  · intro hv
    have hh := (Cache.access_helper_fst_iff hi.shaped.bs1 addr).mpr hv
    exact ⟨_, (Controller.access_eq_L1D_access haddr).trans (Controller.L1D_access_of_hit hh)⟩
  · rintro ⟨st', e'⟩
    exact (Cache.access_helper_fst_iff hi.shaped.bs1 addr).mp (Controller.access_zero haddr e').1
  · intro st' e'
    obtain ⟨-, rfl⟩ := Controller.access_zero haddr e'
    refine ⟨rfl, rfl, Cache.access_helper_cache_valid _ _, Cache.access_helper_cache_tag _ _, ?_⟩
    intro s j hs
    apply Cache.access_helper_last_access_other
    rw [Cache.set_index_of hi.shaped.1 (by norm_num)]
    exact hs

theorem hit_frame_witness :
    ∃ st, Controller.exec revS revP [0, 64, 16384] = some st ∧
      (st.L1D.valid_line (0 >>> LINE_SIZE) ↔ ∃ st', st.access 0 = some (0, st')) ∧
      ∀ st', st.access 0 = some (0, st') →
        st'.L2D = st.L2D ∧ st'.LLC = st.LLC ∧
        st'.L1D.cache_valid = st.L1D.cache_valid ∧ st'.L1D.cache_tag = st.L1D.cache_tag ∧
        ∀ s j, s ≠ (0 >>> LINE_SIZE) % 2 ^ 8 →
          st'.L1D.last_access s j = st.L1D.last_access s j :=
  hit_frame revS revP revBoxes_shuffled [0, 64, 16384] (by decide) 0 (by decide)


namespace Cache

/-- A hit on a line all of whose matching ways have age 1 changes nothing. -/
theorem access_helper_of_mru {c : Cache} (hbs : c.bit_sets ≤ 16) {a : Nat}
    (hv : c.valid_line (a >>> LINE_SIZE))
    (hm : ∀ j, j < 2 ^ c.bit_ways →
      c.cache_valid ((a >>> LINE_SIZE) % 2 ^ c.bit_sets) j = true →
      c.cache_tag ((a >>> LINE_SIZE) % 2 ^ c.bit_sets) j = (a >>> LINE_SIZE) / 2 ^ c.bit_sets →
      c.last_access ((a >>> LINE_SIZE) % 2 ^ c.bit_sets) j = 1) :
    c.access_helper a = (true, c) := by
  obtain ⟨i, hi, hvt, -, he⟩ := access_helper_hit_cases hbs hv
  rw [he, if_neg (by rw [hm i hi hvt.1 hvt.2]; simp)]

/-- After a hit, the way of the line has age 1. -/
theorem access_helper_mru {c : Cache} (hbs : c.bit_sets ≤ 16) (hu : c.TagsUnique) {a : Nat}
    (hv : c.valid_line (a >>> LINE_SIZE)) (j : Nat) (hj : j < 2 ^ c.bit_ways)
    (hvj : c.cache_valid ((a >>> LINE_SIZE) % 2 ^ c.bit_sets) j = true)
    (htj : c.cache_tag ((a >>> LINE_SIZE) % 2 ^ c.bit_sets) j =
      (a >>> LINE_SIZE) / 2 ^ c.bit_sets) :
    (c.access_helper a).2.last_access ((a >>> LINE_SIZE) % 2 ^ c.bit_sets) j = 1 := by
  obtain ⟨i, hi, hvt, -, he⟩ := access_helper_hit_cases hbs hv
  have hji : j = i := hu _ j i hj hi hvj hvt.1 (htj.trans hvt.2.symm)
  subst hji
  rw [he]
  simp only
  split
  · rw [promote_last_access c _ j hi hvt.1]
    simp
  · rename_i h1
    simpa using h1

/-- Re-access of a line of age 1 returns the level unchanged. -/
theorem AgeOne.reaccess {c : Cache} (hbs : c.bit_sets ≤ 16) {a : Nat}
    (h : c.AgeOne (a >>> LINE_SIZE)) : c.access_helper a = (true, c) :=
  access_helper_of_mru hbs h.1 h.2

/-- A hit leaves the line with age 1. -/
theorem access_helper_ageOne {c : Cache} (hbs : c.bit_sets ≤ 16) (hu : c.TagsUnique) {a : Nat}
    (hv : c.valid_line (a >>> LINE_SIZE)) :
    (c.access_helper a).2.AgeOne (a >>> LINE_SIZE) := by
  refine ⟨(access_helper_valid_line c a _).mpr hv, ?_⟩
  intro j hj hvj htj
  simp only [access_helper_bit_sets, access_helper_bit_ways, access_helper_cache_valid,
    access_helper_cache_tag] at hj hvj htj ⊢
  exact access_helper_mru hbs hu hv j hj hvj htj

/-- The tail of `insert` leaves the line with age 1. -/
theorem fill_ageOne {d e : Cache} {l s p t : Nat} (hd : d = e.fill s p t)
    (hp : p < 2 ^ e.bit_ways) (hs : s = l % 2 ^ e.bit_sets) (ht : t = l / 2 ^ e.bit_sets)
    (hu : d.TagsUnique) : d.AgeOne l := by
  subst hd hs ht
  have hvp : (e.fill (l % 2 ^ e.bit_sets) p (l / 2 ^ e.bit_sets)).cache_valid
      (l % 2 ^ e.bit_sets) p = true := by
    rw [fill_valid_apply]
    simp
  have htp : (e.fill (l % 2 ^ e.bit_sets) p (l / 2 ^ e.bit_sets)).cache_tag
      (l % 2 ^ e.bit_sets) p = l / 2 ^ e.bit_sets := by
    rw [fill_tag_apply]
    simp
  refine ⟨⟨p, hp, hvp, htp⟩, ?_⟩
  intro j hj hvj htj
  have hjp : j = p := hu _ j p hj hp hvj hvp (htj.trans htp.symm)
  subst hjp
  show (e.fill (l % 2 ^ e.bit_sets) j (l / 2 ^ e.bit_sets)).last_access
    (l % 2 ^ e.bit_sets) j = 1
  rw [fill_last_access e _ j _ hp]
  simp

end Cache

namespace Controller

/-- Shape of a successful `insert` on L2D: the LLC is not touched and some way of the set was
filled. -/
theorem L2D_insert_shape {st st' : Controller} {l : Nat} (e : st.L2D_insert l = some st') :
    st'.LLC = st.LLC ∧ ∃ (c : Cache) (p : Nat), p < 2 ^ c.bit_ways ∧
      c.bit_sets = st.L2D.bit_sets ∧
      st'.L2D = c.fill (st.L2D.set_index l) p (st.L2D.tag l) := by
  unfold Controller.L2D_insert at e
  simp only at e
  cases hf : st.L2D.find_invalid (st.L2D.set_index l) with
  | some pos =>
    rw [hf] at e
    have e2 := Option.some.inj e
    subst e2
    exact ⟨rfl, st.L2D, pos, (Cache.find_invalid_some.mp hf).1, rfl, rfl⟩
  | none =>
    rw [hf] at e
    simp only [Controller.L2D_evict_LRU, Option.map_map] at e
    obtain ⟨lru, hl, e2⟩ := Option.map_eq_some'.mp e
    subst e2
    obtain ⟨-, hlt⟩ := Cache.lru_way_eq_some hl
    refine ⟨?_, (st.L2D_evict (st.L2D.victim (st.L2D.set_index l) lru)).L2D, lru, ?_, ?_, rfl⟩
    · simp only [Function.comp, setL2D_LLC, L2D_evict_LLC]
    · rw [L2D_evict_L2D, Cache.evict_bit_ways]
      exact hlt
    · rw [L2D_evict_L2D, Cache.evict_bit_sets]

/-- Shape of a successful `insert` on the LLC: some way of the set was filled. -/
theorem LLC_insert_shape {st st' : Controller} {l : Nat} (e : st.LLC_insert l = some st') :
    ∃ (c : Cache) (p : Nat), p < 2 ^ c.bit_ways ∧ c.bit_sets = st.LLC.bit_sets ∧
      st'.LLC.toCache = c.fill (st.LLC.set_index l) p (st.LLC.tag l) := by
  unfold Controller.LLC_insert at e
  simp only at e
  cases hf : st.LLC.find_invalid (st.LLC.set_index l) with
  | some pos =>
    rw [hf] at e
    have e2 := Option.some.inj e
    subst e2
    exact ⟨st.LLC.toCache, pos, (Cache.find_invalid_some.mp hf).1, rfl, rfl⟩
  | none =>
    rw [hf] at e
    simp only [Controller.LLC_evict_LRU, Option.map_map] at e
    obtain ⟨lru, hl, e2⟩ := Option.map_eq_some'.mp e
    subst e2
    obtain ⟨-, hlt⟩ := Cache.lru_way_eq_some hl
    refine ⟨(st.LLC_evict (st.LLC.victim (st.LLC.set_index l) lru)).LLC.toCache, lru, ?_, ?_,
      rfl⟩
    · rw [LLC_evict_LLC, Cache.evict_bit_ways]
      exact hlt
    · rw [LLC_evict_LLC, Cache.evict_bit_sets]

/-- After `CeaserCache::access` the ciphertext of the line has age 1 in the LLC. -/
theorem LLC_access_ageOne {st st' : Controller} {a r : Nat} (h : st.Inv) (h' : st'.Inv)
    (e : st.LLC_access a = some (r, st')) :
    st'.LLC.AgeOne (st.LLC.encrypt (a >>> LINE_SIZE)) := by
  have hline := reassemble_line (st.LLC.encrypt (a >>> LINE_SIZE)) a
  have hbs := h.shaped.bs3
  unfold Controller.LLC_access at e
  simp only at e
  by_cases hv : st.LLC.valid_line (st.LLC.encrypt (a >>> LINE_SIZE))
  · have hva : st.LLC.valid_line
        (((st.LLC.encrypt (a >>> LINE_SIZE) <<< LINE_SIZE) ||| (a &&& LINE_MASK)) >>>
          LINE_SIZE) := by rw [hline]; exact hv
    rw [Cache.access_helper_of_valid hbs hva] at e
    have e2 := (Prod.mk.inj (Option.some.inj e)).2
    subst e2
    have := Cache.access_helper_ageOne hbs h.u3 hva
    rw [hline] at this
    exact this
  · have hva : ¬ st.LLC.valid_line
        (((st.LLC.encrypt (a >>> LINE_SIZE) <<< LINE_SIZE) ||| (a &&& LINE_MASK)) >>>
          LINE_SIZE) := by rw [hline]; exact hv
    rw [Cache.access_helper_of_not_valid hbs hva] at e
    simp only [hline, setLLC_self] at e
    obtain ⟨st2, e2, e3⟩ := Option.map_eq_some'.mp e
    have e4 := (Prod.mk.inj e3).2
    subst e4
    obtain ⟨c, p, hp, hcs, hfill⟩ := LLC_insert_shape e2
    exact Cache.fill_ageOne hfill hp
      (by rw [hcs]; exact Cache.set_index_eq _ hbs _) (by rw [hcs]; exact Cache.tag_eq _ _) h'.u3

/-- After `Cache::access` on L2D the line has age 1 in L2D, and on a miss its ciphertext has
age 1 in the LLC. -/
theorem L2D_access_ageOne {st st' : Controller} {a r : Nat} (h : st.Inv)
    (ha : a >>> LINE_SIZE < 2 ^ 40) (e : st.L2D_access a = some (r, st')) :
    st'.Inv ∧ st'.L2D.AgeOne (a >>> LINE_SIZE) ∧
      (1 ≤ r → st'.LLC.AgeOne (st'.LLC.encrypt (a >>> LINE_SIZE))) := by
  have hbs := h.shaped.bs2
  obtain ⟨st0, e0, hi0, -⟩ := h.L2D_access a ha
  have hst : st0 = st' := (Prod.mk.inj (Option.some.inj (e0.symm.trans e))).2
  subst hst
  refine ⟨hi0, ?_⟩
  by_cases hv : st.L2D.valid_line (a >>> LINE_SIZE)
  · unfold Controller.L2D_access at e
    rw [Cache.access_helper_of_valid hbs hv] at e
    obtain ⟨hr, e2⟩ := Prod.mk.inj (Option.some.inj e)
    subst e2
    refine ⟨Cache.access_helper_ageOne hbs h.u2 hv, fun h1 => ?_⟩
    omega
  · unfold Controller.L2D_access at e
    rw [Cache.access_helper_of_not_valid hbs hv] at e
    simp only [setL2D_self] at e
    obtain ⟨r1, e1, e3⟩ := Option.bind_eq_some.mp e
    obtain ⟨st3, e4, e5⟩ := Option.map_eq_some'.mp e3
    have e6 := (Prod.mk.inj e5).2
    subst e6
    obtain ⟨st1, e1', hi1, -, -, -, henc1, -⟩ := h.LLC_access a
    have hr1 : r1 = (_, st1) := Option.some.inj (e1.symm.trans e1')
    have hst1 : r1.2 = st1 := by rw [hr1]
    have e1r : st.LLC_access a = some (r1.1, r1.2) := e1
    have hage := LLC_access_ageOne h (by rw [hst1]; exact hi1) e1r
    obtain ⟨hllc, c, p, hp, hcs, hfill⟩ := L2D_insert_shape e4
    refine ⟨?_, fun _ => ?_⟩
    · exact Cache.fill_ageOne hfill hp
        (by rw [hcs]; exact Cache.set_index_eq _ (by rw [hst1]; exact hi1.shaped.bs2) _)
        (by rw [hcs]; exact Cache.tag_eq _ _) hi0.u2
    · rw [hllc, hst1, henc1, ← hst1]
      exact hage

/-- After any access the line has age 1 at every level the access consulted, and the access
can be repeated without changing the state. -/
theorem Inv.access_ages {st : Controller} (h : st.Inv) (addr : Nat) (haddr : addr < 2 ^ 46) :
    ∃ r st1, st.access addr = some (r, st1) ∧ st1.Inv ∧
      st1.L1D.AgeOne (addr >>> LINE_SIZE) ∧
      (1 ≤ r → st1.L2D.AgeOne (addr >>> LINE_SIZE)) ∧
      (2 ≤ r → st1.LLC.AgeOne (st1.LLC.encrypt (addr >>> LINE_SIZE))) ∧
      st1.access addr = some (0, st1) := by
  have hbs := h.shaped.bs1
  obtain ⟨st1, e1, hi1, hv1, -⟩ := h.access addr haddr
  have e := e1
  rw [access_eq_L1D_access haddr] at e
  have key : st1.L1D.AgeOne (addr >>> LINE_SIZE) ∧
      (1 ≤ st.depth (addr >>> LINE_SIZE) → st1.L2D.AgeOne (addr >>> LINE_SIZE)) ∧
      (2 ≤ st.depth (addr >>> LINE_SIZE) →
        st1.LLC.AgeOne (st1.LLC.encrypt (addr >>> LINE_SIZE))) := by
    by_cases hv : st.L1D.valid_line (addr >>> LINE_SIZE)
    · have hd : st.depth (addr >>> LINE_SIZE) = 0 := by simp [depth, hv]
      rw [hd]
      unfold Controller.L1D_access at e
      rw [Cache.access_helper_of_valid hbs hv] at e
      have e2 := (Prod.mk.inj (Option.some.inj e)).2
      subst e2
      exact ⟨Cache.access_helper_ageOne hbs h.u1 hv, fun h1 => absurd h1 (by omega),
        fun h1 => absurd h1 (by omega)⟩
    · unfold Controller.L1D_access at e
      rw [Cache.access_helper_of_not_valid hbs hv] at e
      simp only [setL1D_self] at e
      obtain ⟨r2, e2, e3⟩ := Option.bind_eq_some.mp e
      obtain ⟨st3, e4, e5⟩ := Option.map_eq_some'.mp e3
      obtain ⟨hr, e6⟩ := Prod.mk.inj e5
      subst e6
      have e2r : st.L2D_access addr = some (r2.1, r2.2) := e2
      obtain ⟨hi2, hage2, hage3⟩ := L2D_access_ageOne h (addr_line_lt haddr) e2r
      unfold Controller.L1D_insert at e4
      obtain ⟨c, e7, e8⟩ := Option.map_eq_some'.mp e4
      subst e8
      obtain ⟨d, p, hp, hds, hdw, hfill⟩ := Cache.insert_shape e7
      refine ⟨?_, fun _ => hage2, fun h2 => hage3 (by omega)⟩
      exact Cache.fill_ageOne hfill (by rw [hdw]; exact hp)
        (by rw [hds]; exact Cache.set_index_eq _ hi2.shaped.bs1 _)
        (by rw [hds]; exact Cache.tag_eq _ _) hi1.u1
  refine ⟨_, st1, e1, hi1, key.1, key.2.1, key.2.2, ?_⟩
  have hh1 := Cache.AgeOne.reaccess hi1.shaped.bs1 key.1
  rw [access_eq_L1D_access haddr, L1D_access_of_hit (by rw [hh1]), hh1]
  rfl

/-- An LLC eviction keeps the invariant. -/
theorem Inv.keep_LLC_evict {st : Controller} (h : st.Inv) (w : Nat) : (st.LLC_evict w).Inv := by
  by_cases hv : st.LLC.valid_line w
  · rw [LLC_evict_eq h w hv]
    exact h.evictLLC w
  · rw [LLC_evict_of_not_valid h.shaped hv]
    exact h

theorem Inv.step_op {st : Controller} (h : st.Inv) (op : Op) (hok : op.ok = true) :
    ∃ st', st.step op = some st' ∧ st'.Inv := by
  cases op with
  | access addr =>
    have haddr : addr < 2 ^ 46 := of_decide_eq_true hok
    obtain ⟨st', e, hi, -⟩ := h.access addr haddr
    exact ⟨st', by simp only [Controller.step, e, Option.map_some'], hi⟩
  | evict line => exact ⟨_, rfl, h.keep_LLC_evict _⟩

theorem Inv.run_ops {st : Controller} (h : st.Inv) (ops : List Op)
    (hall : ∀ op ∈ ops, op.ok = true) : ∃ st', st.runOps ops = some st' ∧ st'.Inv := by
  induction ops generalizing st with
  | nil => exact ⟨st, rfl, h⟩
  | cons op rest ih =>
    obtain ⟨st1, e1, hi1⟩ := h.step_op op (hall op (List.mem_cons_self _ _))
    obtain ⟨st2, e2, hi2⟩ := ih hi1 (fun o ho => hall o (List.mem_cons_of_mem _ ho))
    exact ⟨st2, by simp only [Controller.runOps, e1, Option.some_bind, e2], hi2⟩

theorem execOps_inv {s_box : Nat → Nat → Nat → Nat} {p_box : Nat → Nat → Nat}
    (hbox : ShuffledBoxes s_box p_box) (ops : List Op) (hall : ∀ op ∈ ops, op.ok = true) :
    ∃ st, Controller.execOps s_box p_box ops = some st ∧ st.Inv := by
  obtain ⟨st0, e0, hi0, -⟩ := new_inv hbox
  obtain ⟨st, e, hi⟩ := hi0.run_ops ops hall
  exact ⟨st, by simp only [Controller.execOps, e0, Option.some_bind, e], hi⟩

end Controller

namespace Cache

theorem Cycling.of_filledTo {c : Cache} {s : Nat} {t : Nat → Nat} (h : c.FilledTo s t 4) :
    c.Cycling s t 0 :=
  ⟨fun i hi => ⟨(h.1 i hi).1, (h.1 i hi).2.1⟩, h.2, (h.1 0 (by omega)).2.2,
    (h.1 1 (by omega)).2.2, (h.1 2 (by omega)).2.2, (h.1 3 (by omega)).2.2⟩

/-- One re-access in the cycling phase: a hit on way 2 (even `k`) or way 3 (odd `k`). -/
theorem Cycling.hit_step {c : Cache} {s k a : Nat} {t : Nat → Nat} (hbs : c.bit_sets ≤ 16)
    (hw : 4 ≤ 2 ^ c.bit_ways) (h : c.Cycling s t k)
    (ht : ∀ i j, i < 4 → j < 4 → t i = t j → i = j)
    (hs : (a >>> LINE_SIZE) % 2 ^ c.bit_sets = s)
    (hta : (a >>> LINE_SIZE) / 2 ^ c.bit_sets = t (2 + k % 2)) :
    ∃ d, c.access_helper a = (true, d) ∧ d.bit_sets = c.bit_sets ∧ d.bit_ways = c.bit_ways ∧
      d.Cycling s t (k + 1) := by
  obtain ⟨h4, hinv, l0, l1, l2, l3⟩ := h
  have hlt : 2 + k % 2 < 4 := by omega
  have hv : c.valid_line (a >>> LINE_SIZE) :=
    ⟨2 + k % 2, by omega, by rw [hs]; exact (h4 _ hlt).1, by rw [hs, hta]; exact (h4 _ hlt).2⟩
  obtain ⟨i, hi, hvt, -, he⟩ := access_helper_hit_cases hbs hv
  rw [hs, hta] at hvt
  rw [hs] at he
  have hi4 : i < 4 := by
    by_contra hge
    have := hinv i (by omega)
    rw [this] at hvt
    exact Bool.noConfusion hvt.1
  have hie : i = 2 + k % 2 := ht i _ hi4 hlt ((h4 i hi4).2.symm.trans hvt.2)
  have hv0 := (h4 0 (by omega)).1
  have hv1 := (h4 1 (by omega)).1
  have hv2 := (h4 2 (by omega)).1
  have hv3 := (h4 3 (by omega)).1
  rcases Nat.mod_two_eq_zero_or_one k with hk | hk
  · have hk1 : (k + 1) % 2 = 1 := by omega
    rw [hk] at hie l2 l3
    simp only [if_true] at l2 l3
    subst hie
    have hage : c.last_access s 2 ≠ 1 := by rw [l2]; decide
    rw [if_pos hage] at he
    refine ⟨_, he, rfl, rfl, ?_, ?_, ?_, ?_, ?_, ?_⟩
    · intro j hj
      rw [promote_cache_valid, promote_cache_tag]
      exact h4 j hj
    · intro j hj
      rw [promote_cache_valid]
      exact hinv j hj
    · rw [promote_last_access c s 2 hi hv2, if_neg (by simp), if_pos ⟨rfl, by omega, hv0⟩, l0]
      omega
    · rw [promote_last_access c s 2 hi hv2, if_neg (by simp), if_pos ⟨rfl, by omega, hv1⟩, l1]
      omega
    · rw [promote_last_access c s 2 hi hv2, if_pos ⟨rfl, rfl⟩, hk1]
      rfl
    · rw [promote_last_access c s 2 hi hv2, if_neg (by simp), if_pos ⟨rfl, by omega, hv3⟩, l3,
        hk1]
      rfl
  · have hk1 : (k + 1) % 2 = 0 := by omega
    rw [hk] at hie l2 l3
    simp only [one_ne_zero, if_false] at l2 l3
    subst hie
    have hage : c.last_access s (2 + 1) ≠ 1 := by rw [l3]; decide
    rw [if_pos hage] at he
    refine ⟨_, he, rfl, rfl, ?_, ?_, ?_, ?_, ?_, ?_⟩
    · intro j hj
      rw [promote_cache_valid, promote_cache_tag]
      exact h4 j hj
    · intro j hj
      rw [promote_cache_valid]
      exact hinv j hj
    · rw [promote_last_access c s 3 hi hv3, if_neg (by simp), if_pos ⟨rfl, by omega, hv0⟩, l0]
      omega
    · rw [promote_last_access c s 3 hi hv3, if_neg (by simp), if_pos ⟨rfl, by omega, hv1⟩, l1]
      omega
    · rw [promote_last_access c s 3 hi hv3, if_neg (by simp), if_pos ⟨rfl, by omega, hv2⟩, l2,
        hk1]
      rfl
    · rw [promote_last_access c s 3 hi hv3, if_pos ⟨rfl, rfl⟩, hk1]
      rfl

theorem access_of_helper_hit {c d : Cache} {a : Nat} (h : c.access_helper a = (true, d)) :
    c.access a = some (0, d) := by
  unfold access
  rw [h]

/-- On a stand-alone level, `n` alternating re-accesses after the four fills. -/
theorem Cycling.level_hits {c : Cache} {s : Nat} {t : Nat → Nat} (a : Nat → Nat)
    (hbs : c.bit_sets ≤ 16) (hw : 4 ≤ 2 ^ c.bit_ways) (h0 : c.Cycling s t 0)
    (ht : ∀ i j, i < 4 → j < 4 → t i = t j → i = j)
    (hs : ∀ j, (a j >>> LINE_SIZE) % 2 ^ c.bit_sets = s)
    (hta : ∀ j, (a j >>> LINE_SIZE) / 2 ^ c.bit_sets = t (2 + j % 2)) (n : Nat) :
    ∃ d, c.run ((List.range n).map a) = some d ∧ d.bit_sets = c.bit_sets ∧
      d.bit_ways = c.bit_ways ∧ d.Cycling s t n := by
  induction n with
  | zero => exact ⟨c, rfl, rfl, rfl, h0⟩
  | succ n ih =>
    obtain ⟨d, hrun, h1, h2, hc⟩ := ih
    obtain ⟨e, he, he1, he2, hec⟩ := Cycling.hit_step (a := a n) (by rw [h1]; exact hbs)
      (by rw [h2]; exact hw) hc ht (by rw [h1]; exact hs n) (by rw [h1]; exact hta n)
    refine ⟨e, ?_, he1.trans h1, he2.trans h2, hec⟩
    rw [List.range_succ, List.map_append, run_append, hrun]
    simp only [Option.some_bind, List.map_cons, List.map_nil, run, access_of_helper_hit he]

end Cache

namespace Controller

theorem run_concat (st : Controller) (xs ys : List Nat) :
    st.run (xs ++ ys) = (st.run xs).bind fun d => d.run ys := by
  induction xs generalizing st with
  | nil => rfl
  | cons a t ih =>
    show ((st.access a).bind fun r => r.2.run (t ++ ys)) =
      ((st.access a).bind fun r => r.2.run t).bind fun d => d.run ys
    cases st.access a with
    | none => rfl
    | some r => exact ih r.2

/-- In the hierarchy, `n` alternating re-accesses after the four fills: all are L1D hits. -/
theorem hier_hits {st : Controller} {s : Nat} {t : Nat → Nat} (a : Nat → Nat)
    (hbs : st.L1D.bit_sets ≤ 16) (hw : 4 ≤ 2 ^ st.L1D.bit_ways) (h0 : st.L1D.Cycling s t 0)
    (ht : ∀ i j, i < 4 → j < 4 → t i = t j → i = j)
    (haddr : ∀ j, a j < 2 ^ 46)
    (hs : ∀ j, (a j >>> LINE_SIZE) % 2 ^ st.L1D.bit_sets = s)
    (hta : ∀ j, (a j >>> LINE_SIZE) / 2 ^ st.L1D.bit_sets = t (2 + j % 2)) (n : Nat) :
    ∃ st', st.run ((List.range n).map a) = some st' ∧ st'.L1D.bit_sets = st.L1D.bit_sets ∧
      st'.L1D.bit_ways = st.L1D.bit_ways ∧ st'.L1D.Cycling s t n := by
  induction n with
  | zero => exact ⟨st, rfl, rfl, rfl, h0⟩
  | succ n ih =>
    obtain ⟨st1, hrun, h1, h2, hc⟩ := ih
    obtain ⟨e, he, he1, he2, hec⟩ := Cache.Cycling.hit_step (a := a n) (by rw [h1]; exact hbs)
      (by rw [h2]; exact hw) hc ht (by rw [h1]; exact hs n) (by rw [h1]; exact hta n)
    have hacc : st1.access (a n) = some (0, st1.setL1D e) := by
      rw [access_eq_L1D_access (haddr n), L1D_access_of_hit (by rw [he]), he]
    refine ⟨st1.setL1D e, ?_, he1.trans h1, he2.trans h2, hec⟩
    rw [List.range_succ, List.map_append, run_concat, hrun]
    simp only [Option.some_bind, List.map_cons, List.map_nil, run, hacc]

theorem exec_concat (s_box : Nat → Nat → Nat → Nat) (p_box : Nat → Nat → Nat)
    (xs ys : List Nat) :
    Controller.exec s_box p_box (xs ++ ys) =
      (Controller.exec s_box p_box xs).bind fun st => st.run ys := by
  unfold Controller.exec
  cases Controller.new s_box p_box with
  | none => rfl
  | some st => exact run_concat st xs ys

end Controller

theorem sameSetAddr_set (i : Nat) : (sameSetAddr i >>> LINE_SIZE) % 2 ^ 8 = 0 := by
  rw [sameSetAddr_line]
  omega

theorem sameSetAddr_tag (i : Nat) : (sameSetAddr i >>> LINE_SIZE) / 2 ^ 8 = i := by
  rw [sameSetAddr_line]
  omega

theorem sameSetAddr_lt (i : Nat) (hi : i < 2 ^ 30) : sameSetAddr i < 2 ^ 46 := by
  have h6 : LINE_SIZE = 6 := rfl
  unfold sameSetAddr
  rw [h6, Nat.shiftLeft_eq]
  omega

/-- C18 fails on a long trace: on a fresh controller, after the accesses to the lines 0, 256,
512, 768 followed by 65533 accesses alternating the lines 512 and 768 (65537 accesses in
all), the ways 0 and 2 of set 0 of L1D are both valid and both carry the age 1: the 16-bit
counter of way 0 went 4, 5, .., 65535, 0, 1. -/
theorem distinct_ages_wrap (s_box : Nat → Nat → Nat → Nat) (p_box : Nat → Nat → Nat)
    (hbox : ShuffledBoxes s_box p_box) :
    ∃ st, Controller.exec s_box p_box (wrapTrace 65533) = some st ∧
      (0 < 2 ^ st.L1D.bit_ways ∧ 2 < 2 ^ st.L1D.bit_ways) ∧
      st.L1D.cache_valid 0 0 = true ∧ st.L1D.cache_valid 0 2 = true ∧
      st.L1D.last_access 0 0 = 1 ∧ st.L1D.last_access 0 2 = 1 := by
  obtain ⟨st0, e0, hi0, hrun0, -⟩ := Controller.exec_nofull hbox ((List.range 4).map sameSetAddr)
    (by simp) (by
      intro x hx
      obtain ⟨i, hi, rfl⟩ := List.mem_map.mp hx
      exact sameSetAddr_lt i (by have := List.mem_range.mp hi; omega))
  obtain ⟨c, hrun, hc1, hc2, hf⟩ := Cache.run_fill 8 3 (by norm_num) (by norm_num) sameSetAddr 0
    (fun i _ => sameSetAddr_set i)
    (fun i j _ _ h => by rw [sameSetAddr_line, sameSetAddr_line] at h; omega) 4 (by norm_num)
  have hc : c = st0.L1D := Option.some.inj (hrun.symm.trans hrun0)
  subst hc
  have htag : (fun i => (sameSetAddr i >>> LINE_SIZE) / 2 ^ 8) = fun i => i :=
    funext sameSetAddr_tag
  rw [htag] at hf
  obtain ⟨st, e, h1, h2, hcyc⟩ := Controller.hier_hits (s := 0)
    (t := fun i => i) hitAddr (by rw [hc1]; norm_num)
    (by rw [hc2]; norm_num) (Cache.Cycling.of_filledTo hf)
    (fun i j _ _ h => h)
    (fun j => sameSetAddr_lt _ (by omega))
    (fun j => by rw [hc1]; exact sameSetAddr_set _)
    (fun j => by rw [hc1]; exact sameSetAddr_tag _) 65533
  refine ⟨st, ?_, ?_, (hcyc.1 0 (by omega)).1, (hcyc.1 2 (by omega)).1, ?_, ?_⟩
  · unfold wrapTrace
    rw [Controller.exec_concat, e0, Option.some_bind]
    exact e
  · rw [h2, hc2]
    norm_num
  · rw [hcyc.2.2.1]
    norm_num
  · rw [hcyc.2.2.2.2.1]
    norm_num

theorem distinct_ages_wrap_witness :
    ∃ st, Controller.exec revS revP (wrapTrace 65533) = some st ∧
      (0 < 2 ^ st.L1D.bit_ways ∧ 2 < 2 ^ st.L1D.bit_ways) ∧
      st.L1D.cache_valid 0 0 = true ∧ st.L1D.cache_valid 0 2 = true ∧
      st.L1D.last_access 0 0 = 1 ∧ st.L1D.last_access 0 2 = 1 :=
  distinct_ages_wrap revS revP revBoxes_shuffled

namespace Cache

/-- On a full 4-way set in the cycling phase whose way 1 carries the greatest age, the next
distinct line evicts way 1: the line of way 0, although accessed earlier, stays. -/
theorem Cycling.evicts_way1 {c : Cache} {s k a y z : Nat} {t : Nat → Nat}
    (hbs : c.bit_sets ≤ 16) (hw : c.bit_ways = 2) (h : c.Cycling s t k)
    (hk0 : (4 + k) % 2 ^ 16 < (3 + k) % 2 ^ 16) (hk2 : 2 < (3 + k) % 2 ^ 16)
    (ht : ∀ i j, i < 5 → j < 5 → t i = t j → i = j)
    (hs : (a >>> LINE_SIZE) % 2 ^ c.bit_sets = s)
    (hta : (a >>> LINE_SIZE) / 2 ^ c.bit_sets = t 4)
    (hys : y % 2 ^ c.bit_sets = s) (hyt : y / 2 ^ c.bit_sets = t 0)
    (hzs : z % 2 ^ c.bit_sets = s) (hzt : z / 2 ^ c.bit_sets = t 1) :
    ∃ d, c.access a = some (1, d) ∧ d.valid_line y ∧ ¬ d.valid_line z := by
  obtain ⟨h4, hinv, l0, l1, l2, l3⟩ := h
  have hways : 2 ^ c.bit_ways = 4 := by rw [hw]; rfl
  have hs2 : s < 2 ^ c.bit_sets := by rw [← hs]; exact Nat.mod_lt _ (by positivity)
  have hall : ∀ j, j < 2 ^ c.bit_ways → c.cache_valid s j = true := fun j hj =>
    (h4 j (by omega)).1
  have hnv : ¬ c.valid_line (a >>> LINE_SIZE) := by
    rintro ⟨i, hi, _, htag⟩
    rw [hs, hta, (h4 i (by omega)).2] at htag
    have := ht i 4 (by omega) (by omega) htag
    omega
  have hfi : c.find_invalid (c.set_index (a >>> LINE_SIZE)) = none := by
    rw [set_index_eq c hbs, hs, find_invalid_none]
    exact hall
  obtain ⟨lru, hl, hlt, hmax, -⟩ := lru_way_some hall
  have hlru : lru = 1 := by
    have hm1 := hmax 1 (by omega)
    rw [l1] at hm1
    have hlt4 : lru < 4 := by omega
    interval_cases lru
    · rw [l0] at hm1; omega
    · rfl
    · rw [l2] at hm1; split at hm1 <;> omega
    · rw [l3] at hm1; split at hm1 <;> omega
  subst hlru
  have hft : c.find_tag (c.set_index (c.victim s 1)) (c.tag (c.victim s 1)) = some 1 := by
    rw [set_index_eq c hbs, tag_eq, victim_mod c hs2, victim_div c hs2, find_tag_some]
    refine ⟨hlt, ⟨hall 1 hlt, rfl⟩, ?_⟩
    intro j hj
    have hj0 : j = 0 := by omega
    subst hj0
    rintro ⟨-, htag⟩
    rw [(h4 0 (by omega)).2, (h4 1 (by omega)).2] at htag
    have := ht 0 1 (by omega) (by omega) htag
    omega
  have hl2 : c.lru_way (c.set_index (a >>> LINE_SIZE)) = some 1 := by
    rw [set_index_eq c hbs, hs]; exact hl
  refine ⟨(c.invalidate s 1).fill s 1 (t 4), ?_, ?_, ?_⟩
  · rw [access_of_not_valid hbs hnv, insert_of_full hfi hl2, set_index_eq c hbs, tag_eq, hs, hta,
      evict_of_some hft, set_index_eq c hbs, victim_mod c hs2]
    rfl
  · refine ⟨0, ?_, ?_, ?_⟩
    · simp only [fill_bit_ways, invalidate_bit_ways]
      omega
    · simp only [fill_bit_sets, invalidate_bit_sets, fill_valid_apply, invalidate_valid_apply,
        hys]
      simpa using (h4 0 (by omega)).1
    · simp only [fill_bit_sets, invalidate_bit_sets, fill_tag_apply, invalidate_cache_tag,
        hys, hyt]
      simpa using (h4 0 (by omega)).2
  · rintro ⟨i, hi, hv, htag⟩
    simp only [fill_bit_sets, fill_bit_ways, invalidate_bit_sets, invalidate_bit_ways,
      fill_valid_apply, fill_tag_apply, invalidate_cache_tag] at hi hv htag
    rw [hzs] at hv htag
    rw [hzt] at htag
    by_cases hi1 : i = 1
    · subst hi1
      simp only [and_self, if_true] at htag
      have := ht 4 1 (by omega) (by omega) htag
      omega
    · simp only [hi1, and_false, if_false] at htag
      rw [(h4 i (by omega)).2] at htag
      exact hi1 (ht i 1 (by omega) (by omega) htag)

end Cache

/-! ## Reference true-LRU model on the long trace -/

theorem refLRU_stack_append (xs ys : List Nat) :
    refLRU_stack (xs ++ ys) =
      ys.foldl (fun stack a => (a >>> LINE_SIZE) :: stack.erase (a >>> LINE_SIZE))
        (refLRU_stack xs) := by
  unfold refLRU_stack
  rw [List.foldl_append]

theorem refLRU_stack_fill : refLRU_stack ((List.range 4).map sameSetAddr) = [768, 512, 256, 0] := by
  decide

theorem refLRU_stack_hits (n : Nat) :
    ((List.range n).map hitAddr).foldl
        (fun stack a => (a >>> LINE_SIZE) :: stack.erase (a >>> LINE_SIZE)) [768, 512, 256, 0] =
      if n % 2 = 0 then [768, 512, 256, 0] else [512, 768, 256, 0] := by
  induction n with
  | zero => rfl
  | succ n ih =>
    rw [List.range_succ, List.map_append, List.foldl_append, ih]
    simp only [List.map_cons, List.map_nil, List.foldl_cons, List.foldl_nil, hitAddr,
      sameSetAddr_line]
    rcases Nat.mod_two_eq_zero_or_one n with hn | hn
    · have hn1 : (n + 1) % 2 = 1 := by omega
      rw [hn, hn1]
      decide
    · have hn1 : (n + 1) % 2 = 0 := by omega
      rw [hn, hn1]
      decide

/-- C16 fails on a long trace. On a stand-alone level with 8 set bits and 4 ways, starting from
empty storage, access the lines 0, 256, 512, 768 of set 0, then 65532 times alternately the
lines 512 and 768, then line 1024. The 16-bit ages of ways 0 and 1 have by then gone from 4
and 3 to 0 (wrapped) and 65535, so `evict_LRU` takes way 1: the level keeps line 0 and loses
line 256, whereas the reference true-LRU model keeps the four most recently accessed lines
1024, 768, 512, 256 and loses line 0. -/
theorem true_lru_wrap :
    ∃ c, (Cache.new 8 2).run (wrapTrace 65532 ++ [sameSetAddr 4]) = some c ∧
      c.valid_line 0 ∧ ¬ c.valid_line 256 ∧
      refLRU_set 8 2 (wrapTrace 65532 ++ [sameSetAddr 4]) 0 = [1024, 768, 512, 256] := by
  obtain ⟨c, hrun, hc1, hc2, hf⟩ := Cache.run_fill 8 2 (by norm_num) (by norm_num) sameSetAddr 0
    (fun i _ => sameSetAddr_set i)
    (fun i j _ _ h => by rw [sameSetAddr_line, sameSetAddr_line] at h; omega) 4 (by norm_num)
  have htag : (fun i => (sameSetAddr i >>> LINE_SIZE) / 2 ^ 8) = fun i => i :=
    funext sameSetAddr_tag
  rw [htag] at hf
  obtain ⟨d, hd, h1, h2, hcyc⟩ := Cache.Cycling.level_hits (c := c) (s := 0) (t := fun i => i)
    hitAddr (by rw [hc1]; norm_num) (by rw [hc2]; norm_num) (Cache.Cycling.of_filledTo hf)
    (fun i j _ _ h => h)
    (fun j => by rw [hc1]; exact sameSetAddr_set _)
    (fun j => by rw [hc1]; exact sameSetAddr_tag _) 65532
  have hd1 : d.bit_sets = 8 := h1.trans hc1
  obtain ⟨e, he, hv0, hv1⟩ := Cache.Cycling.evicts_way1 (a := sameSetAddr 4) (y := 0) (z := 256)
    (by rw [hd1]; norm_num) (h2.trans hc2) hcyc (by norm_num) (by norm_num)
    (fun i j _ _ h => h)
    (by rw [hd1]; exact sameSetAddr_set _) (by rw [hd1]; exact sameSetAddr_tag _)
    (by rw [hd1]; norm_num) (by rw [hd1]; norm_num) (by rw [hd1]; norm_num)
    (by rw [hd1]; norm_num)
  refine ⟨e, ?_, hv0, hv1, ?_⟩
  · unfold wrapTrace
    rw [Cache.run_append, Cache.run_append, hrun, Option.some_bind, hd, Option.some_bind]
    simp only [Cache.run, he, Option.some_bind]
  · unfold refLRU_set wrapTrace
    rw [refLRU_stack_append, refLRU_stack_append, refLRU_stack_fill, refLRU_stack_hits]
    decide

end CacheSim
